import Mathlib

set_option autoImplicit false
set_option linter.unusedSectionVars false
set_option linter.unusedVariables false

/-!
# ADS_set: a coalesced-hashing set (`src/ADS_set.h`)

A shallow embedding of the container `ADS_set<Key, N>` and a verification of
its storage engine: lookup, insertion with overflow chaining, growth by
rehashing, and deletion with chain repair; and of the iterator, the bulk
insert and the comparison of containers built on it.

Conventions of the embedding.

* The backing array `table` is a `List (element Key)`; a read or write at an
  index outside the array (undefined behaviour in C++) makes the operation
  return `none`.
* The `int` links `next`/`prev` are `Option Nat`: `-1` is `none`, any other
  value is `some index`.  Slot indices are assumed to fit in an `int`, that is,
  tables have fewer than `2 ^ 31` slots.
* `size_type` values are natural numbers.  The pre-decrement of an unsigned
  zero wraps to `2 ^ 64 - 1` (`dec64`); the increments of `curr_size` and of a
  slot index are assumed not to reach `2 ^ 64`.
* The sizes that the growth path computes, `curr_size + 1`,
  `new_table_size * 2 + 1` and
  `new_table_size + static_cast<size_type>(new_table_size*cellar)`, come in two
  forms.  `rehash`, `reserve`, `insert`, `insert_range`, `new`, `clear`, `run`
  and `Reachable` take them as natural numbers: that is what the code computes
  as long as none of them reaches `2 ^ 64`.  `rehash64`, `reserve64`,
  `insert64`, `insert_range64`, `new64`, `clear64`, `run64` and `Reachable64`
  reduce them modulo `2 ^ 64`, as `size_type` does for every input.  The two
  forms agree while the sizes stay in range (`rehash64_eq`, `reserve64_eq`,
  `insert64_eq`, `insert_range64_eq`, `run64_eq`), and a state that the second
  form reaches with a primary size below `2 ^ 62` is reached by the first
  (`Reachable64.ideal`).  Outside that range they differ: for
  `N = 15864073173679996928` the sum `N + floor(N * cellar)` is `2 ^ 64` and
  the table of `new64` is the sentinel alone (`exWrapped`).
* `max_lf` and `cellar` are C++ `float`s, taken as IEEE-754 single precision
  with every operation rounded to `float` (the evaluation mode of x86-64 and
  AArch64 compilers).  Their arithmetic is modelled exactly: a non-negative
  float is a natural number scaled by a power of two, and every conversion,
  product and quotient is rounded to 24 significant bits, ties to even
  (`round24`, `rne`).  Exponent overflow and underflow do not occur in the range
  of any `size_type`.
* Every loop carries a step budget (`fuel`); running out of budget is `none`.
  The theorems show that the budget is never exhausted on reachable states.
* A recorded run (`erase_log`, `erase_rec`, `probe_cursors`, `tail_path`)
  repeats a loop of the embedding and returns, besides its result, the slots or
  passes that the loop went through; `erase_log_state` and `erase_rec_erase`
  show that the recorded `erase` computes the result of `erase`.
-/

namespace ADS

/-! ## Data model -/

/-- The slot state `enum class Mode{free, used, end}`. -/
inductive Mode where
  | free
  | used
  | end_
deriving DecidableEq, Repr

/-- The slot record `struct element`. -/
structure element (Key : Type) where
  key : Key
  mode : Mode
  next : Option Nat
  prev : Option Nat
deriving DecidableEq, Repr

/-- The data members of `ADS_set` (`max_lf` and `cellar` never change and are
the constants of `exceeds`, `divLf` and `cellarOf`). -/
structure ADS_set (Key : Type) where
  table : List (element Key)
  curr_size : Nat
  table_size : Nat
  table_last : Nat
  full_table : Nat
deriving DecidableEq, Repr

/-! ## Single-precision arithmetic of the load factor and the cellar ratio -/

/-- Quotient `a / b` rounded to the nearest integer, ties to even. -/
def rne (a b : Nat) : Nat :=
  if 2 * (a % b) < b then a / b
  else if b < 2 * (a % b) then a / b + 1
  else if (a / b) % 2 = 0 then a / b else a / b + 1

/-- The number of low bits that a natural number loses when it is cut to 24
significant bits: the least `s` with `x / 2^s < 2^24` (`fuel` bounds the search
and `fuel = x` always suffices). -/
def shift24 : Nat → Nat → Nat
  | 0, _ => 0
  | fuel + 1, x => if x < 2 ^ 24 then 0 else shift24 fuel (x / 2) + 1

/-- Rounding of a natural number to 24 significant bits (the value that a
conversion to `float` or a `float` operation with this exact significand
yields). -/
def round24 (x : Nat) : Nat :=
  rne x (2 ^ shift24 x x) * 2 ^ shift24 x x

/-- The least `k` with `2^23 ≤ a * 2^k / b` (`fuel` bounds the search). -/
def up24 : Nat → Nat → Nat → Nat
  | 0, _, _ => 0
  | fuel + 1, a, b => if 2 ^ 23 ≤ a / b then 0 else up24 fuel (2 * a) b + 1

/-- The significand of `max_lf`: `0.7f = 11744051 / 2^24`. -/
def lfMant : Nat := 11744051

/-- The significand of `cellar`: `0.1628f = 10925323 / 2^26`. -/
def cellarMant : Nat := 10925323

/-- The test `n > table_size * max_lf` of `reserve`: both sides are `float`s,
`n` and `table_size` are converted, the product is rounded. -/
def exceeds (n t : Nat) : Bool :=
  decide (round24 (round24 t * lfMant) < round24 n * 2 ^ 24)

/-- The value `static_cast<size_type>(curr_size / max_lf)` of `rehash`: the
`float` quotient of the converted `curr_size` by `max_lf`, rounded to 24
significant bits, then truncated. -/
def divLf (s : Nat) : Nat :=
  if round24 s * 2 ^ 24 / lfMant < 2 ^ 23 then
    rne (round24 s * 2 ^ 24 * 2 ^ up24 24 (round24 s * 2 ^ 24) lfMant) lfMant
      / 2 ^ up24 24 (round24 s * 2 ^ 24) lfMant
  else
    rne (round24 s * 2 ^ 24)
        (lfMant * 2 ^ shift24 (round24 s * 2 ^ 24 / lfMant) (round24 s * 2 ^ 24 / lfMant))
      * 2 ^ shift24 (round24 s * 2 ^ 24 / lfMant) (round24 s * 2 ^ 24 / lfMant)

/-- The value `static_cast<size_type>(new_table_size * cellar)` of `rehash`. -/
def cellarOf (t : Nat) : Nat :=
  round24 (round24 t * cellarMant) / 2 ^ 26

/-- Pre-decrement of a `size_type`. -/
def dec64 (x : Nat) : Nat :=
  if x = 0 then 2 ^ 64 - 1 else x - 1

/-! ## Operations -/

section Ops

variable {Key : Type} [DecidableEq Key] [Inhabited Key]

/-- An in-place update `table[i] = f(table[i])`. -/
def upd (t : List (element Key)) (i : Nat) (f : element Key → element Key) :
    Option (List (element Key)) :=
  match t[i]? with
  | none => none
  | some e => some (t.set i (f e))

/-- The hash function `h`: `hasher{}(key) % table_size`. -/
def h (hash : Key → Nat) (s : ADS_set Key) (key : Key) : Option Nat :=
  if s.table_size = 0 then none else some (hash key % s.table_size)

/-- The probe `g`: `(--table_last) % full_table`. -/
def g (s : ADS_set Key) : Option (Nat × ADS_set Key) :=
  if s.full_table = 0 then none
  else some (dec64 s.table_last % s.full_table, { s with table_last := dec64 s.table_last })

/-- The chain walk of `find_`: the `do ... while(next_ele != -1)` loop. -/
def find_loop (t : List (element Key)) (key : Key) : Nat → Nat → Option (Option Nat)
  | 0, _ => none
  | fuel + 1, next_ele =>
    match t[next_ele]? with
    | none => none
    | some e =>
      if e.mode = Mode.free then some none
      else if e.key = key then some (some next_ele)
      else
        match e.next with
        | none => some none
        | some n => find_loop t key fuel n

/-- The lookup `find_`: the index of the slot holding `key`, or `none` for
`nullptr`. -/
def find_ (hash : Key → Nat) (s : ADS_set Key) (key : Key) : Option (Option Nat) :=
  match h hash s key with
  | none => none
  | some idx =>
    match s.table[idx]? with
    | none => none
    | some e =>
      match e.mode with
      | Mode.free => some none
      | Mode.used =>
        if e.key = key then some (some idx)
        else
          match e.next with
          | none => some none
          | some n => find_loop s.table key s.table.length n
      | Mode.end_ => some none

/-- The walk to the end of a chain: from a slot follow `next` until it is `-1`
(the loops of `insert_` and of case B of `erase`). -/
def tail_loop (t : List (element Key)) : Nat → Nat → Option Nat
  | 0, _ => none
  | fuel + 1, idx =>
    match t[idx]? with
    | none => none
    | some e =>
      match e.next with
      | none => some idx
      | some n => tail_loop t fuel n

/-- The probe loop of `insert_`: `while(table[idx].mode != Mode::free) idx = g(key);`. -/
def probe_loop : Nat → ADS_set Key → Nat → Option (Nat × ADS_set Key)
  | 0, _, _ => none
  | fuel + 1, s, idx =>
    match s.table[idx]? with
    | none => none
    | some e =>
      if e.mode = Mode.free then some (idx, s)
      else
        match g s with
        | none => none
        | some (idx', s') => probe_loop fuel s' idx'

/-- The placement `insert_`: returns the index written and the new state. -/
def insert_ (hash : Key → Nat) (s : ADS_set Key) (key : Key) :
    Option (Nat × ADS_set Key) :=
  match h hash s key with
  | none => none
  | some idx =>
    match s.table[idx]? with
    | none => none
    | some e =>
      if e.mode = Mode.free then
        match upd s.table idx
            (fun x => { x with key := key, mode := Mode.used, next := none, prev := none }) with
        | none => none
        | some t => some (idx, { s with table := t, curr_size := s.curr_size + 1 })
      else if e.mode = Mode.used then
        match (match e.next with
               | none => some idx
               | some n => tail_loop s.table s.table.length n) with
        | none => none
        | some last_in_chain =>
          match probe_loop (s.table_last + s.full_table + 1) s idx with
          | none => none
          | some (idx', s1) =>
            match upd s1.table idx' (fun x => { x with key := key, mode := Mode.used }) with
            | none => none
            | some t1 =>
              match upd t1 last_in_chain (fun x => { x with next := some idx' }) with
              | none => none
              | some t2 =>
                match upd t2 idx' (fun x => { x with next := none, prev := some last_in_chain }) with
                | none => none
                | some t3 => some (idx', { s1 with table := t3, curr_size := s1.curr_size + 1 })
      else some (idx, s)

/-- The freshly allocated array of `rehash`: `full + 1` default slots, the last
one marked `end`. -/
def newTable (full : Nat) : List (element Key) :=
  List.replicate full ⟨default, Mode.free, none, none⟩ ++ [⟨default, Mode.end_, none, none⟩]

/-- The re-insertion loop of `rehash` over the old array, `k` slots remaining
from index `idx`. -/
def rehash_loop (hash : Key → Nat) (old : List (element Key)) :
    Nat → Nat → ADS_set Key → Option (ADS_set Key)
  | 0, _, s => some s
  | k + 1, idx, s =>
    match old[idx]? with
    | none => none
    | some e =>
      if e.mode = Mode.used then
        match insert_ hash s e.key with
        | none => none
        | some (_, s') => rehash_loop hash old k (idx + 1) s'
      else rehash_loop hash old k (idx + 1) s

/-- The growth step `rehash(n)` for minimum capacity `N`, with the sum
`new_table_size + static_cast<size_type>(new_table_size*cellar)` taken as a
natural number: the value in the code as long as the sum is below `2 ^ 64`.
`rehash64` reduces the sum modulo `2 ^ 64`. -/
def rehash (hash : Key → Nat) (N : Nat) (s : ADS_set Key) (n : Nat) : Option (ADS_set Key) :=
  let new_table_size := max N (max n (divLf s.curr_size))
  let new_full_table := new_table_size + cellarOf new_table_size
  rehash_loop hash s.table s.full_table 0
    { table := newTable new_full_table, curr_size := 0, table_size := new_table_size,
      table_last := new_full_table, full_table := new_full_table }

/-- The `do new = new * 2 + 1 while (n > new * max_lf)` loop of `reserve`. -/
def reserve_loop (n : Nat) : Nat → Nat → Option Nat
  | 0, _ => none
  | fuel + 1, new_table_size =>
    if exceeds n (new_table_size * 2 + 1) then reserve_loop n fuel (new_table_size * 2 + 1)
    else some (new_table_size * 2 + 1)

/-- The capacity check `reserve(n)`. -/
def reserve (hash : Key → Nat) (N : Nat) (s : ADS_set Key) (n : Nat) : Option (ADS_set Key) :=
  if exceeds n s.table_size then
    match reserve_loop n (n + 1) s.table_size with
    | none => none
    | some new_table_size => rehash hash N s new_table_size
  else some s

/-- The members before the constructor body runs: `table{nullptr}`, all sizes 0. -/
def blank : ADS_set Key :=
  { table := [], curr_size := 0, table_size := 0, table_last := 0, full_table := 0 }

/-- The default constructor `ADS_set()`: `rehash(N)`. -/
def new (hash : Key → Nat) (N : Nat) : Option (ADS_set Key) :=
  rehash hash N blank N

/-- The iterator's `skip`: advance to the first slot that is `used` or `end`. -/
def skip (t : List (element Key)) : Nat → Nat → Option Nat
  | 0, _ => none
  | fuel + 1, pos =>
    match t[pos]? with
    | none => none
    | some e =>
      if e.mode ≠ Mode.used ∧ e.mode ≠ Mode.end_ then skip t fuel (pos + 1) else some pos

/-- The constructor `Iterator{pos}` for a slot of the table. -/
def iterator (s : ADS_set Key) (pos : Nat) : Option Nat :=
  skip s.table (s.table.length + 1) pos

/-- The dereference `*it`. -/
def deref (s : ADS_set Key) (it : Nat) : Option Key :=
  (s.table[it]?).map (fun e => e.key)

/-- The iterator `end()`. -/
def end_it (s : ADS_set Key) : Option Nat :=
  iterator s s.full_table

/-- The member `size()`. -/
def size (s : ADS_set Key) : Nat := s.curr_size

/-- The member `count(key)`: `!!find_(key)`. -/
def count (hash : Key → Nat) (s : ADS_set Key) (key : Key) : Option Nat :=
  match find_ hash s key with
  | none => none
  | some none => some 0
  | some (some _) => some 1

/-- The member `find(key)`. -/
def find (hash : Key → Nat) (s : ADS_set Key) (key : Key) : Option Nat :=
  match find_ hash s key with
  | none => none
  | some none => end_it s
  | some (some p) => iterator s p

/-- The member `insert(key)`: the iterator, the flag `inserted`, the new state. -/
def insert (hash : Key → Nat) (N : Nat) (s : ADS_set Key) (key : Key) :
    Option (Nat × Bool × ADS_set Key) :=
  match find_ hash s key with
  | none => none
  | some (some p) =>
    match iterator s p with
    | none => none
    | some it => some (it, false, s)
  | some none =>
    match reserve hash N s (s.curr_size + 1) with
    | none => none
    | some s1 =>
      match insert_ hash s1 key with
      | none => none
      | some (p, s2) =>
        match iterator s2 p with
        | none => none
        | some it => some (it, true, s2)

/-- The range and list `insert(first, last)`. -/
def insert_range (hash : Key → Nat) (N : Nat) : ADS_set Key → List Key → Option (ADS_set Key)
  | s, [] => some s
  | s, key :: rest =>
    match count hash s key with
    | none => none
    | some 0 =>
      match reserve hash N s (s.curr_size + 1) with
      | none => none
      | some s1 =>
        match insert_ hash s1 key with
        | none => none
        | some (_, s2) => insert_range hash N s2 rest
    | some _ => insert_range hash N s rest

/-- The re-settle loop of `erase`: `while(nextone != -1) { ... }`. -/
def erase_loop (hash : Key → Nat) : Nat → ADS_set Key → Option Nat → Option (ADS_set Key)
  | _, s, none => some s
  | 0, _, some _ => none
  | fuel + 1, s, some nextone =>
    match s.table[nextone]? with
    | none => none
    | some e =>
      match h hash s e.key with
      | none => none
      | some index =>
        match upd s.table nextone (fun x => { x with next := none }) with
        | none => none
        | some t1 =>
          match t1[index]? with
          | none => none
          | some e2 =>
            if e2.mode = Mode.free then
              match insert_ hash { s with table := t1, curr_size := dec64 s.curr_size } e.key with
              | none => none
              | some (_, s2) =>
                match upd s2.table nextone
                    (fun x => { x with mode := Mode.free, next := none, prev := none }) with
                | none => none
                | some t3 => erase_loop hash fuel { s2 with table := t3 } e.next
            else
              match tail_loop t1 t1.length index with
              | none => none
              | some tl =>
                match upd t1 tl (fun x => { x with next := some nextone }) with
                | none => none
                | some t2 =>
                  match upd t2 nextone (fun x => { x with prev := some tl }) with
                  | none => none
                  | some t3 => erase_loop hash fuel { s with table := t3 } e.next

/-- The member `erase(key)`: the number of keys removed and the new state. -/
def erase (hash : Key → Nat) (s : ADS_set Key) (key : Key) : Option (Nat × ADS_set Key) :=
  match find_ hash s key with
  | none => none
  | some none => some (0, s)
  | some (some p) =>
    match s.table[p]? with
    | none => none
    | some e =>
      match upd s.table p (fun x => { x with mode := Mode.free, next := none, prev := none }) with
      | none => none
      | some t1 =>
        match (match e.prev with
               | none => some t1
               | some previous => upd t1 previous (fun x => { x with next := none })) with
        | none => none
        | some t2 =>
          match erase_loop hash t2.length
              { s with table := t2, curr_size := dec64 s.curr_size } e.next with
          | none => none
          | some s3 => some (1, { s3 with table_last := s3.full_table })

/-- The member `clear()`: swap with a default-constructed container. -/
def clear (hash : Key → Nat) (N : Nat) (_s : ADS_set Key) : Option (ADS_set Key) :=
  new hash N

end Ops

/-! ## Invariants and specification vocabulary -/

section Spec

variable {Key : Type} [DecidableEq Key] [Inhabited Key]

/-- The slots of `l` are used and each one's `next` is the following slot of
`l`; the last one has no `next`. -/
def NextLinked (t : List (element Key)) : List Nat → Prop
  | [] => True
  | a :: rest =>
    ∃ e, t[a]? = some e ∧ e.mode = Mode.used ∧ e.next = rest.head? ∧ NextLinked t rest

/-- The slots of `l` are used and doubly linked in this order, the first one's
`prev` being `p` and the last one's `next` being empty. -/
def Linked (t : List (element Key)) : Option Nat → List Nat → Prop
  | _, [] => True
  | p, a :: rest =>
    ∃ e, t[a]? = some e ∧ e.mode = Mode.used ∧ e.prev = p ∧ e.next = rest.head?
      ∧ Linked t (some a) rest

/-- Every key of the chain `c` has its home slot in `c`, at the head when the
key sits in the head and strictly before the key's slot otherwise. -/
def HomeOK (hash : Key → Nat) (P : Nat) (t : List (element Key)) (c : List Nat) : Prop :=
  ∀ pre a suf e, c = pre ++ a :: suf → t[a]? = some e →
    (pre = [] → hash e.key % P = a) ∧ (pre ≠ [] → hash e.key % P ∈ pre)

/-- A complete well-formed chain. -/
structure GoodChain (hash : Key → Nat) (P : Nat) (t : List (element Key)) (c : List Nat) :
    Prop where
  nodup : c.Nodup
  linked : Linked t none c
  home : HomeOK hash P t c

/-- The last entry of `l`, or `p` when `l` is empty. -/
def lastOr (p : Option Nat) : List Nat → Option Nat
  | [] => p
  | a :: l => lastOr (some a) l

/-- The structural invariant of the store, with a list `pend` of slots that
`erase` has detached and not yet re-settled (`pend = []` between operations). -/
structure PInv (hash : Key → Nat) (s : ADS_set Key) (pend : List Nat) : Prop where
  len : s.table.length = s.full_table + 1
  psz : 0 < s.table_size
  ple : s.table_size ≤ s.full_table
  sent : ∀ (i : Nat) (e : element Key), s.table[i]? = some e → (e.mode = Mode.end_ ↔ i = s.full_table)
  freeL : ∀ (i : Nat) (e : element Key), s.table[i]? = some e → e.mode = Mode.free → e.next = none ∧ e.prev = none
  size : s.curr_size = s.table.countP (fun e => decide (e.mode = Mode.used))
  keys : ∀ (i j : Nat) (ei ej : element Key), s.table[i]? = some ei → s.table[j]? = some ej →
    ei.mode = Mode.used → ej.mode = Mode.used → ei.key = ej.key → i = j
  chains : ∀ (i : Nat) (e : element Key), s.table[i]? = some e → e.mode = Mode.used →
    i ∈ pend ∨ ∃ c, i ∈ c ∧ GoodChain hash s.table_size s.table c ∧ ∀ x ∈ c, x ∉ pend
  pnd : pend.Nodup
  pnext : NextLinked s.table pend
  phome : ∀ (l1 : List Nat) (b : Nat) (l2 : List Nat) (e : element Key), pend = l1 ++ b :: l2 → s.table[b]? = some e →
    hash e.key % s.table_size ∉ b :: l2

/-- The key `k` is stored: some used slot holds it. -/
def Mem (s : ADS_set Key) (k : Key) : Prop :=
  ∃ (i : Nat) (e : element Key), s.table[i]? = some e ∧ e.mode = Mode.used ∧ e.key = k

/-- The probe cursor has passed only used slots. -/
def TL (s : ADS_set Key) : Prop :=
  s.table_last ≤ s.full_table ∧
  ∀ j, s.table_last ≤ j → j < s.full_table →
    ∃ e : element Key, s.table[j]? = some e ∧ e.mode = Mode.used

/-- The invariant of the container between two operations. -/
def Inv (hash : Key → Nat) (s : ADS_set Key) : Prop :=
  PInv hash s [] ∧ TL s

/-- The states of a container: those that the default constructor and the
public modifiers `insert` (one key, list or range), `erase` and `clear` produce. -/
inductive Reachable (hash : Key → Nat) (N : Nat) : ADS_set Key → Prop where
  | ctor {s : ADS_set Key} : new hash N = some s → Reachable hash N s
  | insert {s s' : ADS_set Key} {k : Key} {it : Nat} {b : Bool} :
      Reachable hash N s → insert hash N s k = some (it, b, s') → Reachable hash N s'
  | insert_range {s s' : ADS_set Key} {l : List Key} :
      Reachable hash N s → insert_range hash N s l = some s' → Reachable hash N s'
  | erase {s s' : ADS_set Key} {k : Key} {r : Nat} :
      Reachable hash N s → erase hash s k = some (r, s') → Reachable hash N s'
  | clear {s s' : ADS_set Key} :
      Reachable hash N s → clear hash N s = some s' → Reachable hash N s'

/-- The invariant of reachable states: the structure of the store, the minimum
capacity, and the load test. -/
def RInv (hash : Key → Nat) (N : Nat) (s : ADS_set Key) : Prop :=
  Inv hash s ∧ N ≤ s.table_size ∧ exceeds s.curr_size s.table_size = false

/-- A call of `insert(key)` or of `erase(key)`. -/
inductive Op (Key : Type) where
  | ins (k : Key)
  | del (k : Key)
deriving DecidableEq, Repr

/-- The state after one call. -/
def step (hash : Key → Nat) (N : Nat) (s : ADS_set Key) : Op Key → Option (ADS_set Key)
  | Op.ins k => (insert hash N s k).map (fun r => r.2.2)
  | Op.del k => (erase hash s k).map (fun r => r.2)

/-- The state after a sequence of calls. -/
def runFrom (hash : Key → Nat) (N : Nat) : ADS_set Key → List (Op Key) → Option (ADS_set Key)
  | s, [] => some s
  | s, op :: ops =>
    match step hash N s op with
    | none => none
    | some s' => runFrom hash N s' ops

/-- The state after a sequence of calls on a default-constructed container. -/
def run (hash : Key → Nat) (N : Nat) (ops : List (Op Key)) : Option (ADS_set Key) :=
  match new hash N with
  | none => none
  | some s => runFrom hash N s ops

/-- The call mentions the key `k`. -/
def mentions (k : Key) : Op Key → Bool
  | Op.ins j => decide (j = k)
  | Op.del j => decide (j = k)

/-- The last call of the sequence that mentions `k` is an insert. -/
def lastIsInsert (k : Key) (ops : List (Op Key)) : Bool :=
  match ops.reverse.find? (mentions k) with
  | some (Op.ins _) => true
  | _ => false

/-- The number of used slots below `full_table`. -/
def usedSlots (s : ADS_set Key) : Nat :=
  (s.table.take s.full_table).countP (fun e => decide (e.mode = Mode.used))

/-- The calls `insert(5), insert(28), insert(51)`: three keys with home slot 5
for `N = 23` under the identity hash. -/
def exOps : List (Op Nat) := [Op.ins 5, Op.ins 28, Op.ins 51]

/-- A sequence of calls that inserts, erases and re-inserts colliding keys. -/
def exTrace : List (Op Nat) :=
  [Op.ins 5, Op.ins 28, Op.del 5, Op.ins 7, Op.del 9, Op.ins 5, Op.del 28, Op.ins 51]

/-- The default-constructed container for `N = 23`. -/
def exEmpty : ADS_set Nat := (run id 23 []).getD blank

/-- The container after `exOps`: the chain `5 -> 25 -> 24`. -/
def exChain : ADS_set Nat := (run id 23 exOps).getD blank

/-- The container after `insert(0), ..., insert(15)`. -/
def exSixteen : ADS_set Nat := (run id 23 ((List.range 16).map Op.ins)).getD blank

/-- The container after `insert(0), ..., insert(16)`. -/
def exSeventeen : ADS_set Nat := (run id 23 ((List.range 17).map Op.ins)).getD blank

end Spec

/-! ## Iteration, comparison, bulk construction and recorded runs -/

section Views

variable {Key : Type} [DecidableEq Key] [Inhabited Key]

/-- The iterator `begin()`: `Iterator{table}`. -/
def begin_it (s : ADS_set Key) : Option Nat :=
  iterator s 0

/-- The pre-increment `++it`: `if(pos->mode != Mode::end) ++pos; skip();`. -/
def incr (s : ADS_set Key) (it : Nat) : Option Nat :=
  match s.table[it]? with
  | none => none
  | some e => if e.mode ≠ Mode.end_ then iterator s (it + 1) else iterator s it

/-- The loop `for (; it != end(); ++it)` reading `*it`: the positions visited
and the keys read there. -/
def walk (s : ADS_set Key) : Nat → Nat → Option (List (Nat × Key))
  | 0, _ => none
  | fuel + 1, it =>
    match end_it s with
    | none => none
    | some e =>
      if it = e then some []
      else
        match deref s it with
        | none => none
        | some k =>
          match incr s it with
          | none => none
          | some it' => (walk s fuel it').map (fun l => (it, k) :: l)

/-- The traversal `for (it = begin(); it != end(); ++it)` of the container. -/
def traverse (s : ADS_set Key) : Option (List (Nat × Key)) :=
  match begin_it s with
  | none => none
  | some b => walk s (s.table.length + 1) b

/-- The used slots among the `d` slots from index `p` on, with their keys, in
index order. -/
def entries (t : List (element Key)) : Nat → Nat → List (Nat × Key)
  | _, 0 => []
  | p, d + 1 =>
    match t[p]? with
    | none => []
    | some e => if e.mode = Mode.used then (p, e.key) :: entries t (p + 1) d
                else entries t (p + 1) d

/-- The loop `for(const auto &k: rhs) if(!lhs.count(k)) return false;` of
`operator==`, from the position `it`; `true` when it runs to `end()`. -/
def eq_loop (hash : Key → Nat) (lhs rhs : ADS_set Key) : Nat → Nat → Option Bool
  | 0, _ => none
  | fuel + 1, it =>
    match end_it rhs with
    | none => none
    | some e =>
      if it = e then some true
      else
        match deref rhs it with
        | none => none
        | some k =>
          match count hash lhs k with
          | none => none
          | some c =>
            if c = 0 then some false
            else
              match incr rhs it with
              | none => none
              | some it' => eq_loop hash lhs rhs fuel it'

/-- The friend `operator==(lhs, rhs)`. -/
def op_eq (hash : Key → Nat) (lhs rhs : ADS_set Key) : Option Bool :=
  if lhs.curr_size ≠ rhs.curr_size then some false
  else
    match begin_it rhs with
    | none => none
    | some b => eq_loop hash lhs rhs (rhs.table.length + 1) b

/-- The friend `operator!=(lhs, rhs)`: `!(lhs == rhs)`. -/
def op_ne (hash : Key → Nat) (lhs rhs : ADS_set Key) : Option Bool :=
  (op_eq hash lhs rhs).map (fun b => !b)

/-- The container after `insert(51), insert(28), insert(5)`: the keys of
`exChain` in another slot order. -/
def exSwapped : ADS_set Nat := (run id 23 [Op.ins 51, Op.ins 28, Op.ins 5]).getD blank

/-- The list constructor `ADS_set(std::initializer_list)`: the default
constructor, then `insert(ilist)`. -/
def new_ilist (hash : Key → Nat) (N : Nat) (ilist : List Key) : Option (ADS_set Key) :=
  match new hash N with
  | none => none
  | some s => insert_range hash N s ilist

/-- The links of the store are well formed: a free slot carries no link; the
`next` of a used slot is a used slot below `full_table` whose `prev` points
back, and likewise for `prev`; and the slots met by following `next` from a
used slot are used, pairwise different, and end at a slot without `next`. -/
def LinksOK (s : ADS_set Key) : Prop :=
  ∀ (i : Nat) (e : element Key), s.table[i]? = some e →
    (e.mode = Mode.free → e.next = none ∧ e.prev = none) ∧
    (e.mode = Mode.used →
      (∀ t, e.next = some t → t < s.full_table ∧
        ∃ et, s.table[t]? = some et ∧ et.mode = Mode.used ∧ et.prev = some i) ∧
      (∀ q, e.prev = some q → q < s.full_table ∧
        ∃ eq, s.table[q]? = some eq ∧ eq.mode = Mode.used ∧ eq.next = some i) ∧
      ∃ path, path.head? = some i ∧ path.Nodup ∧ NextLinked s.table path)

/-- One pass of the re-settle loop of `erase`, as recorded: the slot `nextone`
that the pass handles, the home index `index` of its key, and the slots of the
tail walk from the home slot when the pass takes case B (the home slot is
occupied); `walk` is `none` when the pass takes case A (the home slot is
free). -/
structure Pass where
  node : Nat
  home : Nat
  walk : Option (List Nat)
deriving DecidableEq, Repr

/-- The slots that the walk to the end of a chain visits (the walk of
`tail_loop`), in order. -/
def tail_path (t : List (element Key)) : Nat → Nat → List Nat
  | 0, _ => []
  | fuel + 1, idx =>
    match t[idx]? with
    | none => []
    | some e =>
      match e.next with
      | none => [idx]
      | some n => idx :: tail_path t fuel n

/-- The re-settle loop of `erase` with a record of its passes; the state is
computed as in `erase_loop`. -/
def erase_log (hash : Key → Nat) :
    Nat → ADS_set Key → Option Nat → Option (List Pass × ADS_set Key)
  | _, s, none => some ([], s)
  | 0, _, some _ => none
  | fuel + 1, s, some nextone =>
    match s.table[nextone]? with
    | none => none
    | some e =>
      match h hash s e.key with
      | none => none
      | some index =>
        match upd s.table nextone (fun x => { x with next := none }) with
        | none => none
        | some t1 =>
          match t1[index]? with
          | none => none
          | some e2 =>
            if e2.mode = Mode.free then
              match insert_ hash { s with table := t1, curr_size := dec64 s.curr_size } e.key with
              | none => none
              | some (_, s2) =>
                match upd s2.table nextone
                    (fun x => { x with mode := Mode.free, next := none, prev := none }) with
                | none => none
                | some t3 =>
                  (erase_log hash fuel { s2 with table := t3 } e.next).map
                    (fun r => (⟨nextone, index, none⟩ :: r.1, r.2))
            else
              match tail_loop t1 t1.length index with
              | none => none
              | some tl =>
                match upd t1 tl (fun x => { x with next := some nextone }) with
                | none => none
                | some t2 =>
                  match upd t2 nextone (fun x => { x with prev := some tl }) with
                  | none => none
                  | some t3 =>
                    (erase_log hash fuel { s with table := t3 } e.next).map
                      (fun r => (⟨nextone, index, some (tail_path t1 t1.length index)⟩ :: r.1, r.2))

/-- The member `erase(key)` with the record of its re-settle loop: the passes,
the number of keys removed, and the new state. -/
def erase_rec (hash : Key → Nat) (s : ADS_set Key) (key : Key) :
    Option (List Pass × Nat × ADS_set Key) :=
  match find_ hash s key with
  | none => none
  | some none => some ([], 0, s)
  | some (some p) =>
    match s.table[p]? with
    | none => none
    | some e =>
      match upd s.table p (fun x => { x with mode := Mode.free, next := none, prev := none }) with
      | none => none
      | some t1 =>
        match (match e.prev with
               | none => some t1
               | some previous => upd t1 previous (fun x => { x with next := none })) with
        | none => none
        | some t2 =>
          match erase_log hash t2.length
              { s with table := t2, curr_size := dec64 s.curr_size } e.next with
          | none => none
          | some (log, s3) => some (log, 1, { s3 with table_last := s3.full_table })

/-- What the record of an `erase` call satisfies, relative to the state `s`
before the call and the list `suf` of slots behind the removed one: the passes
handle the slots of `suf` in order; each pass has the home index of the key in
its slot; and the home slot and the tail walk of a pass avoid the slot of the
pass and the slots of the later passes. -/
def GoodLog (hash : Key → Nat) (s : ADS_set Key) (suf : List Nat) (log : List Pass) : Prop :=
  log.map Pass.node = suf ∧
  ∀ l1 ps l2, log = l1 ++ ps :: l2 →
    (∃ e, s.table[ps.node]? = some e ∧ ps.home = hash e.key % s.table_size) ∧
    ps.home ∉ ps.node :: l2.map Pass.node ∧
    ∀ path, ps.walk = some path → path.head? = some ps.home ∧ path.Nodup ∧
      ∀ x ∈ path, x ∉ ps.node :: l2.map Pass.node

/-- The container after `insert(5)` on a default table of 23 slots. -/
def exFive : ADS_set Nat := (run id 23 [Op.ins 5]).getD blank

/-- The collision branch of `insert_` places the key `k` as the claim of
overflow placement says: the call returns the index `x` of a slot that was
free, every slot of greater index below `full_table` was used, the walk from
the home slot of `k` ended at a used slot `tl` without `next`, afterwards
`tl.next = x` and slot `x` holds `k` with `prev = tl` and no `next`, no other
slot has changed, `x` lies in the cellar if the cellar had a free slot, and
`x` lies in the primary region only if every cellar slot was used. -/
def OverflowPlaced (hash : Key → Nat) (s : ADS_set Key) (k : Key) : Prop :=
  ∃ (x tl : Nat) (etl : element Key) (s' : ADS_set Key),
    insert_ hash s k = some (x, s') ∧ x < s.full_table ∧
    (∃ ex, s.table[x]? = some ex ∧ ex.mode = Mode.free) ∧
    (∀ j, x < j → j < s.full_table → ∃ e, s.table[j]? = some e ∧ e.mode = Mode.used) ∧
    (tail_path s.table s.table.length (hash k % s.table_size)).getLast? = some tl ∧
    s.table[tl]? = some etl ∧ etl.mode = Mode.used ∧ etl.next = none ∧
    s'.table[tl]? = some { etl with next := some x } ∧
    s'.table[x]? = some ⟨k, Mode.used, none, some tl⟩ ∧
    (∀ j, j ≠ x → j ≠ tl → s'.table[j]? = s.table[j]?) ∧
    ((∃ j e, s.table_size ≤ j ∧ j < s.full_table ∧ s.table[j]? = some e ∧ e.mode = Mode.free) →
      s.table_size ≤ x) ∧
    (x < s.table_size → ∀ j, s.table_size ≤ j → j < s.full_table →
      ∃ e, s.table[j]? = some e ∧ e.mode = Mode.used)

/-- The values of `table_last` on which the probe loop of `insert_` applies
the pre-decrement of `g`, in order (the loop of `probe_loop`, recorded). -/
def probe_cursors : Nat → ADS_set Key → Nat → List Nat
  | 0, _, _ => []
  | fuel + 1, s, idx =>
    match s.table[idx]? with
    | none => []
    | some e =>
      if e.mode = Mode.free then []
      else
        match g s with
        | none => []
        | some (idx', s') => s.table_last :: probe_cursors fuel s' idx'

/-- The probe loop of `insert_` is safe in the state `s`: entered at any
occupied slot it returns, within `full_table` probes, a free slot and leaves
the cursor there; the larger step budget of `insert_` gives the same result;
and every pre-decrement of the cursor is applied to a positive value. -/
def ProbeSafe (s : ADS_set Key) : Prop :=
  ∀ (idx : Nat) (e0 : element Key), s.table[idx]? = some e0 → e0.mode ≠ Mode.free →
    ∃ x, probe_loop (s.full_table + 1) s idx = some (x, { s with table_last := x }) ∧
      probe_loop (s.table_last + s.full_table + 1) s idx = some (x, { s with table_last := x }) ∧
      (∃ ex, s.table[x]? = some ex ∧ ex.mode = Mode.free) ∧
      (∀ c ∈ probe_cursors (s.table_last + s.full_table + 1) s idx, 0 < c) ∧
      (probe_cursors (s.table_last + s.full_table + 1) s idx).length ≤ s.full_table

end Views

/-! ## The arithmetic of `size_type` -/

section Wrap

variable {Key : Type} [DecidableEq Key] [Inhabited Key]

/-- The growth step `rehash(n)` with the arithmetic of `size_type`: the sum
`new_table_size + static_cast<size_type>(new_table_size*cellar)` is reduced
modulo `2^64`. The array has `new_full_table + 1` slots; when that count wraps
to zero the write of the sentinel is out of bounds. -/
def rehash64 (hash : Key → Nat) (N : Nat) (s : ADS_set Key) (n : Nat) : Option (ADS_set Key) :=
  let new_table_size := max N (max n (divLf s.curr_size))
  let new_full_table := (new_table_size + cellarOf new_table_size) % 2 ^ 64
  if new_full_table + 1 = 2 ^ 64 then none
  else
    rehash_loop hash s.table s.full_table 0
      { table := newTable new_full_table, curr_size := 0, table_size := new_table_size,
        table_last := new_full_table, full_table := new_full_table }

/-- The loop of `reserve` with the arithmetic of `size_type`:
`new_table_size * 2 + 1` is reduced modulo `2^64`. -/
def reserve_loop64 (n : Nat) : Nat → Nat → Option Nat
  | 0, _ => none
  | fuel + 1, new_table_size =>
    if exceeds n ((new_table_size * 2 + 1) % 2 ^ 64) then
      reserve_loop64 n fuel ((new_table_size * 2 + 1) % 2 ^ 64)
    else some ((new_table_size * 2 + 1) % 2 ^ 64)

/-- The capacity check `reserve(n)` with the arithmetic of `size_type`. -/
def reserve64 (hash : Key → Nat) (N : Nat) (s : ADS_set Key) (n : Nat) : Option (ADS_set Key) :=
  if exceeds n s.table_size then
    match reserve_loop64 n (n + 1) s.table_size with
    | none => none
    | some new_table_size => rehash64 hash N s new_table_size
  else some s

/-- The default constructor with the arithmetic of `size_type`. -/
def new64 (hash : Key → Nat) (N : Nat) : Option (ADS_set Key) :=
  rehash64 hash N blank N

/-- The member `insert(key)` with the arithmetic of `size_type`. -/
def insert64 (hash : Key → Nat) (N : Nat) (s : ADS_set Key) (key : Key) :
    Option (Nat × Bool × ADS_set Key) :=
  match find_ hash s key with
  | none => none
  | some (some p) =>
    match iterator s p with
    | none => none
    | some it => some (it, false, s)
  | some none =>
    match reserve64 hash N s ((s.curr_size + 1) % 2 ^ 64) with
    | none => none
    | some s1 =>
      match insert_ hash s1 key with
      | none => none
      | some (p, s2) =>
        match iterator s2 p with
        | none => none
        | some it => some (it, true, s2)

/-- The range and list `insert(first, last)` with the arithmetic of
`size_type`. -/
def insert_range64 (hash : Key → Nat) (N : Nat) :
    ADS_set Key → List Key → Option (ADS_set Key)
  | s, [] => some s
  | s, key :: rest =>
    match count hash s key with
    | none => none
    | some 0 =>
      match reserve64 hash N s ((s.curr_size + 1) % 2 ^ 64) with
      | none => none
      | some s1 =>
        match insert_ hash s1 key with
        | none => none
        | some (_, s2) => insert_range64 hash N s2 rest
    | some _ => insert_range64 hash N s rest

/-- The member `clear()` with the arithmetic of `size_type`. -/
def clear64 (hash : Key → Nat) (N : Nat) (_s : ADS_set Key) : Option (ADS_set Key) :=
  new64 hash N

/-- The list constructor with the arithmetic of `size_type`. -/
def new_ilist64 (hash : Key → Nat) (N : Nat) (ilist : List Key) : Option (ADS_set Key) :=
  match new64 hash N with
  | none => none
  | some s => insert_range64 hash N s ilist

/-- The state after one call, with the arithmetic of `size_type`. -/
def step64 (hash : Key → Nat) (N : Nat) (s : ADS_set Key) : Op Key → Option (ADS_set Key)
  | Op.ins k => (insert64 hash N s k).map (fun r => r.2.2)
  | Op.del k => (erase hash s k).map (fun r => r.2)

/-- The state after a sequence of calls, with the arithmetic of `size_type`. -/
def runFrom64 (hash : Key → Nat) (N : Nat) :
    ADS_set Key → List (Op Key) → Option (ADS_set Key)
  | s, [] => some s
  | s, op :: ops =>
    match step64 hash N s op with
    | none => none
    | some s' => runFrom64 hash N s' ops

/-- The state after a sequence of calls on a default-constructed container,
with the arithmetic of `size_type`. -/
def run64 (hash : Key → Nat) (N : Nat) (ops : List (Op Key)) : Option (ADS_set Key) :=
  match new64 hash N with
  | none => none
  | some s => runFrom64 hash N s ops

/-- The states of a container under the arithmetic of `size_type`: those that
the default constructor and the public modifiers `insert` (one key, list or
range), `erase` and `clear` produce. -/
inductive Reachable64 (hash : Key → Nat) (N : Nat) : ADS_set Key → Prop where
  | ctor {s : ADS_set Key} : new64 hash N = some s → Reachable64 hash N s
  | insert {s s' : ADS_set Key} {k : Key} {it : Nat} {b : Bool} :
      Reachable64 hash N s → insert64 hash N s k = some (it, b, s') → Reachable64 hash N s'
  | insert_range {s s' : ADS_set Key} {l : List Key} :
      Reachable64 hash N s → insert_range64 hash N s l = some s' → Reachable64 hash N s'
  | erase {s s' : ADS_set Key} {k : Key} {r : Nat} :
      Reachable64 hash N s → erase hash s k = some (r, s') → Reachable64 hash N s'
  | clear {s s' : ADS_set Key} :
      Reachable64 hash N s → clear64 hash N s = some s' → Reachable64 hash N s'

/-- The minimum capacity `N0 = 15864073173679996928`, a value of `size_type`
(it is below `2^64`) for which `N0 + floor(N0 * cellar)` is `2^64`. -/
def bigN : Nat := 15864073173679996928

/-- The default-constructed container for `N = bigN`: one slot, the sentinel. -/
def exWrapped : ADS_set Nat := (new64 id bigN).getD blank

/-- The primary size after a step is at least the one before, unless it is at
least `2^62` (the doubling of a size of `2^63` or more wraps). -/
def Grows (s s' : ADS_set Key) : Prop :=
  s.table_size ≤ s'.table_size ∨ 2 ^ 62 ≤ s'.table_size

end Wrap

/-! ## Theorems -/

section Proofs

variable {Key : Type} [DecidableEq Key] [Inhabited Key]

theorem upd_some {t : List (element Key)} {i : Nat} {e : element Key}
    (f : element Key → element Key) (hi : t[i]? = some e) :
    upd t i f = some (t.set i (f e)) := by
  simp [upd, hi]

theorem lt_of_get {t : List (element Key)} {i : Nat} {e : element Key}
    (hi : t[i]? = some e) : i < t.length := by
  rcases List.getElem?_eq_some.1 hi with ⟨hlt, _⟩
  exact hlt

theorem get_set_self {t : List (element Key)} {i : Nat} {e : element Key}
    (x : element Key) (hi : t[i]? = some e) : (t.set i x)[i]? = some x := by
  simp [List.getElem?_set, lt_of_get hi]

theorem get_set_ne {t : List (element Key)} {i j : Nat} (x : element Key) (hne : i ≠ j) :
    (t.set i x)[j]? = t[j]? := by
  simp [List.getElem?_set, hne]

/-- Counting a predicate after one slot is overwritten. -/
theorem countP_set_add {t : List (element Key)} {i : Nat} {e : element Key}
    (p : element Key → Bool) (x : element Key) (hi : t[i]? = some e) :
    (t.set i x).countP p + (if p e then 1 else 0)
      = t.countP p + (if p x then 1 else 0) := by
  rcases List.getElem?_eq_some.1 hi with ⟨hlt, he⟩
  rw [List.countP_set p t i x hlt, he]
  by_cases hp : p e = true
  · have hpos : 0 < t.countP p := by
      apply List.countP_pos_iff.2
      exact ⟨e, by rw [← he]; exact List.getElem_mem _, hp⟩
    simp [hp]
    omega
  · simp [hp]

theorem Linked.next {t : List (element Key)} :
    ∀ {p : Option Nat} {l : List Nat}, Linked t p l → NextLinked t l
  | _, [], _ => trivial
  | _, _ :: _, ⟨e, h1, h2, _, h4, h5⟩ => ⟨e, h1, h2, h4, Linked.next h5⟩

theorem NextLinked.all_used {t : List (element Key)} :
    ∀ {l : List Nat}, NextLinked t l → ∀ i ∈ l, ∃ e, t[i]? = some e ∧ e.mode = Mode.used
  | [], _, i, hi => by simp at hi
  | a :: rest, ⟨e, h1, h2, _, h4⟩, i, hi => by
    rcases List.mem_cons.1 hi with rfl | hi
    · exact ⟨e, h1, h2⟩
    · exact NextLinked.all_used h4 i hi

theorem NextLinked.of_append {t : List (element Key)} :
    ∀ {l m : List Nat}, NextLinked t (l ++ m) → NextLinked t m
  | [], _, hl => hl
  | _ :: l1, _, ⟨_, _, _, _, h4⟩ => NextLinked.of_append (l := l1) h4

theorem NextLinked.agree {t t' : List (element Key)} :
    ∀ {l : List Nat}, (∀ i ∈ l, t'[i]? = t[i]?) → NextLinked t l → NextLinked t' l
  | [], _, _ => trivial
  | a :: rest, hag, ⟨e, h1, h2, h3, h4⟩ =>
    ⟨e, by rw [hag a (List.mem_cons_self _ _)]; exact h1, h2, h3,
      NextLinked.agree (fun i hi => hag i (List.mem_cons_of_mem _ hi)) h4⟩

theorem Linked.agree_linked {t t' : List (element Key)} :
    ∀ {p : Option Nat} {l : List Nat}, (∀ i ∈ l, t'[i]? = t[i]?) → Linked t p l → Linked t' p l
  | _, [], _, _ => trivial
  | _, a :: rest, hag, ⟨e, h1, h2, h3, h4, h5⟩ =>
    ⟨e, by rw [hag a (List.mem_cons_self _ _)]; exact h1, h2, h3, h4,
      Linked.agree_linked (fun i hi => hag i (List.mem_cons_of_mem _ hi)) h5⟩

/-- Two forward-linked lists from the same slot coincide. -/
theorem NextLinked.determined {t : List (element Key)} :
    ∀ {l1 l2 : List Nat}, NextLinked t l1 → NextLinked t l2 → l1.head? = l2.head? → l1 = l2
  | [], [], _, _, _ => rfl
  | [], _ :: _, _, _, hh => by simp at hh
  | _ :: _, [], _, _, hh => by simp at hh
  | a :: r1, b :: r2, ⟨e1, h1, _, h3, h4⟩, ⟨e2, g1, _, g3, g4⟩, hh => by
    simp only [List.head?_cons, Option.some.injEq] at hh
    subst hh
    rw [h1] at g1
    cases g1
    rw [NextLinked.determined h4 g4 (by rw [← h3, ← g3])]

/-- A list without repetition of indices below `n` has at most `n` entries. -/
theorem length_le_of_nodup {l : List Nat} {n : Nat} (hn : l.Nodup) (hb : ∀ i ∈ l, i < n) :
    l.length ≤ n := by
  have hsub : l ⊆ List.range n := fun i hi => List.mem_range.2 (hb i hi)
  have := (List.Nodup.subperm hn hsub).length_le
  simpa using this

/-- The chain walk of `find_` along a forward-linked list: it stops at the
first slot of the list holding the key, or answers `nullptr` if there is none. -/
theorem find_loop_spec (t : List (element Key)) (k : Key) :
    ∀ (l : List Nat) (a fuel : Nat), NextLinked t (a :: l) → l.length < fuel →
      (∃ i ∈ a :: l, (∃ e, t[i]? = some e ∧ e.key = k) ∧ find_loop t k fuel a = some (some i))
      ∨ ((∀ i ∈ a :: l, ∀ e, t[i]? = some e → e.key ≠ k) ∧ find_loop t k fuel a = some none) := by
  intro l
  induction l with
  | nil =>
    intro a fuel hl hf
    obtain ⟨e, h1, h2, h3, _⟩ := hl
    obtain ⟨f, rfl⟩ : ∃ f, fuel = f + 1 := ⟨fuel - 1, by omega⟩
    by_cases hk : e.key = k
    · left
      exact ⟨a, by simp, ⟨e, h1, hk⟩, by simp [find_loop, h1, h2, hk]⟩
    · right
      refine ⟨?_, ?_⟩
      · intro i hi e' he'
        simp at hi
        subst hi
        rw [h1] at he'
        cases he'
        exact hk
      · simp at h3
        simp [find_loop, h1, h2, hk, h3]
  | cons b rest ih =>
    intro a fuel hl hf
    obtain ⟨e, h1, h2, h3, h4⟩ := hl
    obtain ⟨f, rfl⟩ : ∃ f, fuel = f + 1 := ⟨fuel - 1, by omega⟩
    simp at hf
    by_cases hk : e.key = k
    · left
      exact ⟨a, by simp, ⟨e, h1, hk⟩, by simp [find_loop, h1, h2, hk]⟩
    · simp at h3
      have hstep : find_loop t k (f + 1) a = find_loop t k f b := by
        simp [find_loop, h1, h2, hk, h3]
      rcases ih b f h4 (by omega) with ⟨i, hi, hke, hr⟩ | ⟨hno, hr⟩
      · left
        exact ⟨i, List.mem_cons_of_mem _ hi, hke, by rw [hstep, hr]⟩
      · right
        refine ⟨?_, by rw [hstep, hr]⟩
        intro i hi e' he'
        rcases List.mem_cons.1 hi with rfl | hi
        · rw [h1] at he'
          cases he'
          exact hk
        · exact hno i hi e' he'

@[simp] theorem lastOr_nil (p : Option Nat) : lastOr p [] = p := rfl

@[simp] theorem lastOr_cons (p : Option Nat) (a : Nat) (l : List Nat) :
    lastOr p (a :: l) = lastOr (some a) l := rfl

@[simp] theorem lastOr_append (p : Option Nat) (l1 l2 : List Nat) :
    lastOr p (l1 ++ l2) = lastOr (lastOr p l1) l2 := by
  induction l1 generalizing p with
  | nil => rfl
  | cons a l ih => simp [ih]

theorem lastOr_mem {a : Nat} : ∀ {l : List Nat} {y : Nat}, lastOr (some a) l = some y → y ∈ a :: l
  | [], y, hy => by
    simp at hy
    simp [hy]
  | b :: l, y, hy => by
    have := lastOr_mem (a := b) (l := l) (by simpa using hy)
    exact List.mem_cons_of_mem _ this

theorem lastOr_none_mem {l : List Nat} {y : Nat} (hy : lastOr none l = some y) : y ∈ l := by
  cases l with
  | nil => simp at hy
  | cons a l => exact lastOr_mem (by simpa using hy)

theorem lastOr_some_ne_none (a : Nat) : ∀ (l : List Nat), lastOr (some a) l ≠ none
  | [] => by simp
  | b :: l => by simpa using lastOr_some_ne_none b l

/-- A non-empty list ends with its last entry. -/
theorem eq_concat_of_lastOr {a : Nat} : ∀ {l : List Nat} {y : Nat}, lastOr (some a) l = some y →
    ∃ m, a :: l = m ++ [y]
  | [], y, hy => by
    simp at hy
    exact ⟨[], by simp [hy]⟩
  | b :: l, y, hy => by
    obtain ⟨m, hm⟩ := eq_concat_of_lastOr (a := b) (l := l) (by simpa using hy)
    exact ⟨a :: m, by rw [hm]; rfl⟩

/-- The links of a slot in the middle of a linked list. -/
theorem Linked.split {t : List (element Key)} :
    ∀ {l : List Nat} {p : Option Nat} {x : Nat} {m : List Nat}, Linked t p (l ++ x :: m) →
      ∃ e, t[x]? = some e ∧ e.mode = Mode.used ∧ e.prev = lastOr p l ∧ e.next = m.head?
  | [], _, _, _, ⟨e, h1, h2, h3, h4, _⟩ => ⟨e, h1, h2, by simpa using h3, h4⟩
  | _ :: l1, _, _, _, ⟨_, _, _, _, _, h5⟩ => by
    obtain ⟨e, h1, h2, h3, h4⟩ := Linked.split (l := l1) h5
    exact ⟨e, h1, h2, by simpa using h3, h4⟩

theorem Linked.rest_of_append {t : List (element Key)} :
    ∀ {l : List Nat} {p : Option Nat} {m : List Nat}, Linked t p (l ++ m) →
      Linked t (lastOr p l) m
  | [], _, _, hl => by simpa using hl
  | _ :: l1, _, _, ⟨_, _, _, _, _, h5⟩ => by
    simpa using Linked.rest_of_append (l := l1) h5

/-- A beginning of a linked list is linked once the `next` of its last slot is
cleared. -/
theorem Linked.take_left {t t' : List (element Key)} :
    ∀ {l : List Nat} {p : Option Nat} {y : Nat} {m : List Nat}, Linked t p (l ++ y :: m) →
      (∀ i ∈ l, t'[i]? = t[i]?) →
      (∀ e, t[y]? = some e → t'[y]? = some { e with next := none }) →
      Linked t' p (l ++ [y])
  | [], _, y, _, ⟨e, h1, h2, h3, _, _⟩, _, hlast =>
    ⟨{ e with next := none }, hlast e h1, h2, h3, by simp, trivial⟩
  | a :: l1, _, y, l2, ⟨e, h1, h2, h3, h4, h5⟩, hsame, hlast => by
    refine ⟨e, ?_, h2, h3, ?_, ?_⟩
    · rw [hsame a (by simp)]
      exact h1
    · cases l1 <;> simpa using h4
    · exact Linked.take_left (l := l1) h5 (fun i hi => hsame i (List.mem_cons_of_mem _ hi)) hlast

/-- Two complete chains through a common slot start at the same slot. -/
theorem Linked.head_unique {t : List (element Key)} {c2 : List Nat} (h2 : Linked t none c2) :
    ∀ (l1 : List Nat) {x : Nat} {l2 : List Nat}, Linked t none (l1 ++ x :: l2) → x ∈ c2 →
      (l1 ++ x :: l2).head? = c2.head? := by
  intro l1
  induction l1 using List.reverseRecOn with
  | nil =>
    intro x l2 h1 hx
    obtain ⟨m1, m2, rfl⟩ := List.append_of_mem hx
    obtain ⟨e, he, _, hp, _⟩ := Linked.split (l := []) h1
    obtain ⟨e', he', _, hp', _⟩ := Linked.split h2
    rw [he] at he'
    cases he'
    simp only [lastOr_nil] at hp
    rw [hp] at hp'
    cases m1 using List.reverseRecOn with
    | nil => simp
    | append_singleton m y _ => simp at hp'
  | append_singleton l y ih =>
    intro x l2 h1 hx
    obtain ⟨m1, m2, rfl⟩ := List.append_of_mem hx
    obtain ⟨e, he, _, hp, _⟩ := Linked.split h1
    obtain ⟨e', he', _, hp', _⟩ := Linked.split h2
    rw [he] at he'
    cases he'
    simp only [lastOr_append, lastOr_cons, lastOr_nil] at hp
    rw [hp] at hp'
    cases m1 using List.reverseRecOn with
    | nil => simp at hp'
    | append_singleton m z _ =>
      simp at hp'
      subst hp'
      have h1' : Linked t none (l ++ y :: (x :: l2)) := by simpa using h1
      have := ih h1' (by simp)
      simpa using this

/-- Two complete chains through a common slot coincide. -/
theorem Linked.same_chain {t : List (element Key)} {c1 c2 : List Nat} (h1 : Linked t none c1)
    (h2 : Linked t none c2) {x : Nat} (hx1 : x ∈ c1) (hx2 : x ∈ c2) : c1 = c2 := by
  obtain ⟨l1, l2, rfl⟩ := List.append_of_mem hx1
  exact NextLinked.determined h1.next h2.next (Linked.head_unique h2 l1 h1 hx2)

theorem GoodChain.unique_chain {hash : Key → Nat} {P : Nat} {t : List (element Key)} {c1 c2 : List Nat}
    (h1 : GoodChain hash P t c1) (h2 : GoodChain hash P t c2) {x : Nat} (hx1 : x ∈ c1)
    (hx2 : x ∈ c2) : c1 = c2 :=
  Linked.same_chain h1.linked h2.linked hx1 hx2

theorem HomeOK.agree_home {hash : Key → Nat} {P : Nat} {t t' : List (element Key)} {c : List Nat}
    (hag : ∀ i ∈ c, ∀ e', t'[i]? = some e' → ∃ e, t[i]? = some e ∧ e.key = e'.key)
    (hc : HomeOK hash P t c) : HomeOK hash P t' c := by
  intro pre a suf e' hsplit he'
  obtain ⟨e, he, hk⟩ := hag a (by rw [hsplit]; simp) e' he'
  rw [← hk]
  exact hc pre a suf e hsplit he

theorem GoodChain.agree_chain {hash : Key → Nat} {P : Nat} {t t' : List (element Key)} {c : List Nat}
    (hag : ∀ i ∈ c, t'[i]? = t[i]?) (hc : GoodChain hash P t c) : GoodChain hash P t' c :=
  ⟨hc.nodup, Linked.agree_linked hag hc.linked,
    HomeOK.agree_home (fun i hi e' he' => ⟨e', by rw [← hag i hi]; exact he', rfl⟩) hc.home⟩

theorem GoodChain.slots_used {hash : Key → Nat} {P : Nat} {t : List (element Key)} {c : List Nat}
    (hc : GoodChain hash P t c) : ∀ i ∈ c, ∃ e, t[i]? = some e ∧ e.mode = Mode.used :=
  NextLinked.all_used hc.linked.next

/-- A decomposition of a list extended by one entry at its end. -/
theorem split_snoc {c pre suf : List Nat} {a x : Nat} (hs : c ++ [x] = pre ++ a :: suf) :
    (suf = [] ∧ pre = c ∧ a = x) ∨ (∃ suf', suf = suf' ++ [x] ∧ c = pre ++ a :: suf') := by
  cases suf using List.reverseRecOn with
  | nil =>
    left
    have : c ++ [x] = pre ++ [a] := hs
    have h := List.append_inj' this rfl
    exact ⟨rfl, h.1.symm, by simpa using h.2.symm⟩
  | append_singleton suf' y _ =>
    right
    have : c ++ [x] = (pre ++ a :: suf') ++ [y] := by simpa using hs
    have h := List.append_inj' this rfl
    have hy : x = y := by simpa using h.2
    subst hy
    exact ⟨suf', rfl, h.1⟩

/-- Appending a slot at the end of a linked list. -/
theorem Linked.snoc_linked {t t' : List (element Key)} {x tl : Nat} {etl ex : element Key} :
    ∀ {c : List Nat} {p q : Option Nat}, Linked t p c → c.Nodup → c ≠ [] → lastOr q c = some tl →
      x ∉ c → t[tl]? = some etl → t'[tl]? = some { etl with next := some x } →
      t'[x]? = some ex → ex.mode = Mode.used → ex.prev = some tl → ex.next = none →
      (∀ j, j ≠ tl → j ≠ x → t'[j]? = t[j]?) → Linked t' p (c ++ [x])
  | [], _, _, _, _, hne, _, _, _, _, _, _, _, _, _ => absurd rfl hne
  | [a], _, _, ⟨e, h1, h2, h3, _, _⟩, _, _, hl, _, htl, htl', hx, hm, hp, hn, _ => by
    simp at hl
    subst hl
    rw [h1] at htl
    cases htl
    exact ⟨_, htl', h2, h3, by simp, ex, hx, hm, hp, by simpa using hn, trivial⟩
  | a :: b :: c, _, _, ⟨e, h1, h2, h3, h4, h5⟩, hnd, _, hl, hxc, htl, htl', hx, hm, hp, hn,
      hsame => by
    have hnd' : (b :: c).Nodup := (List.nodup_cons.1 hnd).2
    have hl' : lastOr (some a) (b :: c) = some tl := by simpa using hl
    have hatl : a ≠ tl := by
      intro h
      apply (List.nodup_cons.1 hnd).1
      rw [h]
      exact lastOr_mem (by simpa using hl')
    have hax : a ≠ x := fun h => hxc (by simp [h])
    refine ⟨e, by rw [hsame a hatl hax]; exact h1, h2, h3, by simpa using h4, ?_⟩
    exact Linked.snoc_linked (c := b :: c) h5 hnd' (by simp) hl'
      (fun h => hxc (List.mem_cons_of_mem _ h)) htl htl' hx hm hp hn hsame

/-- Appending a slot whose key has its home in the chain keeps the chain good. -/
theorem GoodChain.snoc_chain {hash : Key → Nat} {P : Nat} {t t' : List (element Key)} {c : List Nat}
    {x tl : Nat} {etl w : element Key} (hc : GoodChain hash P t c) (hl : lastOr none c = some tl)
    (hxc : x ∉ c) (htl : t[tl]? = some etl) (htl' : t'[tl]? = some { etl with next := some x })
    (hx : t'[x]? = some w) (hm : w.mode = Mode.used) (hp : w.prev = some tl)
    (hn : w.next = none) (hhome : hash w.key % P ∈ c)
    (hsame : ∀ j, j ≠ tl → j ≠ x → t'[j]? = t[j]?) : GoodChain hash P t' (c ++ [x]) := by
  have hne : c ≠ [] := by
    intro h
    subst h
    simp at hl
  refine ⟨?_, Linked.snoc_linked hc.linked hc.nodup hne hl hxc htl htl' hx hm hp hn hsame, ?_⟩
  · rw [List.nodup_append]
    refine ⟨hc.nodup, by simp, ?_⟩
    intro a ha hb
    simp at hb
    subst hb
    exact hxc ha
  · intro pre a suf e' hs he'
    rcases split_snoc hs with ⟨_, rfl, rfl⟩ | ⟨suf', rfl, rfl⟩
    · rw [hx] at he'
      cases he'
      exact ⟨fun hnil => absurd hnil hne, fun _ => hhome⟩
    · have hax : a ≠ x := fun h => hxc (by simp [h])
      by_cases hat : a = tl
      · subst hat
        rw [htl'] at he'
        cases he'
        exact hc.home pre a suf' etl rfl htl
      · rw [hsame a hat hax] at he'
        exact hc.home pre a suf' e' rfl he'

theorem get_set_if {t : List (element Key)} {i : Nat} {e : element Key} (x : element Key)
    (hi : t[i]? = some e) (j : Nat) : (t.set i x)[j]? = if j = i then some x else t[j]? := by
  by_cases h : j = i
  · subst h
    simp [get_set_self x hi]
  · simp [h, get_set_ne x (Ne.symm h)]

/-- Writing a new key into its free home slot. -/
theorem PInv.place_free {hash : Key → Nat} {s : ADS_set Key} {pend : List Nat}
    (hinv : PInv hash s pend) {k : Key} {e : element Key}
    (he : s.table[hash k % s.table_size]? = some e) (hfree : e.mode = Mode.free)
    (hnew : ∀ (i : Nat) (ei : element Key), s.table[i]? = some ei → ei.mode = Mode.used → ei.key ≠ k) :
    PInv hash { s with table := s.table.set (hash k % s.table_size) ⟨k, Mode.used, none, none⟩,
                       curr_size := s.curr_size + 1 } pend := by
  have hget := get_set_if (⟨k, Mode.used, none, none⟩ : element Key) he
  have hune : ∀ (i : Nat) (ei : element Key), s.table[i]? = some ei → ei.mode = Mode.used →
      i ≠ hash k % s.table_size := by
    intro i ei hi hm h
    rw [h, he] at hi
    cases hi
    rw [hfree] at hm
    cases hm
  have hpend : hash k % s.table_size ∉ pend := by
    intro h
    obtain ⟨e', he', hm⟩ := NextLinked.all_used hinv.pnext _ h
    exact hune _ e' he' hm rfl
  refine ⟨?_, hinv.psz, hinv.ple, ?_, ?_, ?_, ?_, ?_, hinv.pnd, ?_, ?_⟩
  · simp [hinv.len]
  · intro i e' hi
    simp only [hget] at hi
    split at hi
    · cases hi
      rename_i h
      subst h
      have := hinv.sent _ e he
      rw [hfree] at this
      simp at this
      simp
      exact this
    · exact hinv.sent i e' hi
  · intro i e' hi hm
    simp only [hget] at hi
    split at hi
    · cases hi
      cases hm
    · exact hinv.freeL i e' hi hm
  · have := countP_set_add (fun e => decide (e.mode = Mode.used))
      (⟨k, Mode.used, none, none⟩ : element Key) he
    simp [hfree] at this
    simp [this, hinv.size]
  · intro i j ei ej hi hj hmi hmj hk
    simp only [hget] at hi hj
    split at hi <;> split at hj
    · rename_i h1 h2
      rw [h1, h2]
    · cases hi
      exact absurd hk.symm (hnew j ej hj hmj)
    · cases hj
      exact absurd hk (hnew i ei hi hmi)
    · exact hinv.keys i j ei ej hi hj hmi hmj hk
  · intro i e' hi hm
    simp only [hget] at hi
    split at hi
    · rename_i h
      subst h
      cases hi
      right
      refine ⟨[hash k % s.table_size], by simp, ⟨by simp, ?_, ?_⟩, ?_⟩
      · exact ⟨⟨k, Mode.used, none, none⟩, by rw [hget]; simp, rfl, rfl, rfl, trivial⟩
      · intro pre a suf e'' hs he''
        have hpre : pre = [] := by
          cases pre with
          | nil => rfl
          | cons b pre => cases pre <;> simp at hs
        subst hpre
        simp at hs
        obtain ⟨rfl, -⟩ := hs
        rw [hget] at he''
        simp at he''
        subst he''
        simp
      · intro x hx
        simp at hx
        subst hx
        exact hpend
    · rcases hinv.chains i e' hi hm with h | ⟨c, hic, hc, hdis⟩
      · exact Or.inl h
      · right
        refine ⟨c, hic, GoodChain.agree_chain ?_ hc, hdis⟩
        intro x hx
        obtain ⟨ex, hex, hmx⟩ := hc.slots_used x hx
        rw [hget, if_neg (hune x ex hex hmx)]
  · apply NextLinked.agree _ hinv.pnext
    intro x hx
    rw [hget, if_neg]
    intro h
    exact hpend (h ▸ hx)
  · intro l1 b l2 eb hs hb
    have hbp : b ∈ pend := by rw [hs]; simp
    have hne : b ≠ hash k % s.table_size := fun h => hpend (h ▸ hbp)
    simp only [hget, if_neg hne] at hb
    exact hinv.phome l1 b l2 eb hs hb

/-- Releasing the first detached slot. -/
theorem PInv.free_head {hash : Key → Nat} {s : ADS_set Key} {a : Nat} {pend : List Nat}
    (hinv : PInv hash s (a :: pend)) {e : element Key} (he : s.table[a]? = some e) :
    PInv hash { s with table := s.table.set a ⟨e.key, Mode.free, none, none⟩,
                       curr_size := s.curr_size - 1 } pend
    ∧ 0 < s.curr_size := by
  have hget := get_set_if (⟨e.key, Mode.free, none, none⟩ : element Key) he
  obtain ⟨e0, he0, hm0, hn0, hrest⟩ := hinv.pnext
  rw [he] at he0
  cases he0
  have hapend : a ∉ pend := (List.nodup_cons.1 hinv.pnd).1
  have hcnt := countP_set_add (fun e => decide (e.mode = Mode.used))
      (⟨e.key, Mode.free, none, none⟩ : element Key) he
  simp [hm0] at hcnt
  refine ⟨⟨?_, hinv.psz, hinv.ple, ?_, ?_, ?_, ?_, ?_, (List.nodup_cons.1 hinv.pnd).2, ?_, ?_⟩, ?_⟩
  · simp [hinv.len]
  · intro i e' hi
    simp only [hget] at hi
    split at hi
    · cases hi
      rename_i h
      subst h
      have := hinv.sent _ e he
      rw [hm0] at this
      simp at this
      simp
      exact this
    · exact hinv.sent i e' hi
  · intro i e' hi hm
    simp only [hget] at hi
    split at hi
    · cases hi
      exact ⟨rfl, rfl⟩
    · exact hinv.freeL i e' hi hm
  · simp only []
    rw [hinv.size, ← hcnt]
    simp
  · intro i j ei ej hi hj hmi hmj hk
    simp only [hget] at hi hj
    split at hi
    · cases hi
      cases hmi
    · split at hj
      · cases hj
        cases hmj
      · exact hinv.keys i j ei ej hi hj hmi hmj hk
  · intro i e' hi hm
    simp only [hget] at hi
    split at hi
    · cases hi
      cases hm
    · rename_i hia
      rcases hinv.chains i e' hi hm with h | ⟨c, hic, hc, hdis⟩
      · left
        rcases List.mem_cons.1 h with h | h
        · exact absurd h hia
        · exact h
      · right
        refine ⟨c, hic, GoodChain.agree_chain ?_ hc, fun x hx hxp => hdis x hx (List.mem_cons_of_mem _ hxp)⟩
        intro x hx
        rw [hget, if_neg]
        intro h
        exact hdis x hx (by simp [h])
  · apply NextLinked.agree _ hrest
    intro x hx
    rw [hget, if_neg]
    intro h
    exact hapend (h ▸ hx)
  · intro l1 b l2 eb hs hb
    have hbp : b ∈ pend := by rw [hs]; simp
    have hne : b ≠ a := fun h => hapend (h ▸ hbp)
    simp only [hget, if_neg hne] at hb
    exact hinv.phome (a :: l1) b l2 eb (by rw [hs]; rfl) hb
  · rw [hinv.size, ← hcnt]
    omega

theorem PInv.used_lt {hash : Key → Nat} {s : ADS_set Key} {pend : List Nat}
    (hinv : PInv hash s pend) {i : Nat} {e : element Key} (hi : s.table[i]? = some e)
    (hm : e.mode ≠ Mode.end_) : i < s.full_table := by
  have h1 := lt_of_get hi
  rw [hinv.len] at h1
  have h2 : i ≠ s.full_table := fun h => hm ((hinv.sent i e hi).2 h)
  omega

theorem PInv.chain_length {hash : Key → Nat} {s : ADS_set Key} {pend : List Nat}
    (hinv : PInv hash s pend) {c : List Nat} (hc : GoodChain hash s.table_size s.table c) :
    c.length ≤ s.full_table := by
  apply length_le_of_nodup hc.nodup
  intro i hi
  obtain ⟨e, he, hm⟩ := hc.slots_used i hi
  exact hinv.used_lt he (by rw [hm]; simp)

theorem PInv.home_get {hash : Key → Nat} {s : ADS_set Key} {pend : List Nat}
    (hinv : PInv hash s pend) (k : Key) :
    ∃ e, s.table[hash k % s.table_size]? = some e ∧ e.mode ≠ Mode.end_ := by
  have h1 : hash k % s.table_size < s.table_size := Nat.mod_lt _ hinv.psz
  have h2 : hash k % s.table_size < s.table.length := by
    rw [hinv.len]
    have := hinv.ple
    omega
  refine ⟨s.table[hash k % s.table_size], List.getElem?_eq_getElem h2, ?_⟩
  intro hm
  have := (hinv.sent _ _ (List.getElem?_eq_getElem h2)).1 hm
  have := hinv.ple
  omega

theorem h_eq {hash : Key → Nat} {s : ADS_set Key} {pend : List Nat}
    (hinv : PInv hash s pend) (k : Key) : h hash s k = some (hash k % s.table_size) := by
  have := hinv.psz
  simp [h]
  omega

/-- A stored key is found at its slot. -/
theorem PInv.find_found {hash : Key → Nat} {s : ADS_set Key} (hinv : PInv hash s [])
    {i : Nat} {e : element Key} (hi : s.table[i]? = some e) (hm : e.mode = Mode.used) :
    find_ hash s e.key = some (some i) := by
  rcases hinv.chains i e hi hm with h | ⟨c, hic, hc, -⟩
  · simp at h
  obtain ⟨pre, suf, rfl⟩ := List.append_of_mem hic
  obtain ⟨hh1, hh2⟩ := hc.home pre i suf e rfl hi
  by_cases hpre : pre = []
  · have hhome := hh1 hpre
    simp [find_, h_eq hinv, hhome, hi, hm]
  · obtain ⟨m1, m2, rfl⟩ := List.append_of_mem (hh2 hpre)
    have hl : Linked s.table none (m1 ++ (hash e.key % s.table_size) :: (m2 ++ i :: suf)) := by
      simpa using hc.linked
    obtain ⟨e0, he0, hm0, -, hn0⟩ := Linked.split hl
    by_cases hk : e0.key = e.key
    · have := hinv.keys _ _ _ _ he0 hi hm0 hm hk
      simp [find_, h_eq hinv, this, hi, hm]
    · have hnl : NextLinked s.table (m2 ++ i :: suf) :=
        (NextLinked.of_append (l := [hash e.key % s.table_size])
          (NextLinked.of_append (l := m1) hl.next))
      obtain ⟨n, l', hnl'⟩ : ∃ n l', m2 ++ i :: suf = n :: l' := by
        cases m2 with
        | nil => exact ⟨i, suf, rfl⟩
        | cons b m2 => exact ⟨b, m2 ++ i :: suf, rfl⟩
      rw [hnl'] at hnl hn0
      have hlen : l'.length < s.table.length := by
        have h1 := hinv.chain_length hc
        have h2 : (m2 ++ i :: suf).length = (n :: l').length := by rw [hnl']
        simp at h1 h2
        rw [hinv.len]
        omega
      have hstep : find_ hash s e.key = find_loop s.table e.key s.table.length n := by
        simp [find_, h_eq hinv, he0, hm0, hk, hn0]
      rw [hstep]
      rcases find_loop_spec s.table e.key l' n s.table.length hnl hlen with
        ⟨i', hi', ⟨e', he', hk'⟩, hr⟩ | ⟨hno, -⟩
      · obtain ⟨e'', he'', hm''⟩ := NextLinked.all_used hnl i' hi'
        rw [he'] at he''
        cases he''
        have := hinv.keys _ _ _ _ he' hi hm'' hm hk'
        rw [hr, this]
      · exact absurd rfl (hno i (by rw [← hnl']; simp) e hi)

/-- A key that is not stored is not found. -/
theorem PInv.find_absent {hash : Key → Nat} {s : ADS_set Key} (hinv : PInv hash s [])
    {k : Key} (hno : ¬ Mem s k) : find_ hash s k = some none := by
  obtain ⟨e0, he0, hne⟩ := hinv.home_get k
  cases hm0 : e0.mode with
  | free => simp [find_, h_eq hinv, he0, hm0]
  | end_ => simp [find_, h_eq hinv, he0, hm0]
  | used =>
    have hk : e0.key ≠ k := fun hk => hno ⟨_, e0, he0, hm0, hk⟩
    cases hn0 : e0.next with
    | none => simp [find_, h_eq hinv, he0, hm0, hk, hn0]
    | some n =>
      rcases hinv.chains _ e0 he0 hm0 with h | ⟨c, hic, hc, -⟩
      · simp at h
      obtain ⟨m1, m2, rfl⟩ := List.append_of_mem hic
      obtain ⟨e1, he1, -, -, hn1⟩ := Linked.split hc.linked
      rw [he0] at he1
      cases he1
      rw [hn0] at hn1
      obtain ⟨l', rfl⟩ : ∃ l', m2 = n :: l' := by
        cases m2 with
        | nil => simp at hn1
        | cons b m2 =>
          simp at hn1
          exact ⟨m2, by rw [hn1]⟩
      have hnl : NextLinked s.table (n :: l') :=
        (NextLinked.of_append (l := [hash k % s.table_size])
          (NextLinked.of_append (l := m1) hc.linked.next))
      have hlen : l'.length < s.table.length := by
        have h1 := hinv.chain_length hc
        simp at h1
        rw [hinv.len]
        omega
      have hstep : find_ hash s k = find_loop s.table k s.table.length n := by
        simp [find_, h_eq hinv, he0, hm0, hk, hn0]
      rw [hstep]
      rcases find_loop_spec s.table k l' n s.table.length hnl hlen with
        ⟨i', hi', ⟨e', he', hk'⟩, -⟩ | ⟨-, hr⟩
      · obtain ⟨e'', he'', hm''⟩ := NextLinked.all_used hnl i' hi'
        rw [he'] at he''
        cases he''
        exact absurd ⟨i', e', he', hm'', hk'⟩ hno
      · exact hr

/-- The result of `find_`: the slot of the key if it is stored, `nullptr` otherwise. -/
theorem PInv.find_iff {hash : Key → Nat} {s : ADS_set Key} (hinv : PInv hash s []) (k : Key) :
    (∃ r, find_ hash s k = some r) ∧
    (∀ i, find_ hash s k = some (some i) ↔
      ∃ e, s.table[i]? = some e ∧ e.mode = Mode.used ∧ e.key = k) ∧
    (find_ hash s k = some none ↔ ¬ Mem s k) := by
  by_cases hmem : Mem s k
  · obtain ⟨i, e, hi, hm, rfl⟩ := hmem
    have hf := hinv.find_found hi hm
    refine ⟨⟨_, hf⟩, ?_, ?_⟩
    · intro j
      rw [hf]
      constructor
      · intro h
        simp at h
        subst h
        exact ⟨e, hi, hm, rfl⟩
      · rintro ⟨e', hj, hm', hk'⟩
        rw [hinv.keys _ _ _ _ hj hi hm' hm hk']
    · rw [hf]
      simp
      exact ⟨i, e, hi, hm, rfl⟩
  · have hf := hinv.find_absent hmem
    refine ⟨⟨_, hf⟩, ?_, ?_⟩
    · intro j
      rw [hf]
      simp
      intro e hj hm hk
      exact hmem ⟨j, e, hj, hm, hk⟩
    · simp [hf, hmem]

/-- Appending to a chain leaves every other chain as it was. -/
theorem GoodChain.snoc_other {hash : Key → Nat} {P : Nat} {t t' : List (element Key)}
    {c c' : List Nat} {x tl : Nat} (hc : GoodChain hash P t c) (hl : lastOr none c = some tl)
    (hsame : ∀ j, j ≠ tl → j ≠ x → t'[j]? = t[j]?) (hc' : GoodChain hash P t c')
    (hx : x ∉ c') : (tl ∈ c' → c' = c) ∧ (tl ∉ c' → GoodChain hash P t' c') := by
  constructor
  · intro h
    exact GoodChain.unique_chain hc' hc h (lastOr_none_mem hl)
  · intro h
    apply GoodChain.agree_chain _ hc'
    intro i hi
    exact hsame i (fun hh => h (hh ▸ hi)) (fun hh => hx (hh ▸ hi))

/-- Linking a new key behind the chain of its home slot (the collision branch
of `insert_`). -/
theorem PInv.snoc_new {hash : Key → Nat} {s : ADS_set Key} (hinv : PInv hash s []) {k : Key}
    (hnew : ¬ Mem s k) {x : Nat} {ex : element Key} (hx : s.table[x]? = some ex)
    (hfree : ex.mode = Mode.free) {c : List Nat}
    (hc : GoodChain hash s.table_size s.table c) (hhc : hash k % s.table_size ∈ c)
    {tl : Nat} {etl : element Key} (hl : lastOr none c = some tl) (htl : s.table[tl]? = some etl)
    {u : List (element Key)} (hlen : u.length = s.table.length)
    (hcnt : u.countP (fun e => decide (e.mode = Mode.used))
      = s.table.countP (fun e => decide (e.mode = Mode.used)) + 1)
    (hx' : u[x]? = some ⟨k, Mode.used, none, some tl⟩)
    (htl' : u[tl]? = some { etl with next := some x })
    (hsame : ∀ j, j ≠ tl → j ≠ x → u[j]? = s.table[j]?) :
    PInv hash { s with table := u, curr_size := s.curr_size + 1 } [] := by
  have hxc : ∀ c', GoodChain hash s.table_size s.table c' → x ∉ c' := by
    intro c' hc' hxc
    obtain ⟨e, he, hm⟩ := hc'.slots_used x hxc
    rw [hx] at he
    cases he
    rw [hfree] at hm
    cases hm
  have htlc : tl ∈ c := lastOr_none_mem hl
  obtain ⟨etl0, hetl0, hmtl⟩ := hc.slots_used tl htlc
  rw [htl] at hetl0
  cases hetl0
  have hxtl : x ≠ tl := fun h => hxc c hc (h ▸ htlc)
  have hgood := GoodChain.snoc_chain (w := ⟨k, Mode.used, none, some tl⟩) hc hl (hxc c hc) htl htl' hx'
    rfl rfl rfl hhc hsame
  -- every slot of the new table, with the slot it came from
  have hcases : ∀ (j : Nat) (e' : element Key), u[j]? = some e' →
      (j = x ∧ e' = ⟨k, Mode.used, none, some tl⟩) ∨
      (j ≠ x ∧ ∃ e, s.table[j]? = some e ∧ e.mode = e'.mode ∧ e.key = e'.key
        ∧ (e'.mode = Mode.free → e' = e)) := by
    intro j e' hj
    by_cases hjx : j = x
    · subst hjx
      rw [hx'] at hj
      cases hj
      exact Or.inl ⟨rfl, rfl⟩
    · right
      refine ⟨hjx, ?_⟩
      by_cases hjt : j = tl
      · subst hjt
        rw [htl'] at hj
        cases hj
        refine ⟨etl, htl, rfl, rfl, ?_⟩
        intro h
        simp only [] at h
        rw [hmtl] at h
        cases h
      · rw [hsame j hjt hjx] at hj
        exact ⟨e', hj, rfl, rfl, fun _ => rfl⟩
  refine ⟨?_, hinv.psz, hinv.ple, ?_, ?_, ?_, ?_, ?_, List.nodup_nil, trivial, ?_⟩
  · simp [hlen, hinv.len]
  · intro j e' hj
    rcases hcases j e' hj with ⟨rfl, rfl⟩ | ⟨-, e, he, hm, -, -⟩
    · have := hinv.sent _ ex hx
      rw [hfree] at this
      simp at this
      simp
      exact this
    · rw [← hm]
      exact hinv.sent j e he
  · intro j e' hj hm'
    rcases hcases j e' hj with ⟨rfl, rfl⟩ | ⟨-, e, he, hm, -, hfr⟩
    · cases hm'
    · rw [hfr hm']
      exact hinv.freeL j e he (by rw [hm, hm'])
  · simp [hcnt, hinv.size]
  · intro i j ei ej hi hj hmi hmj hk
    rcases hcases i ei hi with ⟨rfl, rfl⟩ | ⟨-, ei0, hei0, hmi0, hki0, -⟩
    · rcases hcases j ej hj with ⟨rfl, rfl⟩ | ⟨-, ej0, hej0, hmj0, hkj0, -⟩
      · rfl
      · exact absurd ⟨j, ej0, hej0, by rw [hmj0, hmj], by rw [hkj0, ← hk]⟩ hnew
    · rcases hcases j ej hj with ⟨rfl, rfl⟩ | ⟨-, ej0, hej0, hmj0, hkj0, -⟩
      · exact absurd ⟨i, ei0, hei0, by rw [hmi0, hmi], by rw [hki0, hk]⟩ hnew
      · exact hinv.keys i j ei0 ej0 hei0 hej0 (by rw [hmi0, hmi]) (by rw [hmj0, hmj])
          (by rw [hki0, hkj0, hk])
  · intro j e' hj hm'
    right
    rcases hcases j e' hj with ⟨rfl, rfl⟩ | ⟨hjx, e, he, hm, -, -⟩
    · exact ⟨c ++ [j], by simp, hgood, by simp⟩
    · rcases hinv.chains j e he (by rw [hm, hm']) with h | ⟨c', hjc', hc', -⟩
      · simp at h
      · obtain ⟨h1, h2⟩ := GoodChain.snoc_other hc hl hsame hc' (hxc c' hc')
        by_cases htc : tl ∈ c'
        · have := h1 htc
          subst this
          exact ⟨c' ++ [x], by simp [hjc'], hgood, by simp⟩
        · exact ⟨c', hjc', h2 htc, by simp⟩
  · intro l1 b l2 e hs
    simp at hs

/-- Re-splicing the first detached slot behind the chain of its home slot
(case B of `erase`). -/
theorem PInv.snoc_pend {hash : Key → Nat} {s : ADS_set Key} {a : Nat} {pend : List Nat}
    (hinv : PInv hash s (a :: pend)) {e : element Key} (he : s.table[a]? = some e)
    {c : List Nat} (hc : GoodChain hash s.table_size s.table c)
    (hhc : hash e.key % s.table_size ∈ c) (hdis : ∀ x ∈ c, x ∉ a :: pend)
    {tl : Nat} {etl : element Key} (hl : lastOr none c = some tl) (htl : s.table[tl]? = some etl)
    {u : List (element Key)} (hlen : u.length = s.table.length)
    (hcnt : u.countP (fun e => decide (e.mode = Mode.used))
      = s.table.countP (fun e => decide (e.mode = Mode.used)))
    (ha' : u[a]? = some { e with next := none, prev := some tl })
    (htl' : u[tl]? = some { etl with next := some a })
    (hsame : ∀ j, j ≠ tl → j ≠ a → u[j]? = s.table[j]?) :
    PInv hash { s with table := u } pend := by
  obtain ⟨e0, he0, hm0, hn0, hrest⟩ := hinv.pnext
  rw [he] at he0
  cases he0
  have hapend : a ∉ pend := (List.nodup_cons.1 hinv.pnd).1
  have htlc : tl ∈ c := lastOr_none_mem hl
  have hac : a ∉ c := fun h => hdis a h (by simp)
  have hatl : a ≠ tl := fun h => hac (h ▸ htlc)
  have hgood := GoodChain.snoc_chain (w := { e with next := none, prev := some tl }) hc hl hac htl
    htl' ha' hm0 rfl rfl hhc hsame
  have hcases : ∀ (j : Nat) (e' : element Key), u[j]? = some e' →
      ∃ e, s.table[j]? = some e ∧ e.mode = e'.mode ∧ e.key = e'.key
        ∧ (e'.mode = Mode.free → e' = e) := by
    intro j e' hj
    by_cases hja : j = a
    · subst hja
      rw [ha'] at hj
      cases hj
      refine ⟨e, he, rfl, rfl, ?_⟩
      intro h
      simp only [] at h
      rw [hm0] at h
      cases h
    · by_cases hjt : j = tl
      · subst hjt
        rw [htl'] at hj
        cases hj
        obtain ⟨etl0, hetl0, hmtl⟩ := hc.slots_used j htlc
        rw [htl] at hetl0
        cases hetl0
        refine ⟨etl, htl, rfl, rfl, ?_⟩
        intro h
        simp only [] at h
        rw [hmtl] at h
        cases h
      · rw [hsame j hjt hja] at hj
        exact ⟨e', hj, rfl, rfl, fun _ => rfl⟩
  refine ⟨?_, hinv.psz, hinv.ple, ?_, ?_, ?_, ?_, ?_, (List.nodup_cons.1 hinv.pnd).2, ?_, ?_⟩
  · simp [hlen, hinv.len]
  · intro j e' hj
    obtain ⟨e1, he1, hm, -, -⟩ := hcases j e' hj
    rw [← hm]
    exact hinv.sent j e1 he1
  · intro j e' hj hm'
    obtain ⟨e1, he1, hm, -, hfr⟩ := hcases j e' hj
    rw [hfr hm']
    exact hinv.freeL j e1 he1 (by rw [hm, hm'])
  · simp [hcnt, hinv.size]
  · intro i j ei ej hi hj hmi hmj hk
    obtain ⟨ei0, hei0, hmi0, hki0, -⟩ := hcases i ei hi
    obtain ⟨ej0, hej0, hmj0, hkj0, -⟩ := hcases j ej hj
    exact hinv.keys i j ei0 ej0 hei0 hej0 (by rw [hmi0, hmi]) (by rw [hmj0, hmj])
      (by rw [hki0, hkj0, hk])
  · intro j e' hj hm'
    obtain ⟨e1, he1, hm, -, -⟩ := hcases j e' hj
    have hcdis : ∀ y ∈ c ++ [a], y ∉ pend := by
      intro y hy hyp
      rcases List.mem_append.1 hy with h | h
      · exact hdis y h (List.mem_cons_of_mem _ hyp)
      · simp at h
        exact hapend (h ▸ hyp)
    rcases hinv.chains j e1 he1 (by rw [hm, hm']) with h | ⟨c', hjc', hc', hdis'⟩
    · rcases List.mem_cons.1 h with h | h
      · right
        exact ⟨c ++ [a], by simp [h], hgood, hcdis⟩
      · exact Or.inl h
    · right
      have hac' : a ∉ c' := fun h => hdis' a h (by simp)
      obtain ⟨h1, h2⟩ := GoodChain.snoc_other hc hl hsame hc' hac'
      by_cases htc : tl ∈ c'
      · have := h1 htc
        subst this
        exact ⟨c' ++ [a], by simp [hjc'], hgood, hcdis⟩
      · exact ⟨c', hjc', h2 htc, fun y hy hyp => hdis' y hy (List.mem_cons_of_mem _ hyp)⟩
  · apply NextLinked.agree _ hrest
    intro y hy
    apply hsame
    · intro h
      exact hdis tl htlc (List.mem_cons_of_mem _ (h ▸ hy))
    · intro h
      exact hapend (h ▸ hy)
  · intro l1 b l2 eb hs hb
    obtain ⟨e1, he1, -, hk, -⟩ := hcases b eb hb
    rw [← hk]
    exact hinv.phome (a :: l1) b l2 e1 (by rw [hs]; rfl) he1

theorem nodup_split {pre suf : List Nat} {p : Nat} (hn : (pre ++ p :: suf).Nodup) :
    pre.Nodup ∧ suf.Nodup ∧ p ∉ pre ∧ p ∉ suf ∧ ∀ x ∈ pre, x ∉ suf := by
  rw [List.nodup_append] at hn
  obtain ⟨h1, h2, h3⟩ := hn
  rw [List.nodup_cons] at h2
  refine ⟨h1, h2.2, fun h => h3 h (by simp), h2.1, fun x hx hs => h3 hx (by simp [hs])⟩

/-- Unlinking a stored key from its chain: the slots behind it become detached
(the first phase of `erase`). -/
theorem PInv.erase_init {hash : Key → Nat} {s : ADS_set Key} (hinv : PInv hash s [])
    {p : Nat} {e : element Key} (hp : s.table[p]? = some e) (hm : e.mode = Mode.used)
    {pre suf : List Nat} (hc : GoodChain hash s.table_size s.table (pre ++ p :: suf))
    {t' : List (element Key)} (hlen : t'.length = s.table.length)
    (hcnt : t'.countP (fun e => decide (e.mode = Mode.used)) + 1
      = s.table.countP (fun e => decide (e.mode = Mode.used)))
    (hp' : t'[p]? = some ⟨e.key, Mode.free, none, none⟩)
    (hprev : ∀ (y : Nat) (ey : element Key), lastOr none pre = some y → s.table[y]? = some ey →
      t'[y]? = some { ey with next := none })
    (hsame : ∀ j, j ≠ p → lastOr none pre ≠ some j → t'[j]? = s.table[j]?) :
    PInv hash { s with table := t', curr_size := s.curr_size - 1 } suf := by
  obtain ⟨hnpre, hnsuf, hppre, hpsuf, hdisj⟩ := nodup_split hc.nodup
  have hcases : ∀ (j : Nat) (e' : element Key), t'[j]? = some e' →
      (j = p ∧ e' = ⟨e.key, Mode.free, none, none⟩) ∨
      (j ≠ p ∧ ∃ e1, s.table[j]? = some e1 ∧ e1.mode = e'.mode ∧ e1.key = e'.key
        ∧ (e'.mode = Mode.free → e' = e1)) := by
    intro j e' hj
    by_cases hjp : j = p
    · subst hjp
      rw [hp'] at hj
      cases hj
      exact Or.inl ⟨rfl, rfl⟩
    · right
      refine ⟨hjp, ?_⟩
      by_cases hjy : lastOr none pre = some j
      · have hjpre : j ∈ pre := lastOr_none_mem hjy
        obtain ⟨ey, hey, hmy⟩ := hc.slots_used j (by simp [hjpre])
        rw [hprev j ey hjy hey] at hj
        cases hj
        refine ⟨ey, hey, rfl, rfl, ?_⟩
        intro h
        simp only [] at h
        rw [hmy] at h
        cases h
      · rw [hsame j hjp hjy] at hj
        exact ⟨e', hj, rfl, rfl, fun _ => rfl⟩
  have hsuf_same : ∀ i ∈ suf, t'[i]? = s.table[i]? := by
    intro i hi
    apply hsame
    · intro h
      exact hpsuf (h ▸ hi)
    · intro h
      exact hdisj i (lastOr_none_mem h) hi
  refine ⟨?_, hinv.psz, hinv.ple, ?_, ?_, ?_, ?_, ?_, hnsuf, ?_, ?_⟩
  · simp [hlen, hinv.len]
  · intro j e' hj
    rcases hcases j e' hj with ⟨rfl, rfl⟩ | ⟨-, e1, he1, hm1, -, -⟩
    · have := hinv.sent _ e hp
      rw [hm] at this
      simp at this
      simp
      exact this
    · rw [← hm1]
      exact hinv.sent j e1 he1
  · intro j e' hj hm'
    rcases hcases j e' hj with ⟨rfl, rfl⟩ | ⟨-, e1, he1, hm1, -, hfr⟩
    · exact ⟨rfl, rfl⟩
    · rw [hfr hm']
      exact hinv.freeL j e1 he1 (by rw [hm1, hm'])
  · simp only []
    rw [hinv.size, ← hcnt]
    simp
  · intro i j ei ej hi hj hmi hmj hk
    rcases hcases i ei hi with ⟨rfl, rfl⟩ | ⟨-, ei0, hei0, hmi0, hki0, -⟩
    · cases hmi
    · rcases hcases j ej hj with ⟨rfl, rfl⟩ | ⟨-, ej0, hej0, hmj0, hkj0, -⟩
      · cases hmj
      · exact hinv.keys i j ei0 ej0 hei0 hej0 (by rw [hmi0, hmi]) (by rw [hmj0, hmj])
          (by rw [hki0, hkj0, hk])
  · intro j e' hj hm'
    rcases hcases j e' hj with ⟨rfl, rfl⟩ | ⟨hjp, e1, he1, hm1, -, -⟩
    · cases hm'
    · rcases hinv.chains j e1 he1 (by rw [hm1, hm']) with h | ⟨c', hjc', hc', -⟩
      · simp at h
      · by_cases hpc : p ∈ c'
        · have hcc := GoodChain.unique_chain hc' hc hpc (by simp)
          subst hcc
          rcases List.mem_append.1 hjc' with hjpre | hjs
          · right
            obtain ⟨y, hy⟩ : ∃ y, lastOr none pre = some y := by
              cases pre with
              | nil => simp at hjpre
              | cons b pre =>
                cases hl : lastOr (some b) pre with
                | none => exact absurd hl (lastOr_some_ne_none b pre)
                | some y => exact ⟨y, by simpa using hl⟩
            obtain ⟨l1, hl1⟩ : ∃ l1, pre = l1 ++ [y] := by
              cases pre with
              | nil => simp at hjpre
              | cons b pre => exact eq_concat_of_lastOr (by simpa using hy)
            refine ⟨pre, hjpre, ⟨hnpre, ?_, ?_⟩, hdisj⟩
            · have hl : Linked s.table none (l1 ++ y :: (p :: suf)) := by
                have := hc'.linked
                rw [hl1] at this
                simpa using this
              rw [hl1]
              apply Linked.take_left hl
              · intro i hi
                have hipre : i ∈ pre := by rw [hl1]; simp [hi]
                apply hsame
                · intro h
                  exact hppre (h ▸ hipre)
                · intro h
                  rw [hy] at h
                  cases h
                  rw [hl1] at hnpre
                  have := (List.nodup_append.1 hnpre).2.2
                  exact this hi (by simp)
              · intro ey hey
                exact hprev y ey hy hey
            · intro pre' a suf' e'' hs he''
              have hapre : a ∈ pre := by rw [hs]; simp
              rcases hcases a e'' he'' with ⟨rfl, -⟩ | ⟨-, e2, he2, -, hk2, -⟩
              · exact absurd hapre hppre
              · rw [← hk2]
                exact hc'.home pre' a (suf' ++ p :: suf) e2 (by rw [hs]; simp) he2
          · rcases List.mem_cons.1 hjs with h | h
            · exact absurd h hjp
            · exact Or.inl h
        · right
          have hdis : ∀ x ∈ c', x ∉ pre ++ p :: suf := by
            intro x hx hxc
            exact hpc (GoodChain.unique_chain hc' hc hx hxc ▸ (by simp))
          refine ⟨c', hjc', GoodChain.agree_chain ?_ hc', ?_⟩
          · intro i hi
            apply hsame
            · intro h
              exact hpc (h ▸ hi)
            · intro h
              exact hdis i hi (by simp [lastOr_none_mem h])
          · intro x hx hxs
            exact hdis x hx (by simp [hxs])
  · have h1 : NextLinked s.table (p :: suf) := NextLinked.of_append (l := pre) hc.linked.next
    apply NextLinked.agree hsuf_same
    exact NextLinked.of_append (l := [p]) h1
  · intro l1 b l2 eb hs hb
    have hbs : b ∈ suf := by rw [hs]; simp
    rw [hsuf_same b hbs] at hb
    have hn := hc.nodup
    rw [hs] at hn hc
    have hh := (hc.home (pre ++ p :: l1) b l2 eb (by simp) hb).2 (by simp)
    intro hmem
    have hn' : ((pre ++ p :: l1) ++ b :: l2).Nodup := by simpa using hn
    exact (List.nodup_append.1 hn').2.2 hh hmem

theorem tail_loop_last (t : List (element Key)) :
    ∀ (l : List Nat) (a fuel : Nat), NextLinked t (a :: l) → l.length < fuel →
      tail_loop t fuel a = lastOr (some a) l := by
  intro l
  induction l with
  | nil =>
    intro a fuel hl hf
    obtain ⟨e, h1, _, h3, _⟩ := hl
    obtain ⟨f, rfl⟩ : ∃ f, fuel = f + 1 := ⟨fuel - 1, by omega⟩
    simp at h3
    simp [tail_loop, h1, h3]
  | cons b rest ih =>
    intro a fuel hl hf
    obtain ⟨e, h1, _, h3, h4⟩ := hl
    obtain ⟨f, rfl⟩ : ∃ f, fuel = f + 1 := ⟨fuel - 1, by omega⟩
    simp at hf h3
    have := ih b f h4 (by omega)
    simp [tail_loop, h1, h3, this]

/-- A list with fewer hits than `n` among its first `n` entries has a miss there. -/
theorem exists_not_of_countP_lt {α : Type} (p : α → Bool) :
    ∀ (l : List α) (n : Nat), l.countP p < n → n ≤ l.length →
      ∃ j, j < n ∧ ∃ e, l[j]? = some e ∧ p e = false
  | [], n, h1, h2 => by
    simp at h2
    omega
  | a :: l, 0, h1, _ => by omega
  | a :: l, n + 1, h1, h2 => by
    by_cases hp : p a = true
    · rw [List.countP_cons_of_pos _ _ hp] at h1
      obtain ⟨j, hj, e, he, hpe⟩ := exists_not_of_countP_lt p l n (by omega)
        (by simpa using h2)
      exact ⟨j + 1, by omega, e, by simpa using he, hpe⟩
    · exact ⟨0, by omega, a, by simp, by simpa using hp⟩

/-- Below the load bound some slot is free. -/
theorem PInv.exists_free {hash : Key → Nat} {s : ADS_set Key} {pend : List Nat}
    (hinv : PInv hash s pend) (hsz : s.curr_size < s.full_table) :
    ∃ j, j < s.full_table ∧ ∃ e, s.table[j]? = some e ∧ e.mode = Mode.free := by
  obtain ⟨j, hj, e, he, hpe⟩ := exists_not_of_countP_lt
    (fun e : element Key => decide (e.mode = Mode.used)) s.table s.full_table
    (by rw [← hinv.size]; exact hsz) (by rw [hinv.len]; omega)
  refine ⟨j, hj, e, he, ?_⟩
  have h1 : e.mode ≠ Mode.used := by simpa using hpe
  have h2 : e.mode ≠ Mode.end_ := by
    intro h
    have := (hinv.sent j e he).1 h
    omega
  cases hm : e.mode
  · rfl
  · exact absurd hm h1
  · exact absurd hm h2

/-- The probe loop, entered at the cursor position `n`, walks down to the
first free slot. -/
theorem probe_loop_down : ∀ (n fuel : Nat) (s : ADS_set Key), n < s.full_table →
    s.table_last = n → s.table.length = s.full_table + 1 →
    (∃ j, j ≤ n ∧ ∃ e, s.table[j]? = some e ∧ e.mode = Mode.free) → n < fuel →
    ∃ x, x ≤ n ∧ (∃ e, s.table[x]? = some e ∧ e.mode = Mode.free) ∧
      (∀ j, x < j → j ≤ n → ∃ e, s.table[j]? = some e ∧ e.mode ≠ Mode.free) ∧
      probe_loop fuel s n = some (x, { s with table_last := x }) := by
  intro n
  induction n with
  | zero =>
    intro fuel s hF hl hlen ⟨j, hj, e, he, hm⟩ hf
    have hj0 : j = 0 := by omega
    subst hj0
    obtain ⟨f, rfl⟩ : ∃ f, fuel = f + 1 := ⟨fuel - 1, by omega⟩
    refine ⟨0, le_refl _, ⟨e, he, hm⟩, by intro j h1 h2; omega, ?_⟩
    simp [probe_loop, he, hm]
    rw [← hl]
  | succ n ih =>
    intro fuel s hF hl hlen ⟨j, hj, e, he, hm⟩ hf
    obtain ⟨f, rfl⟩ : ∃ f, fuel = f + 1 := ⟨fuel - 1, by omega⟩
    have hin : n + 1 < s.table.length := by omega
    by_cases hfree : (s.table[n + 1]).mode = Mode.free
    · refine ⟨n + 1, le_refl _, ⟨_, List.getElem?_eq_getElem hin, hfree⟩,
        by intro j h1 h2; omega, ?_⟩
      simp [probe_loop, List.getElem?_eq_getElem hin, hfree]
      rw [← hl]
    · have hjn : j ≤ n := by
        rcases Nat.lt_or_ge n j with h | h
        · have : j = n + 1 := by omega
          subst this
          rw [List.getElem?_eq_getElem hin] at he
          cases he
          exact absurd hm hfree
        · exact h
      have hg : g s = some (n, { s with table_last := n }) := by
        have h0 : s.full_table ≠ 0 := by omega
        have h1 : dec64 s.table_last = n := by simp [dec64, hl]
        simp [g, h0, h1]
        exact Nat.mod_eq_of_lt (by omega)
      obtain ⟨x, hx, hxf, hbetween, hr⟩ := ih f { s with table_last := n } (by simpa using by omega)
        rfl hlen ⟨j, hjn, e, he, hm⟩ (by omega)
      refine ⟨x, by omega, hxf, ?_, ?_⟩
      · intro i h1 h2
        rcases Nat.lt_or_ge n i with h | h
        · have : i = n + 1 := by omega
          subst this
          exact ⟨_, List.getElem?_eq_getElem hin, hfree⟩
        · exact hbetween i h1 h
      · simp [probe_loop, List.getElem?_eq_getElem hin, hfree, hg]
        simpa using hr

/-- The probe loop of `insert_`, entered at an occupied home slot, returns the
free slot of greatest index and leaves the cursor there. -/
theorem probe_loop_spec {s : ADS_set Key} (htl : TL s)
    (hlen : s.table.length = s.full_table + 1) {idx : Nat} {e0 : element Key}
    (h0 : s.table[idx]? = some e0) (hm0 : e0.mode ≠ Mode.free)
    (hfree : ∃ j, j < s.full_table ∧ ∃ e, s.table[j]? = some e ∧ e.mode = Mode.free) :
    ∃ x, x < s.table_last ∧ (∃ e, s.table[x]? = some e ∧ e.mode = Mode.free) ∧
      (∀ j, x < j → j < s.full_table → ∃ e, s.table[j]? = some e ∧ e.mode ≠ Mode.free) ∧
      probe_loop (s.table_last + s.full_table + 1) s idx = some (x, { s with table_last := x }) := by
  obtain ⟨j, hj, e, he, hm⟩ := hfree
  have hjl : j < s.table_last := by
    rcases Nat.lt_or_ge j s.table_last with h | h
    · exact h
    · obtain ⟨e', he', hm'⟩ := htl.2 j h hj
      rw [he] at he'
      cases he'
      rw [hm] at hm'
      cases hm'
  have hle := htl.1
  have hg : g s = some (s.table_last - 1, { s with table_last := s.table_last - 1 }) := by
    have h0 : s.full_table ≠ 0 := by omega
    have h1 : dec64 s.table_last = s.table_last - 1 := by
      have : s.table_last ≠ 0 := by omega
      simp [dec64, this]
    simp [g, h0, h1]
    exact Nat.mod_eq_of_lt (by omega)
  obtain ⟨x, hx, hxf, hbetween, hr⟩ := probe_loop_down (s.table_last - 1)
    (s.table_last + s.full_table) { s with table_last := s.table_last - 1 }
    (by simpa using by omega) rfl hlen ⟨j, by omega, e, he, hm⟩ (by omega)
  refine ⟨x, by omega, hxf, ?_, ?_⟩
  · intro i h1 h2
    rcases Nat.lt_or_ge i s.table_last with h | h
    · exact hbetween i h1 (by omega)
    · obtain ⟨e', he', hm'⟩ := htl.2 i h h2
      exact ⟨e', he', by rw [hm']; simp⟩
  · simp [probe_loop, h0, hm0, hg]
    simpa using hr

/-- The free branch of `insert_`, computed. -/
theorem insert__free {hash : Key → Nat} {s : ADS_set Key} {k : Key} {e : element Key}
    (hp : 0 < s.table_size) (he : s.table[hash k % s.table_size]? = some e)
    (hfree : e.mode = Mode.free) :
    insert_ hash s k = some (hash k % s.table_size,
      { s with table := s.table.set (hash k % s.table_size) ⟨k, Mode.used, none, none⟩,
               curr_size := s.curr_size + 1 }) := by
  have h0 : s.table_size ≠ 0 := by omega
  simp [insert_, h, h0, he, hfree, upd]

/-- The placement `insert_` of a key that is not stored, below the load bound:
it succeeds, keeps the invariant, and adds exactly this key. -/
theorem insert__spec {hash : Key → Nat} {s : ADS_set Key} (hinv : Inv hash s)
    (hsz : s.curr_size < s.full_table) {k : Key} (hnew : ¬ Mem s k) :
    ∃ x s', insert_ hash s k = some (x, s') ∧ Inv hash s' ∧ s'.table_size = s.table_size ∧
      s'.full_table = s.full_table ∧ s'.curr_size = s.curr_size + 1 ∧
      (∀ j, Mem s' j ↔ j = k ∨ Mem s j) ∧
      (∃ ex, s'.table[x]? = some ex ∧ ex.mode = Mode.used ∧ ex.key = k) := by
  obtain ⟨hpi, htl⟩ := hinv
  obtain ⟨e0, he0, hne0⟩ := hpi.home_get k
  have hnew' : ∀ (i : Nat) (ei : element Key), s.table[i]? = some ei → ei.mode = Mode.used →
      ei.key ≠ k := fun i ei hi hm hk => hnew ⟨i, ei, hi, hm, hk⟩
  by_cases hm0 : e0.mode = Mode.free
  · -- the home slot is free
    have hget := get_set_if (⟨k, Mode.used, none, none⟩ : element Key) he0
    refine ⟨_, _, insert__free hpi.psz he0 hm0, ⟨hpi.place_free he0 hm0 hnew', ?_⟩, rfl, rfl, rfl,
      ?_, ⟨⟨k, Mode.used, none, none⟩, by simp only [hget]; simp, rfl, rfl⟩⟩
    · refine ⟨htl.1, ?_⟩
      intro j h1 h2
      obtain ⟨e, he, hm⟩ := htl.2 j h1 h2
      refine ⟨e, ?_, hm⟩
      simp only [hget]
      rw [if_neg]
      · exact he
      · intro h
        rw [h, he0] at he
        cases he
        rw [hm0] at hm
        cases hm
    · intro j
      constructor
      · rintro ⟨i, e, hi, hm, hk⟩
        simp only [hget] at hi
        split at hi
        · cases hi
          exact Or.inl hk.symm
        · exact Or.inr ⟨i, e, hi, hm, hk⟩
      · rintro (rfl | ⟨i, e, hi, hm, hk⟩)
        · exact ⟨hash j % s.table_size, ⟨j, Mode.used, none, none⟩, by simp only [hget]; simp,
            rfl, rfl⟩
        · refine ⟨i, e, ?_, hm, hk⟩
          simp only [hget]
          rw [if_neg]
          · exact hi
          · intro h
            rw [h, he0] at hi
            cases hi
            rw [hm0] at hm
            cases hm
  · -- collision: the home slot is used
    have hu0 : e0.mode = Mode.used := by
      cases hm : e0.mode
      · exact absurd hm hm0
      · rfl
      · exact absurd hm hne0
    rcases hpi.chains _ e0 he0 hu0 with h | ⟨c, hhc, hc, -⟩
    · simp at h
    obtain ⟨m1, m2, rfl⟩ := List.append_of_mem hhc
    obtain ⟨e1, he1, -, -, hn1⟩ := Linked.split hc.linked
    rw [he0] at he1
    cases he1
    have hnl : NextLinked s.table (hash k % s.table_size :: m2) :=
      NextLinked.of_append (l := m1) hc.linked.next
    have hclen := hpi.chain_length hc
    simp at hclen
    obtain ⟨tl, htlast⟩ : ∃ tl, lastOr (some (hash k % s.table_size)) m2 = some tl := by
      cases hl : lastOr (some (hash k % s.table_size)) m2 with
      | none => exact absurd hl (lastOr_some_ne_none _ _)
      | some y => exact ⟨y, rfl⟩
    have hlc : lastOr none (m1 ++ hash k % s.table_size :: m2) = some tl := by simpa using htlast
    have htail : (e0.next = none ∧ hash k % s.table_size = tl) ∨
        (∃ n, e0.next = some n ∧ tail_loop s.table s.table.length n = some tl) := by
      cases m2 with
      | nil =>
        simp at hn1 htlast
        exact Or.inl ⟨hn1, htlast⟩
      | cons n l' =>
        simp at hn1
        obtain ⟨_, _, _, _, hnl'⟩ := hnl
        refine Or.inr ⟨n, hn1, ?_⟩
        rw [tail_loop_last s.table l' n s.table.length hnl' (by
          rw [hpi.len]
          simp at hclen
          omega)]
        simpa using htlast
    obtain ⟨etl, hetl, hmtl⟩ := hc.slots_used tl (lastOr_none_mem hlc)
    obtain ⟨x, hxl, ⟨ex, hex, hmx⟩, hbetween, hprobe⟩ :=
      probe_loop_spec htl hpi.len he0 hm0 (hpi.exists_free hsz)
    have hxtl : x ≠ tl := by
      intro h
      rw [h, hetl] at hex
      cases hex
      rw [hmtl] at hmx
      cases hmx
    have hxF : x < s.full_table := hpi.used_lt hex (by rw [hmx]; simp)
    -- the three writes
    have hw1 : upd s.table x (fun y => { y with key := k, mode := Mode.used })
        = some (s.table.set x { ex with key := k, mode := Mode.used }) := upd_some _ hex
    have hg1 := get_set_if ({ ex with key := k, mode := Mode.used } : element Key) hex
    have hetl1 : (s.table.set x { ex with key := k, mode := Mode.used })[tl]? = some etl := by
      rw [hg1, if_neg (Ne.symm hxtl)]
      exact hetl
    have hw2 := upd_some (fun y : element Key => { y with next := some x }) hetl1
    have hg2 := get_set_if ({ etl with next := some x } : element Key) hetl1
    have hex2 : ((s.table.set x { ex with key := k, mode := Mode.used }).set tl
        { etl with next := some x })[x]? = some { ex with key := k, mode := Mode.used } := by
      rw [hg2, if_neg hxtl, hg1, if_pos rfl]
    have hw3 := upd_some (fun y : element Key => { y with next := none, prev := some tl }) hex2
    have hg3 := get_set_if
      ({ ex with key := k, mode := Mode.used, next := none, prev := some tl } : element Key) hex2
    have hc1 := countP_set_add (fun e : element Key => decide (e.mode = Mode.used))
      ({ ex with key := k, mode := Mode.used } : element Key) hex
    have hc2 := countP_set_add (fun e : element Key => decide (e.mode = Mode.used))
      ({ etl with next := some x } : element Key) hetl1
    have hc3 := countP_set_add (fun e : element Key => decide (e.mode = Mode.used))
      ({ ex with key := k, mode := Mode.used, next := none, prev := some tl } : element Key) hex2
    have hcnt : (((s.table.set x { ex with key := k, mode := Mode.used }).set tl
        { etl with next := some x }).set x
        { ex with key := k, mode := Mode.used, next := none, prev := some tl }).countP
          (fun e : element Key => decide (e.mode = Mode.used))
        = s.table.countP (fun e : element Key => decide (e.mode = Mode.used)) + 1 := by
      simp [hmx, hmtl] at hc1 hc2 hc3 ⊢
      omega
    have hpinv := PInv.snoc_new hpi hnew hex hmx hc (by simp) hlc hetl
      (u := ((s.table.set x { ex with key := k, mode := Mode.used }).set tl
        { etl with next := some x }).set x
        { ex with key := k, mode := Mode.used, next := none, prev := some tl })
      (by simp) hcnt (by rw [hg3, if_pos rfl])
      (by rw [hg3, if_neg (Ne.symm hxtl), hg2, if_pos rfl])
      (by
        intro j hj1 hj2
        rw [hg3, if_neg hj2, hg2, if_neg hj1, hg1, if_neg hj2])
    refine ⟨x, { s with
        table := ((s.table.set x { ex with key := k, mode := Mode.used }).set tl
          { etl with next := some x }).set x
          { ex with key := k, mode := Mode.used, next := none, prev := some tl },
        table_last := x, curr_size := s.curr_size + 1 }, ?_, ⟨?_, ?_⟩, rfl, rfl, rfl, ?_, ?_⟩
    · have h0 : s.table_size ≠ 0 := by have := hpi.psz; omega
      rcases htail with ⟨hn, htq⟩ | ⟨n, hn, ht⟩
      · simp only [insert_, h, h0, if_false, he0, hu0, hn, hprobe]
        simp only [htq, hw1, hw2, hw3]
        simp
      · simp only [insert_, h, h0, if_false, he0, hu0, hn, ht, hprobe, hw1, hw2, hw3]
        simp
    · exact ⟨by simpa using hpinv.len, hpinv.psz, hpinv.ple, hpinv.sent, hpinv.freeL, hpinv.size,
        hpinv.keys, hpinv.chains, hpinv.pnd, hpinv.pnext, hpinv.phome⟩
    · refine ⟨by simpa using le_of_lt hxF, ?_⟩
      intro j h1 h2
      simp only [] at h1 h2 ⊢
      by_cases hjx : j = x
      · subst hjx
        exact ⟨_, by rw [hg3, if_pos rfl], rfl⟩
      · obtain ⟨e, he, hm⟩ := hbetween j (by omega) h2
        have hmu : e.mode = Mode.used := by
          cases hm' : e.mode
          · exact absurd hm' hm
          · rfl
          · have := (hpi.sent j e he).1 hm'
            omega
        by_cases hjt : j = tl
        · subst hjt
          rw [hetl] at he
          cases he
          exact ⟨{ etl with next := some x }, by rw [hg3, if_neg hjx, hg2, if_pos rfl], hmu⟩
        · exact ⟨e, by rw [hg3, if_neg hjx, hg2, if_neg hjt, hg1, if_neg hjx]; exact he, hmu⟩
    · intro j
      constructor
      · rintro ⟨i, e, hi, hm, hk⟩
        simp only [] at hi
        rw [hg3] at hi
        split at hi
        · cases hi
          exact Or.inl hk.symm
        · rw [hg2] at hi
          split at hi
          · cases hi
            exact Or.inr ⟨tl, etl, hetl, hmtl, hk⟩
          · rw [hg1] at hi
            rename_i hix _
            rw [if_neg hix] at hi
            exact Or.inr ⟨i, e, hi, hm, hk⟩
      · rintro (rfl | ⟨i, e, hi, hm, hk⟩)
        · exact ⟨x, _, by simp only []; rw [hg3, if_pos rfl], rfl, rfl⟩
        · have hix : i ≠ x := by
            intro h
            rw [h, hex] at hi
            cases hi
            rw [hmx] at hm
            cases hm
          by_cases hit : i = tl
          · subst hit
            rw [hetl] at hi
            cases hi
            exact ⟨i, { etl with next := some x },
              by simp only []; rw [hg3, if_neg hix, hg2, if_pos rfl], hm, hk⟩
          · exact ⟨i, e, by simp only []; rw [hg3, if_neg hix, hg2, if_neg hit, hg1, if_neg hix]; exact hi,
              hm, hk⟩
    · exact ⟨_, by simp only []; rw [hg3, if_pos rfl], rfl, rfl⟩

theorem set_set_swap (t : List (element Key)) {a i : Nat} (hne : a ≠ i) (e1 x f : element Key) :
    ((t.set a e1).set i x).set a f = (t.set a f).set i x := by
  rw [List.set_comm e1 x t hne, List.set_set, List.set_comm x f t (Ne.symm hne)]

theorem dec64_pos {n : Nat} (hn : 0 < n) : dec64 n = n - 1 := by
  have : n ≠ 0 := by omega
  simp [dec64, this]

/-- The re-settle loop of `erase` terminates, restores the invariant, and keeps
the size and the stored keys. -/
theorem erase_loop_spec (hash : Key → Nat) :
    ∀ (pend : List Nat) (fuel : Nat) (s : ADS_set Key), PInv hash s pend → pend.length ≤ fuel →
      ∃ s', erase_loop hash fuel s pend.head? = some s' ∧ PInv hash s' [] ∧
        s'.table_size = s.table_size ∧ s'.full_table = s.full_table ∧
        s'.curr_size = s.curr_size ∧ s'.table_last = s.table_last ∧
        (∀ k, Mem s' k ↔ Mem s k) := by
  intro pend
  induction pend with
  | nil =>
    intro fuel s hinv _
    exact ⟨s, by simp [erase_loop], hinv, rfl, rfl, rfl, rfl, fun _ => Iff.rfl⟩
  | cons a pend ih =>
    intro fuel s hinv hf
    obtain ⟨f, rfl⟩ : ∃ f, fuel = f + 1 := ⟨fuel - 1, by simp at hf; omega⟩
    simp at hf
    obtain ⟨e, he, hm, hn, hrest⟩ := hinv.pnext
    have hnotin := hinv.phome [] a pend e rfl he
    have hia : hash e.key % s.table_size ≠ a := fun h => hnotin (by simp [h])
    have hapend : a ∉ pend := (List.nodup_cons.1 hinv.pnd).1
    have h0 : s.table_size ≠ 0 := by have := hinv.psz; omega
    obtain ⟨e2, he2, hne2⟩ := hinv.home_get e.key
    have hw1 := upd_some (fun x : element Key => { x with next := none }) he
    have hg1 := get_set_if ({ e with next := none } : element Key) he
    have he2' : (s.table.set a { e with next := none })[hash e.key % s.table_size]? = some e2 := by
      rw [hg1, if_neg hia]
      exact he2
    have hea1 : (s.table.set a { e with next := none })[a]? = some { e with next := none } := by
      rw [hg1, if_pos rfl]
    by_cases hfree : e2.mode = Mode.free
    · -- case A: the home slot is free, the key moves there
      obtain ⟨hfh, hpos⟩ := hinv.free_head he
      have hgf := get_set_if (⟨e.key, Mode.free, none, none⟩ : element Key) he
      have he2f : (s.table.set a ⟨e.key, Mode.free, none, none⟩)[hash e.key % s.table_size]?
          = some e2 := by
        rw [hgf, if_neg hia]
        exact he2
      have hpf := hfh.place_free (k := e.key) he2f hfree (by
        intro i ei hi hmi hk
        simp only [] at hi
        rw [hgf] at hi
        split at hi
        · cases hi
          cases hmi
        · rename_i hne
          exact hne (hinv.keys i a ei e hi he hmi hm hk))
      have hgx := get_set_if (⟨e.key, Mode.used, none, none⟩ : element Key) he2f
      have hins := insert__free
        (s := ⟨s.table.set a { e with next := none }, dec64 s.curr_size, s.table_size,
          s.table_last, s.full_table⟩) (k := e.key) hinv.psz he2' hfree
      have heax : ((s.table.set a { e with next := none }).set (hash e.key % s.table_size)
          ⟨e.key, Mode.used, none, none⟩)[a]? = some { e with next := none } := by
        rw [get_set_if _ he2', if_neg (Ne.symm hia)]
        exact hea1
      have hw3 := upd_some
        (fun x : element Key => { x with mode := Mode.free, next := none, prev := none }) heax
      obtain ⟨s', hs', hinv', h1, h2, h3, h4, h5⟩ := ih f _ hpf hf
      refine ⟨s', ?_, hinv', h1, h2, ?_, h4, ?_⟩
      · simp only [erase_loop, he, h, h0, if_false, hw1, he2', hfree, if_true, hins, hw3, hn]
        rw [← hs']
        congr 1
        simp only [set_set_swap s.table (Ne.symm hia), dec64_pos hpos]
      · rw [h3]
        simp only []
        omega
      · intro k
        rw [h5]
        constructor
        · rintro ⟨i, ei, hi, hmi, hk⟩
          simp only [] at hi
          rw [hgx] at hi
          split at hi
          · cases hi
            exact ⟨a, e, he, hm, hk⟩
          · rw [hgf] at hi
            split at hi
            · cases hi
              cases hmi
            · exact ⟨i, ei, hi, hmi, hk⟩
        · rintro ⟨i, ei, hi, hmi, hk⟩
          by_cases hiA : i = a
          · have hee : ei = e := by
              rw [hiA, he] at hi
              exact (Option.some.inj hi).symm
            rw [hee] at hk
            exact ⟨hash e.key % s.table_size, ⟨e.key, Mode.used, none, none⟩,
              by simp only []; rw [hgx, if_pos rfl], rfl, hk⟩
          · have hix : i ≠ hash e.key % s.table_size := by
              intro hh
              rw [hh, he2] at hi
              cases hi
              rw [hfree] at hmi
              cases hmi
            exact ⟨i, ei, by simp only []; rw [hgx, if_neg hix, hgf, if_neg hiA]; exact hi,
              hmi, hk⟩
    · -- case B: the home slot is occupied, the slot is linked behind its chain
      have hu2 : e2.mode = Mode.used := by
        cases hm2 : e2.mode
        · exact absurd hm2 hfree
        · rfl
        · exact absurd hm2 hne2
      rcases hinv.chains _ e2 he2 hu2 with hh | ⟨c, hhc, hc, hdis⟩
      · exact absurd hh hnotin
      have hac : a ∉ c := fun hh => hdis a hh (by simp)
      obtain ⟨m1, m2, rfl⟩ := List.append_of_mem hhc
      have hnl : NextLinked s.table (hash e.key % s.table_size :: m2) :=
        NextLinked.of_append (l := m1) hc.linked.next
      have hnl1 : NextLinked (s.table.set a { e with next := none })
          (hash e.key % s.table_size :: m2) := by
        apply NextLinked.agree _ hnl
        intro i hi
        rw [hg1, if_neg]
        intro hh
        exact hac (by rw [← hh]; exact List.mem_append_right _ hi)
      have hclen := hinv.chain_length hc
      simp at hclen
      obtain ⟨tl, htlast⟩ : ∃ tl, lastOr (some (hash e.key % s.table_size)) m2 = some tl := by
        cases hl : lastOr (some (hash e.key % s.table_size)) m2 with
        | none => exact absurd hl (lastOr_some_ne_none _ _)
        | some y => exact ⟨y, rfl⟩
      have hlc : lastOr none (m1 ++ hash e.key % s.table_size :: m2) = some tl := by
        simpa using htlast
      have htail : tail_loop (s.table.set a { e with next := none })
          (s.table.set a { e with next := none }).length (hash e.key % s.table_size) = some tl := by
        rw [tail_loop_last _ m2 _ _ hnl1 (by
          simp
          rw [hinv.len]
          omega)]
        exact htlast
      have htlc := lastOr_none_mem hlc
      obtain ⟨etl, hetl, hmtl⟩ := hc.slots_used tl htlc
      have hatl : a ≠ tl := fun hh => hac (hh ▸ htlc)
      have hetl1 : (s.table.set a { e with next := none })[tl]? = some etl := by
        rw [hg1, if_neg (Ne.symm hatl)]
        exact hetl
      have hw2 := upd_some (fun x : element Key => { x with next := some a }) hetl1
      have hg2 := get_set_if ({ etl with next := some a } : element Key) hetl1
      have hea2 : ((s.table.set a { e with next := none }).set tl { etl with next := some a })[a]?
          = some { e with next := none } := by
        rw [hg2, if_neg hatl]
        exact hea1
      have hw3 := upd_some (fun x : element Key => { x with prev := some tl }) hea2
      have hg3 := get_set_if ({ e with next := none, prev := some tl } : element Key) hea2
      have hc1 := countP_set_add (fun e : element Key => decide (e.mode = Mode.used))
        ({ e with next := none } : element Key) he
      have hc2 := countP_set_add (fun e : element Key => decide (e.mode = Mode.used))
        ({ etl with next := some a } : element Key) hetl1
      have hc3 := countP_set_add (fun e : element Key => decide (e.mode = Mode.used))
        ({ e with next := none, prev := some tl } : element Key) hea2
      have hcnt : (((s.table.set a { e with next := none }).set tl
          { etl with next := some a }).set a { e with next := none, prev := some tl }).countP
            (fun e : element Key => decide (e.mode = Mode.used))
          = s.table.countP (fun e : element Key => decide (e.mode = Mode.used)) := by
        simp [hm, hmtl] at hc1 hc2 hc3 ⊢
        omega
      have hpinv := PInv.snoc_pend hinv he hc (by simp) hdis hlc hetl
        (u := ((s.table.set a { e with next := none }).set tl
          { etl with next := some a }).set a { e with next := none, prev := some tl })
        (by simp) hcnt (by rw [hg3, if_pos rfl])
        (by rw [hg3, if_neg (Ne.symm hatl), hg2, if_pos rfl])
        (by
          intro j hj1 hj2
          rw [hg3, if_neg hj2, hg2, if_neg hj1, hg1, if_neg hj2])
      obtain ⟨s', hs', hinv', h1, h2, h3, h4, h5⟩ := ih f _ hpinv hf
      refine ⟨s', ?_, hinv', h1, h2, h3, h4, ?_⟩
      · simp only [erase_loop, he, h, h0, if_false, hw1, he2', hfree, htail, hw2, hw3, hn]
        exact hs'
      · intro k
        rw [h5]
        constructor
        · rintro ⟨i, ei, hi, hmi, hk⟩
          simp only [] at hi
          rw [hg3] at hi
          split at hi
          · cases hi
            exact ⟨a, e, he, hm, hk⟩
          · rw [hg2] at hi
            split at hi
            · cases hi
              exact ⟨tl, etl, hetl, hmtl, hk⟩
            · rename_i hiA _
              rw [hg1, if_neg hiA] at hi
              exact ⟨i, ei, hi, hmi, hk⟩
        · rintro ⟨i, ei, hi, hmi, hk⟩
          by_cases hiA : i = a
          · have hee : ei = e := by
              rw [hiA, he] at hi
              exact (Option.some.inj hi).symm
            rw [hee] at hk
            exact ⟨a, { e with next := none, prev := some tl },
              by simp only []; rw [hg3, if_pos rfl], hm, hk⟩
          · by_cases hit : i = tl
            · have hee : ei = etl := by
                rw [hit, hetl] at hi
                exact (Option.some.inj hi).symm
              rw [hee] at hk
              exact ⟨tl, { etl with next := some a },
                by simp only []; rw [hg3, if_neg (Ne.symm hatl), hg2, if_pos rfl], hmtl, hk⟩
            · exact ⟨i, ei,
                by simp only []; rw [hg3, if_neg hiA, hg2, if_neg hit, hg1, if_neg hiA]; exact hi,
                hmi, hk⟩

/-- The second phase of `erase`, from the table in which the key's slot is
released and its predecessor is cut off. -/
theorem erase_tail {hash : Key → Nat} {s : ADS_set Key} (hinv : PInv hash s [])
    {p : Nat} {e : element Key} (hp : s.table[p]? = some e) (hm : e.mode = Mode.used)
    {pre suf : List Nat} (hc : GoodChain hash s.table_size s.table (pre ++ p :: suf))
    {u : List (element Key)} (hlen : u.length = s.table.length)
    (hcnt : u.countP (fun e => decide (e.mode = Mode.used)) + 1
      = s.table.countP (fun e => decide (e.mode = Mode.used)))
    (hp' : u[p]? = some ⟨e.key, Mode.free, none, none⟩)
    (hprev : ∀ (y : Nat) (ey : element Key), lastOr none pre = some y → s.table[y]? = some ey →
      u[y]? = some { ey with next := none })
    (hsame : ∀ j, j ≠ p → lastOr none pre ≠ some j → u[j]? = s.table[j]?) :
    ∃ s3, erase_loop hash u.length { s with table := u, curr_size := dec64 s.curr_size } e.next
        = some s3 ∧ PInv hash s3 [] ∧ s3.table_size = s.table_size ∧
      s3.full_table = s.full_table ∧ s3.curr_size + 1 = s.curr_size ∧
      (∀ j, Mem s3 j ↔ Mem s j ∧ j ≠ e.key) := by
  have hpinv := hinv.erase_init hp hm hc hlen hcnt hp' hprev hsame
  have hpos : 0 < s.curr_size := by
    rw [hinv.size, ← hcnt]
    omega
  obtain ⟨e1, he1, -, -, hn1⟩ := Linked.split hc.linked
  rw [hp] at he1
  cases he1
  have hclen := hinv.chain_length hc
  simp at hclen
  obtain ⟨s3, hs3, hinv3, h1, h2, h3, -, h5⟩ := erase_loop_spec hash suf u.length _ hpinv (by
    rw [hlen, hinv.len]
    omega)
  refine ⟨s3, ?_, hinv3, h1, h2, ?_, ?_⟩
  · rw [dec64_pos hpos, hn1]
    exact hs3
  · rw [h3]
    simp only []
    omega
  · intro j
    rw [h5]
    constructor
    · rintro ⟨i, ei, hi, hmi, hk⟩
      simp only [] at hi
      have hip : i ≠ p := by
        intro h
        rw [h, hp'] at hi
        cases hi
        cases hmi
      by_cases hiy : lastOr none pre = some i
      · obtain ⟨ey, hey, hmy⟩ := hc.slots_used i (by simp [lastOr_none_mem hiy])
        rw [hprev i ey hiy hey] at hi
        cases hi
        refine ⟨⟨i, ey, hey, hmy, hk⟩, ?_⟩
        intro hjk
        exact hip (hinv.keys i p ey e hey hp hmy hm (by rw [← hjk]; exact hk))
      · rw [hsame i hip hiy] at hi
        refine ⟨⟨i, ei, hi, hmi, hk⟩, ?_⟩
        intro hjk
        exact hip (hinv.keys i p ei e hi hp hmi hm (by rw [← hjk]; exact hk))
    · rintro ⟨⟨i, ei, hi, hmi, hk⟩, hne⟩
      have hip : i ≠ p := by
        intro h
        rw [h, hp] at hi
        cases hi
        exact hne hk.symm
      by_cases hiy : lastOr none pre = some i
      · exact ⟨i, { ei with next := none }, hprev i ei hiy hi, hmi, hk⟩
      · exact ⟨i, ei, by simp only []; rw [hsame i hip hiy]; exact hi, hmi, hk⟩

/-- Erasing a stored key: `erase` returns 1, keeps the invariant, takes one
off the size, and removes exactly this key. -/
theorem erase_present {hash : Key → Nat} {s : ADS_set Key} (hinv : Inv hash s) {k : Key}
    (hmem : Mem s k) :
    ∃ s', erase hash s k = some (1, s') ∧ Inv hash s' ∧ s'.table_size = s.table_size ∧
      s'.full_table = s.full_table ∧ s'.curr_size + 1 = s.curr_size ∧
      (∀ j, Mem s' j ↔ Mem s j ∧ j ≠ k) := by
  obtain ⟨hpi, -⟩ := hinv
  obtain ⟨p, e, hp, hm, rfl⟩ := hmem
  have hfind := hpi.find_found hp hm
  rcases hpi.chains p e hp hm with h | ⟨c, hpc, hc, -⟩
  · simp at h
  obtain ⟨pre, suf, rfl⟩ := List.append_of_mem hpc
  obtain ⟨hnpre, hnsuf, hppre, hpsuf, hdisj⟩ := nodup_split hc.nodup
  obtain ⟨e1, he1, -, hpv, -⟩ := Linked.split hc.linked
  rw [hp] at he1
  cases he1
  have hw1 := upd_some
    (fun x : element Key => { x with mode := Mode.free, next := none, prev := none }) hp
  have hg1 := get_set_if (⟨e.key, Mode.free, none, none⟩ : element Key) hp
  have hc1 := countP_set_add (fun e : element Key => decide (e.mode = Mode.used))
    (⟨e.key, Mode.free, none, none⟩ : element Key) hp
  have hfin : ∀ s3 : ADS_set Key, PInv hash s3 [] → s3.table_size = s.table_size →
      s3.full_table = s.full_table → s3.curr_size + 1 = s.curr_size →
      (∀ j, Mem s3 j ↔ Mem s j ∧ j ≠ e.key) →
      Inv hash { s3 with table_last := s3.full_table } ∧
      ({ s3 with table_last := s3.full_table } : ADS_set Key).table_size = s.table_size ∧
      ({ s3 with table_last := s3.full_table } : ADS_set Key).full_table = s.full_table ∧
      ({ s3 with table_last := s3.full_table } : ADS_set Key).curr_size + 1 = s.curr_size ∧
      (∀ j, Mem ({ s3 with table_last := s3.full_table } : ADS_set Key) j ↔ Mem s j ∧ j ≠ e.key) := by
    intro s3 h3 h4 h5 h6 h7
    refine ⟨⟨⟨h3.len, h3.psz, h3.ple, h3.sent, h3.freeL, h3.size, h3.keys, h3.chains, h3.pnd,
      h3.pnext, h3.phome⟩, le_refl _, ?_⟩, h4, h5, h6, h7⟩
    intro j hj1 hj2
    simp only [] at hj1 hj2
    omega
  cases hprev : lastOr none pre with
  | none =>
    rw [hprev] at hpv
    obtain ⟨s3, hs3, h3, h4, h5, h6, h7⟩ := erase_tail hpi hp hm hc
      (u := s.table.set p ⟨e.key, Mode.free, none, none⟩) (by simp)
      (by simp [hm] at hc1 ⊢; omega) (by rw [hg1, if_pos rfl])
      (by intro y ey hy; rw [hprev] at hy; cases hy)
      (by intro j hj _; rw [hg1, if_neg hj])
    refine ⟨_, ?_, hfin s3 h3 h4 h5 h6 h7⟩
    simp only [erase, hfind, hp, hw1, hpv, hs3]
  | some y =>
    rw [hprev] at hpv
    have hypre : y ∈ pre := lastOr_none_mem hprev
    have hyp : y ≠ p := fun h => hppre (h ▸ hypre)
    obtain ⟨ey, hey, hmy⟩ := hc.slots_used y (by simp [hypre])
    have hey1 : (s.table.set p ⟨e.key, Mode.free, none, none⟩)[y]? = some ey := by
      rw [hg1, if_neg hyp]
      exact hey
    have hw2 := upd_some (fun x : element Key => { x with next := none }) hey1
    have hg2 := get_set_if ({ ey with next := none } : element Key) hey1
    have hc2 := countP_set_add (fun e : element Key => decide (e.mode = Mode.used))
      ({ ey with next := none } : element Key) hey1
    obtain ⟨s3, hs3, h3, h4, h5, h6, h7⟩ := erase_tail hpi hp hm hc
      (u := (s.table.set p ⟨e.key, Mode.free, none, none⟩).set y { ey with next := none })
      (by simp)
      (by simp [hm, hmy] at hc1 hc2 ⊢; omega)
      (by rw [hg2, if_neg (Ne.symm hyp), hg1, if_pos rfl])
      (by
        intro y' ey' hy' hey'
        rw [hprev] at hy'
        cases hy'
        rw [hey] at hey'
        cases hey'
        rw [hg2, if_pos rfl])
      (by
        intro j hj1 hj2
        rw [hprev] at hj2
        have : j ≠ y := fun h => hj2 (by rw [h])
        rw [hg2, if_neg this, hg1, if_neg hj1])
    refine ⟨_, ?_, hfin s3 h3 h4 h5 h6 h7⟩
    simp only [erase, hfind, hp, hw1, hpv, hw2, hs3]

/-- Erasing a key that is not stored: `erase` returns 0 and changes nothing. -/
theorem erase_absent {hash : Key → Nat} {s : ADS_set Key} (hinv : Inv hash s) {k : Key}
    (hmem : ¬ Mem s k) : erase hash s k = some (0, s) := by
  simp [erase, hinv.1.find_absent hmem]

theorem rne_bounds (a b : Nat) (hb : 0 < b) :
    2 * a ≤ 2 * (b * rne a b) + b ∧ 2 * (b * rne a b) ≤ 2 * a + b := by
  have h1 := Nat.div_add_mod a b
  have h2 := Nat.mod_lt a hb
  have h3 : b * (a / b + 1) = b * (a / b) + b := by ring
  generalize hq : b * (a / b) = q at h1 h3
  unfold rne
  split
  · rw [hq]
    omega
  · split
    · rw [h3]
      omega
    · split
      · rw [hq]
        omega
      · rw [h3]
        omega

theorem shift24_spec : ∀ (fuel x : Nat), x < 2 ^ (24 + fuel) →
    (x < 2 ^ 24 → shift24 fuel x = 0) ∧
    (0 < shift24 fuel x → 2 ^ (23 + shift24 fuel x) ≤ x)
  | 0, x, hx => by simp [shift24]
  | fuel + 1, x, hx => by
    by_cases hlt : x < 2 ^ 24
    · rw [shift24, if_pos hlt]
      exact ⟨fun _ => rfl, fun h => absurd h (lt_irrefl 0)⟩
    · have hx2 : x / 2 < 2 ^ (24 + fuel) := by
        have : 2 ^ (24 + (fuel + 1)) = 2 * 2 ^ (24 + fuel) := by ring
        omega
      obtain ⟨h1, h2⟩ := shift24_spec fuel (x / 2) hx2
      refine ⟨fun h => absurd h hlt, ?_⟩
      rw [shift24, if_neg hlt]
      intro _
      by_cases h0 : shift24 fuel (x / 2) = 0
      · rw [h0]
        norm_num at hlt ⊢
        omega
      · have := h2 (by omega)
        have hp : 2 ^ (23 + (shift24 fuel (x / 2) + 1)) = 2 * 2 ^ (23 + shift24 fuel (x / 2)) := by
          ring
        omega

theorem lt_two_pow_add (x : Nat) : x < 2 ^ (24 + x) :=
  lt_of_lt_of_le (Nat.lt_two_pow x) (Nat.pow_le_pow_right (by norm_num) (by omega))

theorem round24_of_lt {x : Nat} (hx : x < 2 ^ 24) : round24 x = x := by
  have h := (shift24_spec x x (lt_two_pow_add x)).1 hx
  simp [round24, h, rne, Nat.mod_one]

/-- Rounding to 24 significant bits changes a number by at most one part in
`2^24`. -/
theorem round24_bounds (x : Nat) :
    (2 ^ 24 - 1) * x ≤ 2 ^ 24 * round24 x ∧ 2 ^ 24 * round24 x ≤ (2 ^ 24 + 1) * x := by
  by_cases hx : x < 2 ^ 24
  · rw [round24_of_lt hx]
    constructor
    · exact Nat.mul_le_mul_right _ (by norm_num)
    · exact Nat.mul_le_mul_right _ (by norm_num)
  · have hs := shift24_spec x x (lt_two_pow_add x)
    have hpos : 0 < shift24 x x := by
      by_contra h0
      have h0' : shift24 x x = 0 := by omega
      -- with no shift the value would be below 2^24
      have : x < 2 ^ 24 := by
        cases x with
        | zero => norm_num
        | succ y =>
          simp only [shift24] at h0'
          split at h0'
          · assumption
          · omega
      exact hx this
    have hlow := hs.2 hpos
    have hb := rne_bounds x (2 ^ shift24 x x) (by positivity)
    have hp : 2 ^ (23 + shift24 x x) = 2 ^ 23 * 2 ^ shift24 x x := by ring
    unfold round24
    rw [Nat.mul_comm (rne x (2 ^ shift24 x x))]
    generalize 2 ^ shift24 x x * rne x (2 ^ shift24 x x) = r at hb ⊢
    generalize 2 ^ shift24 x x = d at hb hp
    norm_num at hp hlow ⊢
    omega

theorem not_exceeds_iff (n t : Nat) :
    exceeds n t = false ↔ round24 n * 2 ^ 24 ≤ round24 (round24 t * lfMant) := by
  simp [exceeds]

/-- A size that passes the load test is at most `0.7000002` of the primary size. -/
theorem exceeds_false_bound {n t : Nat} (h : exceeds n t = false) :
    10000000 * n ≤ 7000002 * t := by
  rw [not_exceeds_iff] at h
  have h1 := round24_bounds n
  have h2 := round24_bounds t
  have h3 := round24_bounds (round24 t * lfMant)
  unfold lfMant at h h3
  generalize round24 (round24 t * 11744051) = c at h h3
  generalize round24 t = b at h h2 h3
  generalize round24 n = a at h h1
  norm_num at h h1 h2 h3 ⊢
  omega

theorem exceeds_false_le {n t : Nat} (h : exceeds n t = false) : n ≤ t := by
  have := exceeds_false_bound h
  omega

/-- A size of at most half the primary size passes the load test. -/
theorem not_exceeds_of_le {n t : Nat} (h : 2 * n ≤ t) : exceeds n t = false := by
  rw [not_exceeds_iff]
  have h1 := round24_bounds n
  have h2 := round24_bounds t
  have h3 := round24_bounds (round24 t * lfMant)
  unfold lfMant at h3 ⊢
  generalize round24 (round24 t * 11744051) = c at h3 ⊢
  generalize round24 t = b at h2 h3
  generalize round24 n = a at h1 ⊢
  norm_num at h1 h2 h3 ⊢
  omega

/-- After one doubling step the next size passes the load test. -/
theorem not_exceeds_double {s p : Nat} (hp : 0 < p) (h : exceeds s p = false) :
    exceeds (s + 1) (p * 2 + 1) = false := by
  rw [not_exceeds_iff] at h ⊢
  have h1 := round24_bounds s
  have h2 := round24_bounds p
  have h3 := round24_bounds (round24 p * lfMant)
  have g1 := round24_bounds (s + 1)
  have g2 := round24_bounds (p * 2 + 1)
  have g3 := round24_bounds (round24 (p * 2 + 1) * lfMant)
  unfold lfMant at h h3 g3 ⊢
  generalize round24 (round24 (p * 2 + 1) * 11744051) = c' at g3 ⊢
  generalize round24 (p * 2 + 1) = b' at g2 g3
  generalize round24 (s + 1) = a' at g1 ⊢
  generalize round24 (round24 p * 11744051) = c at h h3
  generalize round24 p = b at h h2 h3
  generalize round24 s = a at h h1
  norm_num at h h1 h2 h3 g1 g2 g3 ⊢
  omega

theorem shift24_le (x : Nat) : 2 ^ 23 ≤ x → 2 ^ (23 + shift24 x x) ≤ x := by
  intro hx
  by_cases h0 : shift24 x x = 0
  · rw [h0]
    exact hx
  · exact (shift24_spec x x (lt_two_pow_add x)).2 (by omega)

/-- Bounds for the rounded, truncated quotient `curr_size / max_lf`, in terms of
the rounded size `r = round24 s`. -/
theorem divLf_bounds (s : Nat) :
    (¬ round24 s * 2 ^ 24 / lfMant < 2 ^ 23 → (2 ^ 24 - 1) * round24 s ≤ lfMant * divLf s) ∧
    lfMant * divLf s * 2 ^ 24 ≤ (2 ^ 24 + 1) * (round24 s * 2 ^ 24) + lfMant * 2 ^ 23
    ∧ (round24 s * 2 ^ 24 / lfMant < 2 ^ 23 → round24 s ≤ divLf s) := by
  unfold divLf
  have hM : lfMant = 11744051 := rfl
  generalize hr : round24 s = r
  split
  · -- the quotient needs no more than 24 bits: it is scaled up before rounding
    rename_i hlt
    generalize hk : 2 ^ up24 24 (r * 2 ^ 24) lfMant = X
    have hX : 0 < X := by rw [← hk]; positivity
    have hb := rne_bounds (r * 2 ^ 24 * X) lfMant (by rw [hM]; norm_num)
    have hd1 := Nat.div_mul_le_self (rne (r * 2 ^ 24 * X) lfMant) X
    have hd2 := Nat.lt_div_mul_add (a := rne (r * 2 ^ 24 * X) lfMant) hX
    generalize rne (r * 2 ^ 24 * X) lfMant = q at hb hd1 hd2
    have hY : r * 2 ^ 24 * X = 2 ^ 24 * (r * X) := by ring
    rw [hY] at hb
    have hqY : r * X ≤ q := by
      rw [hM] at hb
      generalize r * X = Y at hb
      norm_num at hb
      omega
    have hres : r ≤ q / X := (Nat.le_div_iff_mul_le hX).2 hqY
    refine ⟨fun h => absurd hlt h, ?_, fun _ => hres⟩
    · -- (q / X) * X ≤ q and 2 M q ≤ 2 a X + M
      have h1 : 2 * (lfMant * (q / X)) * X ≤ (2 * (r * 2 ^ 24) + lfMant) * X := by
        calc 2 * (lfMant * (q / X)) * X = 2 * (lfMant * (q / X * X)) := by ring
          _ ≤ 2 * (lfMant * q) := by
            exact Nat.mul_le_mul_left _ (Nat.mul_le_mul_left _ hd1)
          _ ≤ 2 * (2 ^ 24 * (r * X)) + lfMant := hb.2
          _ ≤ 2 * (2 ^ 24 * (r * X)) + lfMant * X := by
            have : lfMant ≤ lfMant * X := Nat.le_mul_of_pos_right _ hX
            omega
          _ = (2 * (r * 2 ^ 24) + lfMant) * X := by ring
      have h2 := Nat.le_of_mul_le_mul_right h1 hX
      rw [hM] at h2 ⊢
      generalize q / X = res at h2 ⊢
      norm_num at h2 ⊢
      omega
  · -- the quotient has more than 24 bits: it is rounded at a coarser unit
    rename_i hge
    have hq : 2 ^ 23 ≤ r * 2 ^ 24 / lfMant := by omega
    have hsh := shift24_le _ hq
    generalize hk : 2 ^ shift24 (r * 2 ^ 24 / lfMant) (r * 2 ^ 24 / lfMant) = X at hsh
    have hX : 0 < X := by rw [← hk]; positivity
    have hpow : 2 ^ (23 + shift24 (r * 2 ^ 24 / lfMant) (r * 2 ^ 24 / lfMant)) = 2 ^ 23 * X := by
      rw [← hk]; ring
    rw [hpow] at hsh
    have hD : 2 ^ 23 * X * lfMant ≤ r * 2 ^ 24 :=
      (Nat.le_div_iff_mul_le (by rw [hM]; norm_num)).1 hsh
    have hb := rne_bounds (r * 2 ^ 24) (lfMant * X) (by rw [hM]; positivity)
    have hres : lfMant * X * rne (r * 2 ^ 24) (lfMant * X)
        = lfMant * (rne (r * 2 ^ 24) (lfMant * X) * X) := by ring
    rw [hres] at hb
    generalize rne (r * 2 ^ 24) (lfMant * X) * X = res at hb ⊢
    have hD' : 2 ^ 23 * (lfMant * X) ≤ r * 2 ^ 24 := by
      calc 2 ^ 23 * (lfMant * X) = 2 ^ 23 * X * lfMant := by ring
        _ ≤ r * 2 ^ 24 := hD
    generalize lfMant * X = D at hb hD'
    refine ⟨fun _ => ?_, ?_, fun h => absurd h hge⟩
    · rw [hM] at hb ⊢
      norm_num at hb hD' ⊢
      omega
    · rw [hM] at hb ⊢
      norm_num at hb hD' ⊢
      omega

/-- The truncated quotient `curr_size / max_lf` is at least `curr_size`. -/
theorem le_divLf (s : Nat) : s ≤ divLf s := by
  obtain ⟨h1, -, h3⟩ := divLf_bounds s
  have hr := round24_bounds s
  have hM : lfMant = 11744051 := rfl
  by_cases hlt : round24 s * 2 ^ 24 / lfMant < 2 ^ 23
  · have h4 := h3 hlt
    by_cases hs : s < 2 ^ 24
    · rw [round24_of_lt hs] at h4
      exact h4
    · -- a size of at least 2^24 has a quotient of more than 24 bits
      exfalso
      have h5 : round24 s * 2 ^ 24 < 2 ^ 23 * lfMant :=
        (Nat.div_lt_iff_lt_mul (by rw [hM]; norm_num)).1 hlt
      rw [hM] at h5
      generalize round24 s = r at hr h5
      norm_num at hr h5 hs
      omega
  · have h1 := h1 hlt
    rw [hM] at h1
    generalize round24 s = r at hr h1
    generalize divLf s = d at h1 ⊢
    norm_num at hr h1
    omega

/-- While the load test passes, the truncated quotient stays below the next
size of the growth sequence. -/
theorem divLf_le_double {s p : Nat} (h : exceeds s p = false) : divLf s ≤ p * 2 + 1 := by
  obtain ⟨-, h2, -⟩ := divLf_bounds s
  rw [not_exceeds_iff] at h
  have g2 := round24_bounds p
  have g3 := round24_bounds (round24 p * lfMant)
  unfold lfMant at h h2 g3
  generalize round24 (round24 p * 11744051) = c at h g3
  generalize round24 p = b at g2 g3
  generalize round24 s = r at h h2
  generalize divLf s = d at h2 ⊢
  norm_num at h h2 g2 g3
  omega

theorem newTable_get (F j : Nat) :
    (newTable F : List (element Key))[j]? =
      if j < F then some ⟨default, Mode.free, none, none⟩
      else if j = F then some ⟨default, Mode.end_, none, none⟩ else none := by
  unfold newTable
  by_cases h1 : j < F
  · rw [List.getElem?_append_left (by simpa using h1)]
    simp [List.getElem?_replicate, h1]
  · rw [List.getElem?_append_right (by simpa using h1)]
    by_cases h2 : j = F
    · simp [h1, h2]
    · have : j - F ≠ 0 := by omega
      simp [h1, h2]
      omega

/-- The freshly allocated store is well formed and holds no key. -/
theorem Inv_fresh (hash : Key → Nat) {P F : Nat} (hP : 0 < P) (hPF : P ≤ F) :
    Inv hash ({ table := newTable F, curr_size := 0, table_size := P, table_last := F, full_table := F } : ADS_set Key)
    ∧ ∀ k, ¬ Mem ({ table := newTable F, curr_size := 0, table_size := P, table_last := F, full_table := F } : ADS_set Key) k := by
  have hnu : ∀ (j : Nat) (e : element Key), (newTable F : List (element Key))[j]? = some e →
      e.mode ≠ Mode.used := by
    intro j e hj
    rw [newTable_get] at hj
    split at hj
    · cases hj
      simp
    · split at hj
      · cases hj
        simp
      · cases hj
  refine ⟨⟨⟨?_, hP, hPF, ?_, ?_, ?_, ?_, ?_, List.nodup_nil, trivial, ?_⟩, le_refl _, ?_⟩, ?_⟩
  · simp [newTable]
  · intro j e hj
    simp only [] at hj ⊢
    rw [newTable_get] at hj
    split at hj
    · cases hj
      simp
      omega
    · split at hj
      · cases hj
        simpa
      · cases hj
  · intro j e hj _
    simp only [] at hj
    rw [newTable_get] at hj
    split at hj
    · cases hj
      exact ⟨rfl, rfl⟩
    · split at hj
      · cases hj
        exact ⟨rfl, rfl⟩
      · cases hj
  · simp only []
    symm
    rw [List.countP_eq_zero]
    intro e he
    obtain ⟨j, hj, rfl⟩ := List.mem_iff_getElem.1 he
    have := hnu j _ (List.getElem?_eq_getElem hj)
    simpa using this
  · intro i j ei ej hi _ hmi
    exact absurd hmi (hnu i ei hi)
  · intro i e hi hm
    exact absurd hm (hnu i e hi)
  · intro l1 b l2 e hs
    simp at hs
  · intro j h1 h2
    simp only [] at h1 h2
    omega
  · rintro k ⟨i, e, hi, hm, -⟩
    exact hnu i e hi hm

theorem countP_take_succ (p : element Key → Bool) (l : List (element Key)) (n : Nat)
    (e : element Key) (he : l[n]? = some e) :
    (l.take (n + 1)).countP p = (l.take n).countP p + (if p e then 1 else 0) := by
  rw [List.take_succ, List.countP_append, he]
  simp [List.countP_cons]

theorem countP_take_le (p : element Key → Bool) (l : List (element Key)) (n : Nat) :
    (l.take n).countP p ≤ l.countP p :=
  List.Sublist.countP_le _ (List.take_sublist n l)

theorem countP_take_mono (p : element Key → Bool) (l : List (element Key)) {n m : Nat}
    (h : n ≤ m) : (l.take n).countP p ≤ (l.take m).countP p := by
  have : l.take n = (l.take m).take n := by
    rw [List.take_take, Nat.min_eq_left h]
  rw [this]
  exact countP_take_le p _ n

/-- The re-insertion loop of `rehash`: it succeeds and stores exactly the keys
of the used slots it has passed. -/
theorem rehash_loop_spec (hash : Key → Nat) (old : List (element Key))
    (hkeys : ∀ (i j : Nat) (ei ej : element Key), old[i]? = some ei → old[j]? = some ej →
      ei.mode = Mode.used → ej.mode = Mode.used → ei.key = ej.key → i = j) :
    ∀ (k idx : Nat) (s : ADS_set Key), idx + k ≤ old.length → Inv hash s →
      s.curr_size = (old.take idx).countP (fun e => decide (e.mode = Mode.used)) →
      (old.take (idx + k)).countP (fun e => decide (e.mode = Mode.used)) ≤ s.full_table →
      (∀ key, Mem s key ↔ ∃ (j : Nat) (e : element Key), j < idx ∧ old[j]? = some e ∧
        e.mode = Mode.used ∧ e.key = key) →
      ∃ s', rehash_loop hash old k idx s = some s' ∧ Inv hash s' ∧
        s'.table_size = s.table_size ∧ s'.full_table = s.full_table ∧
        s'.curr_size = (old.take (idx + k)).countP (fun e => decide (e.mode = Mode.used)) ∧
        (∀ key, Mem s' key ↔ ∃ (j : Nat) (e : element Key), j < idx + k ∧ old[j]? = some e ∧
          e.mode = Mode.used ∧ e.key = key) := by
  intro k
  induction k with
  | zero =>
    intro idx s _ hinv hsz _ hmem
    exact ⟨s, by simp [rehash_loop], hinv, rfl, rfl, by simpa using hsz, by simpa using hmem⟩
  | succ k ih =>
    intro idx s hlen hinv hsz hcap hmem
    have hidx : idx < old.length := by omega
    have he := List.getElem?_eq_getElem hidx
    generalize old[idx] = e at he
    have hts := countP_take_succ (fun e => decide (e.mode = Mode.used)) old idx e he
    have hmono := countP_take_mono (fun e => decide (e.mode = Mode.used)) old
      (show idx + 1 ≤ idx + (k + 1) by omega)
    by_cases hm : e.mode = Mode.used
    · have hnew : ¬ Mem s e.key := by
        rw [hmem]
        rintro ⟨j, ej, hj, hej, hmj, hk⟩
        have := hkeys j idx ej e hej he hmj hm hk
        omega
      simp [hm] at hts
      obtain ⟨x, s1, hins, hinv1, hp1, hf1, hc1, hmem1, -⟩ :=
        insert__spec hinv (by omega) hnew
      obtain ⟨s', hs', hinv', hp', hf', hc', hmem'⟩ := ih (idx + 1) s1 (by omega) hinv1
        (by rw [hc1, hsz, hts])
        (by
          rw [hf1]
          have : idx + 1 + k = idx + (k + 1) := by omega
          rw [this]
          exact hcap)
        (by
          intro key
          rw [hmem1, hmem]
          constructor
          · rintro (rfl | ⟨j, ej, hj, hej, hmj, hk⟩)
            · exact ⟨idx, e, by omega, he, hm, rfl⟩
            · exact ⟨j, ej, by omega, hej, hmj, hk⟩
          · rintro ⟨j, ej, hj, hej, hmj, hk⟩
            by_cases hji : j = idx
            · subst hji
              rw [he] at hej
              cases hej
              exact Or.inl hk.symm
            · exact Or.inr ⟨j, ej, by omega, hej, hmj, hk⟩)
      have hadd : idx + 1 + k = idx + (k + 1) := by omega
      rw [hadd] at hc' hmem'
      refine ⟨s', ?_, hinv', by rw [hp', hp1], by rw [hf', hf1], hc', hmem'⟩
      simp [rehash_loop, he, hm, hins, hs']
    · simp [hm] at hts
      obtain ⟨s', hs', hinv', hp', hf', hc', hmem'⟩ := ih (idx + 1) s (by omega) hinv
        (by rw [hsz, hts])
        (by
          have : idx + 1 + k = idx + (k + 1) := by omega
          rw [this]
          exact hcap)
        (by
          intro key
          rw [hmem]
          constructor
          · rintro ⟨j, ej, hj, hej, hmj, hk⟩
            exact ⟨j, ej, by omega, hej, hmj, hk⟩
          · rintro ⟨j, ej, hj, hej, hmj, hk⟩
            by_cases hji : j = idx
            · subst hji
              rw [he] at hej
              cases hej
              exact absurd hmj hm
            · exact ⟨j, ej, by omega, hej, hmj, hk⟩)
      have hadd : idx + 1 + k = idx + (k + 1) := by omega
      rw [hadd] at hc' hmem'
      refine ⟨s', ?_, hinv', hp', hf', hc', hmem'⟩
      simp [rehash_loop, he, hm, hs']

theorem PInv.countP_take {hash : Key → Nat} {s : ADS_set Key} {pend : List Nat}
    (hinv : PInv hash s pend) :
    (s.table.take s.full_table).countP (fun e => decide (e.mode = Mode.used)) = s.curr_size := by
  rw [hinv.size]
  conv_rhs => rw [← List.take_append_drop s.full_table s.table]
  rw [List.countP_append]
  have : (s.table.drop s.full_table).countP (fun e => decide (e.mode = Mode.used)) = 0 := by
    rw [List.countP_eq_zero]
    intro e he
    obtain ⟨j, hj, rfl⟩ := List.mem_iff_getElem.1 he
    rw [List.getElem_drop]
    have hj' : j < s.table.length - s.full_table := by simpa using hj
    have hlen := hinv.len
    have hj0 : j = 0 := by omega
    subst hj0
    have hlt : s.full_table + 0 < s.table.length := by omega
    have := (hinv.sent (s.full_table + 0) _ (List.getElem?_eq_getElem hlt)).2 (by simp)
    simp only [Nat.add_zero] at this
    simp [this]
  omega

/-- The growth step `rehash(n)`: it succeeds for every `n`, keeps the size and
the stored keys, and sets the sizes by its formula. -/
theorem rehash_spec {hash : Key → Nat} {N : Nat} (hN : 1 ≤ N) {s : ADS_set Key}
    (hinv : Inv hash s) (n : Nat) :
    ∃ s', rehash hash N s n = some s' ∧ Inv hash s' ∧ s'.curr_size = s.curr_size ∧
      (∀ k, Mem s' k ↔ Mem s k) ∧
      s'.table_size = max N (max n (divLf s.curr_size)) ∧
      s'.full_table = s'.table_size + cellarOf s'.table_size := by
  have hct := hinv.1.countP_take
  have hle := le_divLf s.curr_size
  obtain ⟨hfresh, hnomem⟩ := Inv_fresh hash
    (P := max N (max n (divLf s.curr_size)))
    (F := max N (max n (divLf s.curr_size)) + cellarOf (max N (max n (divLf s.curr_size))))
    (by omega) (by omega)
  obtain ⟨s', hs', hinv', hp', hf', hc', hmem'⟩ := rehash_loop_spec hash s.table hinv.1.keys
    s.full_table 0 _ (by rw [hinv.1.len]; omega) hfresh (by simp)
    (by
      simp only [Nat.zero_add]
      rw [hct]
      omega)
    (by
      intro key
      constructor
      · intro h
        exact absurd h (hnomem key)
      · rintro ⟨j, e, hj, -⟩
        omega)
  simp only [Nat.zero_add] at hc' hmem'
  refine ⟨s', hs', hinv', by rw [hc', hct], ?_, hp', by rw [hf', hp']⟩
  intro key
  rw [hmem']
  constructor
  · rintro ⟨j, e, -, hj, hm, hk⟩
    exact ⟨j, e, hj, hm, hk⟩
  · rintro ⟨j, e, hj, hm, hk⟩
    exact ⟨j, e, hinv.1.used_lt hj (by rw [hm]; simp), hj, hm, hk⟩

/-- The default constructor yields a well-formed empty container of primary
size `N`. -/
theorem new_spec (hash : Key → Nat) {N : Nat} (hN : 1 ≤ N) :
    ∃ s : ADS_set Key, new hash N = some s ∧ Inv hash s ∧ s.curr_size = 0 ∧
      (∀ k, ¬ Mem s k) ∧ s.table_size = N ∧ s.full_table = N + cellarOf N ∧
      s.table_last = s.full_table := by
  have hd : divLf 0 = 0 := by decide
  have hmax : max N (max N (divLf 0)) = N := by rw [hd]; omega
  obtain ⟨hfresh, hnomem⟩ := @Inv_fresh Key _ _ hash N (N + cellarOf N)
    (by omega) (by omega)
  refine ⟨_, ?_, hfresh, rfl, hnomem, rfl, rfl, rfl⟩
  simp [new, rehash, blank, rehash_loop, hd]

/-- The `do ... while` loop of `reserve` ends within its step budget at a size
that passes the load test. -/
theorem reserve_loop_total (n : Nat) : ∀ (f t : Nat), 2 * n + 1 ≤ 2 ^ (f + 1) * (t + 1) →
    ∃ r, reserve_loop n (f + 1) t = some r ∧ exceeds n r = false ∧ t * 2 + 1 ≤ r
  | 0, t, h => by
    have h1 : exceeds n (t * 2 + 1) = false := not_exceeds_of_le (by omega)
    exact ⟨t * 2 + 1, by simp [reserve_loop, h1], h1, le_refl _⟩
  | f + 1, t, h => by
    by_cases h1 : exceeds n (t * 2 + 1) = false
    · exact ⟨t * 2 + 1, by simp [reserve_loop, h1], h1, le_refl _⟩
    · have h2 : exceeds n (t * 2 + 1) = true := by simpa using h1
      obtain ⟨r, hr, hr1, hr2⟩ := reserve_loop_total n f (t * 2 + 1) (by
        have : 2 ^ (f + 1 + 1) = 2 ^ (f + 1) * 2 := by ring
        rw [this] at h
        have h3 : 2 ^ (f + 1) * 2 * (t + 1) = 2 ^ (f + 1) * (t * 2 + 1 + 1) := by ring
        omega)
      refine ⟨r, ?_, hr1, by omega⟩
      rw [reserve_loop, if_pos h2]
      exact hr

theorem reserve_loop_fuel (n t : Nat) : 2 * n + 1 ≤ 2 ^ (n + 1) * (t + 1) := by
  have h1 : n + 1 ≤ 2 ^ n := Nat.lt_two_pow n
  have h2 : 2 ^ (n + 1) = 2 * 2 ^ n := by ring
  have h3 : 2 ^ (n + 1) ≤ 2 ^ (n + 1) * (t + 1) := Nat.le_mul_of_pos_right _ (by omega)
  omega

/-- Under the load bound the quotient of `rehash` stays below the next size. -/
theorem divLf_le_of_bound {s p : Nat} (h : 10000000 * s ≤ 7000002 * p) : divLf s ≤ p * 2 + 1 := by
  obtain ⟨-, h2, -⟩ := divLf_bounds s
  have g := round24_bounds s
  unfold lfMant at h2
  generalize round24 s = r at g h2
  generalize divLf s = d at h2 ⊢
  norm_num at h2 g
  omega

/-- Under the load bound one doubling step makes room for one more key. -/
theorem not_exceeds_next {s p : Nat} (hp : 0 < p) (h : 10000000 * s ≤ 7000002 * p) :
    exceeds (s + 1) (p * 2 + 1) = false := by
  rw [not_exceeds_iff]
  have g1 := round24_bounds (s + 1)
  have g2 := round24_bounds (p * 2 + 1)
  have g3 := round24_bounds (round24 (p * 2 + 1) * lfMant)
  unfold lfMant at g3 ⊢
  generalize round24 (round24 (p * 2 + 1) * 11744051) = c at g3 ⊢
  generalize round24 (p * 2 + 1) = b at g2 g3
  generalize round24 (s + 1) = a at g1 ⊢
  norm_num at g1 g2 g3 ⊢
  omega

/-- The capacity check `reserve(n)`: it succeeds, keeps size and keys, and leaves
a primary size of at least `n`. -/
theorem reserve_spec {hash : Key → Nat} {N : Nat} (hN : 1 ≤ N) {s : ADS_set Key}
    (hinv : Inv hash s) (n : Nat) :
    ∃ s', reserve hash N s n = some s' ∧ Inv hash s' ∧ s'.curr_size = s.curr_size ∧
      (∀ k, Mem s' k ↔ Mem s k) ∧ n ≤ s'.table_size := by
  by_cases hex : exceeds n s.table_size = false
  · exact ⟨s, by simp [reserve, hex], hinv, rfl, fun _ => Iff.rfl, exceeds_false_le hex⟩
  · have hex' : exceeds n s.table_size = true := by simpa using hex
    obtain ⟨r, hr, hr1, -⟩ := reserve_loop_total n n s.table_size (reserve_loop_fuel n _)
    obtain ⟨s', hs', hinv', hc, hm, hp, -⟩ := rehash_spec hN hinv r
    refine ⟨s', ?_, hinv', hc, hm, ?_⟩
    · simp [reserve, hex', hr, hs']
    · have := exceeds_false_le hr1
      rw [hp]
      omega

/-- The capacity check on a state within the load bound: no change if the load
test passes, one doubling step otherwise. -/
theorem reserve_sizes {hash : Key → Nat} {N : Nat} (hN : 1 ≤ N) {s : ADS_set Key}
    (hinv : Inv hash s) (hNP : N ≤ s.table_size)
    (hload : 10000000 * s.curr_size ≤ 7000002 * s.table_size) {s' : ADS_set Key}
    (hres : reserve hash N s (s.curr_size + 1) = some s') :
    (exceeds (s.curr_size + 1) s.table_size = false → s' = s) ∧
    (exceeds (s.curr_size + 1) s.table_size = true →
      s'.table_size = s.table_size * 2 + 1 ∧
      s'.full_table = s'.table_size + cellarOf s'.table_size) ∧
    exceeds (s.curr_size + 1) s'.table_size = false := by
  by_cases hex : exceeds (s.curr_size + 1) s.table_size = false
  · have : s' = s := by
      simp [reserve, hex] at hres
      exact hres.symm
    subst this
    exact ⟨fun _ => rfl, fun h => (by rw [hex] at h; cases h), hex⟩
  · have hex' : exceeds (s.curr_size + 1) s.table_size = true := by simpa using hex
    have hnext := not_exceeds_next (by omega : 0 < s.table_size) hload
    have hloop : reserve_loop (s.curr_size + 1) (s.curr_size + 1 + 1) s.table_size
        = some (s.table_size * 2 + 1) := by
      simp [reserve_loop, hnext]
    obtain ⟨s1, hs1, -, -, -, hp, hf⟩ := @rehash_spec Key _ _ hash N hN s hinv (s.table_size * 2 + 1)
    have : s' = s1 := by
      simp [reserve, hex', hloop, hs1] at hres
      exact hres.symm
    subst this
    have hd := divLf_le_of_bound hload
    have hpe : s'.table_size = s.table_size * 2 + 1 := by
      rw [hp]
      omega
    refine ⟨fun h => (by rw [hex'] at h; cases h), fun _ => ⟨hpe, hf⟩, ?_⟩
    rw [hpe]
    exact hnext

theorem iterator_used {s : ADS_set Key} {p : Nat} {e : element Key} (hp : s.table[p]? = some e)
    (hm : e.mode = Mode.used) : iterator s p = some p := by
  simp [iterator, skip, hp, hm]

theorem count_eq_one_iff {hash : Key → Nat} {s : ADS_set Key} (hinv : Inv hash s) (k : Key) :
    count hash s k = some 1 ↔ Mem s k := by
  obtain ⟨⟨r, hr⟩, h1, h2⟩ := hinv.1.find_iff k
  by_cases hmem : Mem s k
  · obtain ⟨i, e, hi, hm, hk⟩ := hmem
    have := (h1 i).2 ⟨e, hi, hm, hk⟩
    simp [count, this]
    exact ⟨i, e, hi, hm, hk⟩
  · have := h2.2 hmem
    simp [count, this, hmem]

theorem count_eq_zero_iff {hash : Key → Nat} {s : ADS_set Key} (hinv : Inv hash s) (k : Key) :
    count hash s k = some 0 ↔ ¬ Mem s k := by
  obtain ⟨⟨r, hr⟩, h1, h2⟩ := hinv.1.find_iff k
  by_cases hmem : Mem s k
  · obtain ⟨i, e, hi, hm, hk⟩ := hmem
    have := (h1 i).2 ⟨e, hi, hm, hk⟩
    simp [count, this]
    exact ⟨i, e, hi, hm, hk⟩
  · have := h2.2 hmem
    simp [count, this, hmem]

theorem count_congr {hash : Key → Nat} {s s' : ADS_set Key} (hinv : Inv hash s)
    (hinv' : Inv hash s') {k : Key} (h : Mem s' k ↔ Mem s k) :
    count hash s' k = count hash s k := by
  by_cases hmem : Mem s k
  · rw [(count_eq_one_iff hinv k).2 hmem, (count_eq_one_iff hinv' k).2 (h.2 hmem)]
  · rw [(count_eq_zero_iff hinv k).2 hmem, (count_eq_zero_iff hinv' k).2 (fun h' => hmem (h.1 h'))]

/-- Inserting a stored key changes nothing and reports `inserted = false`. -/
theorem insert_present {hash : Key → Nat} (N : Nat) {s : ADS_set Key} (hinv : Inv hash s)
    {k : Key} (hmem : Mem s k) :
    ∃ it, insert hash N s k = some (it, false, s) ∧ deref s it = some k := by
  obtain ⟨p, e, hp, hm, hk⟩ := hmem
  have hfind : find_ hash s k = some (some p) := by
    rw [← hk]
    exact hinv.1.find_found hp hm
  refine ⟨p, ?_, ?_⟩
  · simp [insert, hfind, iterator_used hp hm]
  · simp [deref, hp, hk]

/-- Inserting a key that is not stored: it is placed, the size grows by one, and
no other key comes or goes. -/
theorem insert_new {hash : Key → Nat} {N : Nat} (hN : 1 ≤ N) {s : ADS_set Key}
    (hinv : Inv hash s) {k : Key} (hnew : ¬ Mem s k) :
    ∃ it s1 s', reserve hash N s (s.curr_size + 1) = some s1 ∧
      insert hash N s k = some (it, true, s') ∧ Inv hash s' ∧
      s'.curr_size = s.curr_size + 1 ∧ (∀ j, Mem s' j ↔ j = k ∨ Mem s j) ∧
      deref s' it = some k ∧ s'.table_size = s1.table_size ∧ s'.full_table = s1.full_table := by
  have hfind := hinv.1.find_absent hnew
  obtain ⟨s1, hs1, hinv1, hc1, hm1, hroom⟩ := reserve_spec hN hinv (s.curr_size + 1)
  have hnew1 : ¬ Mem s1 k := fun h => hnew ((hm1 k).1 h)
  obtain ⟨x, s2, hins, hinv2, hp2, hf2, hc2, hm2, ex, hex, hmx, hkx⟩ :=
    insert__spec hinv1 (by have := hinv1.1.ple; omega) hnew1
  refine ⟨x, s1, s2, hs1, ?_, hinv2, by rw [hc2, hc1], ?_, ?_, hp2, hf2⟩
  · simp [insert, hfind, hs1, hins, iterator_used hex hmx]
  · intro j
    rw [hm2, hm1]
  · simp [deref, hex, hkx]

theorem shift24_div_lt : ∀ (fuel x : Nat), x < 2 ^ (24 + fuel) →
    x / 2 ^ shift24 fuel x < 2 ^ 24
  | 0, x, hx => by simpa [shift24] using hx
  | fuel + 1, x, hx => by
    by_cases hlt : x < 2 ^ 24
    · rw [shift24, if_pos hlt]
      simpa using hlt
    · have hx2 : x / 2 < 2 ^ (24 + fuel) := by
        have : 2 ^ (24 + (fuel + 1)) = 2 * 2 ^ (24 + fuel) := by ring
        omega
      have ih := shift24_div_lt fuel (x / 2) hx2
      rw [shift24, if_neg hlt]
      have : x / 2 ^ (shift24 fuel (x / 2) + 1) = x / 2 / 2 ^ shift24 fuel (x / 2) := by
        rw [Nat.div_div_eq_div_mul, pow_succ, Nat.mul_comm]
      rw [this]
      exact ih

theorem rne_mono {x y d : Nat} (hd : 0 < d) (h : x ≤ y) : rne x d ≤ rne y d := by
  by_contra hlt
  have hlt' : rne y d + 1 ≤ rne x d := by omega
  have h1 := (rne_bounds x d hd).2
  have h2 := (rne_bounds y d hd).1
  have h3 : d * (rne y d + 1) ≤ d * rne x d := Nat.mul_le_mul_left _ hlt'
  have h4 : d * (rne y d + 1) = d * rne y d + d := by ring
  have hxy : x = y := by omega
  subst hxy
  omega

theorem rne_ge_div (a d : Nat) : a / d ≤ rne a d := by
  unfold rne
  split
  · exact le_refl _
  · split
    · omega
    · split <;> omega

theorem rne_le_div (a d : Nat) : rne a d ≤ a / d + 1 := by
  unfold rne
  split
  · omega
  · split
    · omega
    · split <;> omega

/-- Rounding to 24 significant bits is monotone. -/
theorem round24_mono {x y : Nat} (h : x ≤ y) : round24 x ≤ round24 y := by
  have hsx := shift24_spec x x (lt_two_pow_add x)
  have hsy := shift24_spec y y (lt_two_pow_add y)
  have hdx := shift24_div_lt x x (lt_two_pow_add x)
  have hdy := shift24_div_lt y y (lt_two_pow_add y)
  unfold round24
  generalize shift24 x x = sx at hsx hdx ⊢
  generalize shift24 y y = sy at hsy hdy ⊢
  rcases Nat.lt_trichotomy sx sy with hlt | heq | hgt
  · -- x lies in a lower binade than y
    have hylow := hsy.2 (by omega)
    have h1 : rne x (2 ^ sx) * 2 ^ sx ≤ 2 ^ 24 * 2 ^ sx := by
      apply Nat.mul_le_mul_right
      have := rne_le_div x (2 ^ sx)
      omega
    have h2 : 2 ^ 23 * 2 ^ sy ≤ rne y (2 ^ sy) * 2 ^ sy := by
      apply Nat.mul_le_mul_right
      have h3 : 2 ^ 23 ≤ y / 2 ^ sy := by
        rw [Nat.le_div_iff_mul_le (by positivity)]
        calc 2 ^ 23 * 2 ^ sy = 2 ^ (23 + sy) := by ring
          _ ≤ y := hylow
      exact le_trans h3 (rne_ge_div y _)
    have h4 : 2 ^ 24 * 2 ^ sx ≤ 2 ^ 23 * 2 ^ sy := by
      calc 2 ^ 24 * 2 ^ sx = 2 ^ 23 * 2 ^ (sx + 1) := by ring
        _ ≤ 2 ^ 23 * 2 ^ sy :=
          Nat.mul_le_mul_left _ (Nat.pow_le_pow_right (by norm_num) (by omega))
    omega
  · subst heq
    exact Nat.mul_le_mul_right _ (rne_mono (by positivity) h)
  · -- impossible: the larger number would need the smaller shift
    exfalso
    have hxlow := hsx.2 (by omega)
    have hy : y < 2 ^ 24 * 2 ^ sy := (Nat.div_lt_iff_lt_mul (by positivity)).1 hdy
    have h4 : 2 ^ 24 * 2 ^ sy ≤ 2 ^ (23 + sx) := by
      calc 2 ^ 24 * 2 ^ sy = 2 ^ 23 * 2 ^ (sy + 1) := by ring
        _ ≤ 2 ^ 23 * 2 ^ sx :=
          Nat.mul_le_mul_left _ (Nat.pow_le_pow_right (by norm_num) (by omega))
        _ = 2 ^ (23 + sx) := by ring
    omega

/-- The load test is monotone: a smaller size in a larger table passes too. -/
theorem exceeds_mono {n n' t t' : Nat} (hn : n' ≤ n) (ht : t ≤ t') (h : exceeds n t = false) :
    exceeds n' t' = false := by
  rw [not_exceeds_iff] at h ⊢
  have h1 : round24 n' * 2 ^ 24 ≤ round24 n * 2 ^ 24 :=
    Nat.mul_le_mul_right _ (round24_mono hn)
  have h2 : round24 (round24 t * lfMant) ≤ round24 (round24 t' * lfMant) :=
    round24_mono (Nat.mul_le_mul_right _ (round24_mono ht))
  omega

/-- A number just below a grid point of its own rounding unit rounds up to it. -/
theorem round24_ge_of_near {x G : Nat} (hdvd : 2 ^ shift24 x x ∣ G)
    (hnear : 2 * (G - x) < 2 ^ shift24 x x) : G ≤ round24 x := by
  obtain ⟨g, hg⟩ := hdvd
  have hb := (rne_bounds x (2 ^ shift24 x x) (by positivity)).1
  unfold round24
  generalize rne x (2 ^ shift24 x x) = q at hb ⊢
  generalize 2 ^ shift24 x x = d at hg hnear hb
  subst hg
  rw [Nat.mul_comm q d]
  apply Nat.mul_le_mul_left
  by_contra hlt
  have h1 : q + 1 ≤ g := by omega
  have h2 : d * (q + 1) ≤ d * g := Nat.mul_le_mul_left _ h1
  have h3 : d * (q + 1) = d * q + d := by ring
  omega

/-- For primary sizes below `2^20` the single-precision load test is the exact
comparison of `n` against `7/10` of the primary size. -/
theorem exceeds_iff_exact {n t : Nat} (ht : t < 2 ^ 20) :
    exceeds n t = true ↔ 7 * t < 10 * n := by
  have hrt : round24 t = t := round24_of_lt (by
    have : (2 : Nat) ^ 20 < 2 ^ 24 := by norm_num
    omega)
  constructor
  · -- the test fires only above 7/10
    intro h
    by_contra hle
    have hle' : 10 * n ≤ 7 * t := by omega
    have hn : n < 2 ^ 24 := by
      have : (2 : Nat) ^ 20 < 2 ^ 24 := by norm_num
      omega
    have hfalse : exceeds n t = false := by
      rw [not_exceeds_iff, hrt, round24_of_lt hn]
      have hs := shift24_spec (t * lfMant) (t * lfMant) (lt_two_pow_add _)
      have hd := shift24_div_lt (t * lfMant) (t * lfMant) (lt_two_pow_add _)
      have hsh : shift24 (t * lfMant) (t * lfMant) ≤ 24 := by
        by_contra hgt
        have h25 : 25 ≤ shift24 (t * lfMant) (t * lfMant) := by omega
        have h1 := hs.2 (by omega)
        have h2 : (2 : Nat) ^ (23 + 25) ≤ 2 ^ (23 + shift24 (t * lfMant) (t * lfMant)) :=
          Nat.pow_le_pow_right (by norm_num) (by omega)
        have h3 : t * lfMant < 2 ^ 20 * 2 ^ 24 := by
          unfold lfMant
          have : (2 : Nat) ^ 20 * 2 ^ 24 = 17592186044416 := by norm_num
          omega
        have h4 : (2 : Nat) ^ (23 + 25) = 281474976710656 := by norm_num
        have h5 : (2 : Nat) ^ 20 * 2 ^ 24 = 17592186044416 := by norm_num
        omega
      apply round24_ge_of_near
      · exact Dvd.dvd.mul_left (pow_dvd_pow 2 hsh) n
      · have hlt : t * lfMant < 2 ^ 24 * 2 ^ shift24 (t * lfMant) (t * lfMant) :=
          (Nat.div_lt_iff_lt_mul (by positivity)).1 hd
        unfold lfMant at hlt ⊢
        generalize 2 ^ shift24 (t * 11744051) (t * 11744051) = d at hlt ⊢
        norm_num at hlt ⊢
        omega
    rw [hfalse] at h
    cases h
  · -- above 7/10 the test fires
    intro h
    by_contra hne
    have hfalse : exceeds n t = false := by simpa using hne
    rw [not_exceeds_iff, hrt] at hfalse
    have h1 := round24_bounds n
    have h3 := round24_bounds (t * lfMant)
    unfold lfMant at hfalse h3
    generalize round24 (t * 11744051) = c at hfalse h3
    generalize round24 n = a at hfalse h1
    norm_num at hfalse h1 h3 ht
    omega

theorem new_rinv (hash : Key → Nat) {N : Nat} (hN : 1 ≤ N) {s : ADS_set Key}
    (hs : new hash N = some s) :
    RInv hash N s ∧ s.curr_size = 0 ∧ (∀ k, ¬ Mem s k) ∧ s.table_size = N ∧
      s.full_table = N + cellarOf N := by
  obtain ⟨s0, hs0, hinv, hc, hm, hp, hf, -⟩ := @new_spec Key _ _ hash N hN
  rw [hs0] at hs
  cases hs
  refine ⟨⟨hinv, by omega, ?_⟩, hc, hm, hp, hf⟩
  rw [hc]
  exact not_exceeds_of_le (by omega)

/-- One `insert(key)` call on a state that satisfies the invariant. -/
theorem insert_step {hash : Key → Nat} {N : Nat} (hN : 1 ≤ N) {s : ADS_set Key}
    (h : RInv hash N s) (k : Key) :
    ∃ it b s', insert hash N s k = some (it, b, s') ∧ RInv hash N s' ∧
      (∀ j, Mem s' j ↔ j = k ∨ Mem s j) ∧ (b = true ↔ ¬ Mem s k) ∧
      (Mem s k → s' = s) ∧ (¬ Mem s k → s'.curr_size = s.curr_size + 1) ∧
      deref s' it = some k := by
  obtain ⟨hinv, hNP, hload⟩ := h
  by_cases hmem : Mem s k
  · obtain ⟨it, hins, hd⟩ := insert_present N hinv hmem
    refine ⟨it, false, s, hins, ⟨hinv, hNP, hload⟩, ?_, by simp [hmem], fun _ => rfl,
      fun h => absurd hmem h, hd⟩
    intro j
    constructor
    · exact fun h => Or.inr h
    · rintro (rfl | h)
      · exact hmem
      · exact h
  · obtain ⟨it, s1, s', hres, hins, hinv', hc, hm, hd, hp, hf⟩ := insert_new hN hinv hmem
    obtain ⟨h1, h2, h3⟩ := reserve_sizes hN hinv hNP (exceeds_false_bound hload) hres
    refine ⟨it, true, s', hins, ⟨hinv', ?_, ?_⟩, hm, by simp [hmem], fun h => absurd h hmem,
      fun _ => hc, hd⟩
    · rw [hp]
      by_cases hex : exceeds (s.curr_size + 1) s.table_size = false
      · rw [h1 hex]
        exact hNP
      · have := (h2 (by simpa using hex)).1
        omega
    · rw [hc, hp]
      exact h3

/-- The list and range `insert` on a state that satisfies the invariant. -/
theorem insert_range_spec {hash : Key → Nat} {N : Nat} (hN : 1 ≤ N) :
    ∀ (l : List Key) (s : ADS_set Key), RInv hash N s →
      ∃ s', insert_range hash N s l = some s' ∧ RInv hash N s' ∧
        (∀ j, Mem s' j ↔ j ∈ l ∨ Mem s j)
  | [], s, h => ⟨s, rfl, h, fun j => by simp⟩
  | k :: l, s, h => by
    by_cases hmem : Mem s k
    · obtain ⟨s', hs', hinv', hm'⟩ := insert_range_spec hN l s h
      refine ⟨s', ?_, hinv', ?_⟩
      · simp [insert_range, (count_eq_one_iff h.1 k).2 hmem, hs']
      · intro j
        rw [hm']
        constructor
        · rintro (h1 | h1)
          · exact Or.inl (List.mem_cons_of_mem _ h1)
          · exact Or.inr h1
        · rintro (h1 | h1)
          · rcases List.mem_cons.1 h1 with rfl | h2
            · exact Or.inr hmem
            · exact Or.inl h2
          · exact Or.inr h1
    · obtain ⟨it, b, s1, hins, hinv1, hm1, hb, -, -, -⟩ := insert_step hN h k
      have hbt : b = true := hb.2 hmem
      subst hbt
      obtain ⟨it', r1, s1', hres, hins', -, -, -, -, -, -⟩ := insert_new hN h.1 hmem
      rw [hins] at hins'
      cases hins'
      -- the same reserve and insert_ calls as in the single insert
      have hfind := h.1.1.find_absent hmem
      have hcall : ∃ p, insert_ hash r1 k = some (p, s1) := by
        simp only [insert, hfind, hres] at hins
        cases hi : insert_ hash r1 k with
        | none => simp [hi] at hins
        | some r =>
          obtain ⟨p, s2⟩ := r
          simp only [hi] at hins
          cases hit : iterator s2 p with
          | none => simp [hit] at hins
          | some it2 =>
            simp only [hit] at hins
            cases hins
            exact ⟨p, rfl⟩
      obtain ⟨p, hp⟩ := hcall
      obtain ⟨s', hs', hinv', hm'⟩ := insert_range_spec hN l s1 hinv1
      refine ⟨s', ?_, hinv', ?_⟩
      · simp [insert_range, (count_eq_zero_iff h.1 k).2 hmem, hres, hp, hs']
      · intro j
        rw [hm', hm1]
        constructor
        · rintro (h1 | rfl | h1)
          · exact Or.inl (List.mem_cons_of_mem _ h1)
          · exact Or.inl (List.mem_cons_self _ _)
          · exact Or.inr h1
        · rintro (h1 | h1)
          · rcases List.mem_cons.1 h1 with rfl | h2
            · exact Or.inr (Or.inl rfl)
            · exact Or.inl h2
          · exact Or.inr (Or.inr h1)

/-- One `erase(key)` call on a state that satisfies the invariant. -/
theorem erase_step {hash : Key → Nat} {N : Nat} {s : ADS_set Key} (h : RInv hash N s) (k : Key) :
    ∃ r s', erase hash s k = some (r, s') ∧ RInv hash N s' ∧
      (∀ j, Mem s' j ↔ Mem s j ∧ j ≠ k) := by
  obtain ⟨hinv, hNP, hload⟩ := h
  by_cases hmem : Mem s k
  · obtain ⟨s', hs', hinv', hp, -, hc, hm⟩ := erase_present hinv hmem
    refine ⟨1, s', hs', ⟨hinv', by rw [hp]; exact hNP, ?_⟩, hm⟩
    rw [hp]
    exact exceeds_mono (by omega) (le_refl _) hload
  · refine ⟨0, s, erase_absent hinv hmem, ⟨hinv, hNP, hload⟩, ?_⟩
    intro j
    constructor
    · intro hj
      exact ⟨hj, fun h => hmem (h ▸ hj)⟩
    · exact fun hj => hj.1

/-- Every reachable state satisfies the invariant. -/
theorem Reachable.rinv {hash : Key → Nat} {N : Nat} (hN : 1 ≤ N) {s : ADS_set Key}
    (hr : Reachable hash N s) : RInv hash N s := by
  induction hr with
  | ctor hs => exact (new_rinv hash hN hs).1
  | @insert s0 s1 k it b _ hins ih =>
    obtain ⟨it', b', s', hins', hinv', -⟩ := insert_step hN ih k
    rw [hins] at hins'
    cases hins'
    exact hinv'
  | @insert_range s0 s1 l _ hins ih =>
    obtain ⟨s', hins', hinv', -⟩ := insert_range_spec hN l s0 ih
    rw [hins] at hins'
    cases hins'
    exact hinv'
  | @erase s0 s1 k r _ her ih =>
    obtain ⟨r', s', her', hinv', -⟩ := erase_step ih k
    rw [her] at her'
    cases her'
    exact hinv'
  | clear _ hcl _ => exact (new_rinv hash hN hcl).1

theorem step_spec {hash : Key → Nat} {N : Nat} (hN : 1 ≤ N) {s : ADS_set Key}
    (h : RInv hash N s) (op : Op Key) :
    ∃ s', step hash N s op = some s' ∧ RInv hash N s' ∧
      ∀ k, Mem s' k ↔
        (match op with
         | Op.ins j => k = j ∨ Mem s k
         | Op.del j => Mem s k ∧ k ≠ j) := by
  cases op with
  | ins j =>
    obtain ⟨it, b, s', hins, hinv', hm, -⟩ := insert_step hN h j
    exact ⟨s', by simp [step, hins], hinv', hm⟩
  | del j =>
    obtain ⟨r, s', her, hinv', hm⟩ := erase_step h j
    exact ⟨s', by simp [step, her], hinv', hm⟩

theorem runFrom_spec {hash : Key → Nat} {N : Nat} (hN : 1 ≤ N) :
    ∀ (ops : List (Op Key)) (s : ADS_set Key), RInv hash N s →
      ∃ s', runFrom hash N s ops = some s' ∧ RInv hash N s' ∧
        ∀ k, Mem s' k ↔
          (match ops.reverse.find? (mentions k) with
           | some (Op.ins _) => True
           | some (Op.del _) => False
           | none => Mem s k)
  | [], s, h => ⟨s, rfl, h, fun k => by simp⟩
  | op :: ops, s, h => by
    obtain ⟨s1, hs1, hinv1, hm1⟩ := step_spec hN h op
    obtain ⟨s', hs', hinv', hm'⟩ := runFrom_spec hN ops s1 hinv1
    refine ⟨s', by simp [runFrom, hs1, hs'], hinv', ?_⟩
    intro k
    rw [hm' k, List.reverse_cons, List.find?_append]
    cases hf : ops.reverse.find? (mentions k) with
    | some o => cases o <;> simp
    | none =>
      simp only [Option.none_or, List.find?_cons, List.find?_nil]
      rw [hm1 k]
      cases op with
      | ins j =>
        by_cases hjk : j = k
        · simp [mentions, hjk]
        · have : ¬ k = j := fun h => hjk h.symm
          simp [mentions, hjk, this]
      | del j =>
        by_cases hjk : j = k
        · simp [mentions, hjk]
        · have : ¬ k = j := fun h => hjk h.symm
          simp [mentions, hjk, this]

theorem run_spec {hash : Key → Nat} {N : Nat} (hN : 1 ≤ N) (ops : List (Op Key)) :
    ∃ s, run hash N ops = some s ∧ RInv hash N s ∧
      ∀ k, Mem s k ↔ lastIsInsert k ops = true := by
  obtain ⟨s0, hs0, hinv0, -, hm0, -⟩ := @new_spec Key _ _ hash N hN
  obtain ⟨hr0, -, -, -, -⟩ := new_rinv hash hN hs0
  obtain ⟨s, hs, hinv, hm⟩ := runFrom_spec hN ops s0 hr0
  refine ⟨s, by simp [run, hs0, hs], hinv, ?_⟩
  intro k
  rw [hm k]
  unfold lastIsInsert
  cases hf : ops.reverse.find? (mentions k) with
  | some o => cases o <;> simp
  | none => simp [hm0 k]

theorem end_it_eq {hash : Key → Nat} {s : ADS_set Key} (hinv : Inv hash s) :
    end_it s = some s.full_table := by
  have hlt : s.full_table < s.table.length := by rw [hinv.1.len]; omega
  have he := List.getElem?_eq_getElem hlt
  have hm := (hinv.1.sent _ _ he).2 rfl
  simp [end_it, iterator, skip, he, hm]

/-- C2. Erase of a present key: on a reachable state with `count(k) == 1`,
`erase(k)` returns 1, `size()` drops by exactly one, `find(k)` is `end()` and
`count(k)` is 0 afterwards, and `count(j)` is unchanged for every other key `j`. -/
theorem C2_erase_present (hash : Key → Nat) (N : Nat) (hN : 1 ≤ N) (s : ADS_set Key)
    (hr : Reachable hash N s) (k : Key) (hc : count hash s k = some 1) :
    ∃ s', erase hash s k = some (1, s') ∧ size s' + 1 = size s ∧
      find hash s' k = some s'.full_table ∧ end_it s' = some s'.full_table ∧
      count hash s' k = some 0 ∧ ∀ j, j ≠ k → count hash s' j = count hash s j := by
  have hinv := hr.rinv hN
  have hmem := (count_eq_one_iff hinv.1 k).1 hc
  obtain ⟨s', hs', hinv', -, -, hsz, hm⟩ := erase_present hinv.1 hmem
  have hnot : ¬ Mem s' k := fun h => ((hm k).1 h).2 rfl
  refine ⟨s', hs', hsz, ?_, end_it_eq hinv', (count_eq_zero_iff hinv' k).2 hnot, ?_⟩
  · simp [find, hinv'.1.find_absent hnot, end_it_eq hinv']
  · intro j hj
    apply count_congr hinv.1 hinv'
    rw [hm j]
    exact ⟨fun h => h.1, fun h => ⟨h, hj⟩⟩

/-- C3. Erase of an absent key is a no-op: on a reachable state with
`count(k) == 0`, `erase(k)` returns 0 and the whole state is unchanged. -/
theorem C3_erase_absent (hash : Key → Nat) (N : Nat) (hN : 1 ≤ N) (s : ADS_set Key)
    (hr : Reachable hash N s) (k : Key) (hc : count hash s k = some 0) :
    erase hash s k = some (0, s) := by
  have hinv := hr.rinv hN
  exact erase_absent hinv.1 ((count_eq_zero_iff hinv.1 k).1 hc)

/-- C4. Insert of a present key: on a reachable state with `count(k) == 1`,
`insert(k)` returns `inserted == false` and an iterator that dereferences to
`k`, and the whole state (sizes, cursor, every slot) is unchanged. -/
theorem C4_insert_present (hash : Key → Nat) (N : Nat) (hN : 1 ≤ N) (s : ADS_set Key)
    (hr : Reachable hash N s) (k : Key) (hc : count hash s k = some 1) :
    ∃ it, insert hash N s k = some (it, false, s) ∧ deref s it = some k := by
  have hinv := hr.rinv hN
  exact insert_present N hinv.1 ((count_eq_one_iff hinv.1 k).1 hc)

/-- C6. Size invariant: in every reachable state `size()` is the number of
slots with index below `full_table` whose state is `used`. -/
theorem C6_size_invariant (hash : Key → Nat) (N : Nat) (hN : 1 ≤ N) (s : ADS_set Key)
    (hr : Reachable hash N s) : size s = usedSlots s :=
  ((hr.rinv hN).1.1.countP_take).symm

/-- C7. Uniqueness invariant: in every reachable state two used slots that hold
equal keys are the same slot. -/
theorem C7_unique_keys (hash : Key → Nat) (N : Nat) (hN : 1 ≤ N) (s : ADS_set Key)
    (hr : Reachable hash N s) (i j : Nat) (ei ej : element Key)
    (hi : s.table[i]? = some ei) (hj : s.table[j]? = some ej)
    (hmi : ei.mode = Mode.used) (hmj : ej.mode = Mode.used) (hk : ei.key = ej.key) : i = j :=
  (hr.rinv hN).1.1.keys i j ei ej hi hj hmi hmj hk

/-- C8. Rehash preserves the key set: on a reachable state, for every `n`,
`rehash(n)` and `reserve(n)` return, leave `size()` unchanged and leave
`count(k)` unchanged for every key `k`. -/
theorem C8_rehash_preserves (hash : Key → Nat) (N : Nat) (hN : 1 ≤ N) (s : ADS_set Key)
    (hr : Reachable hash N s) (n : Nat) :
    (∃ s', rehash hash N s n = some s' ∧ size s' = size s ∧
      ∀ k, count hash s' k = count hash s k) ∧
    (∃ s', reserve hash N s n = some s' ∧ size s' = size s ∧
      ∀ k, count hash s' k = count hash s k) := by
  have hinv := (hr.rinv hN).1
  constructor
  · obtain ⟨s', hs', hinv', hc, hm, -⟩ := rehash_spec hN hinv n
    exact ⟨s', hs', hc, fun k => count_congr hinv hinv' (hm k)⟩
  · obtain ⟨s', hs', hinv', hc, hm, -⟩ := reserve_spec hN hinv n
    exact ⟨s', hs', hc, fun k => count_congr hinv hinv' (hm k)⟩

theorem runFrom_append (hash : Key → Nat) (N : Nat) :
    ∀ (a b : List (Op Key)) (s : ADS_set Key),
      runFrom hash N s (a ++ b) =
        (match runFrom hash N s a with
         | none => none
         | some s' => runFrom hash N s' b)
  | [], b, s => rfl
  | op :: a, b, s => by
    simp only [List.cons_append, runFrom]
    cases step hash N s op with
    | none => rfl
    | some s1 => exact runFrom_append hash N a b s1

theorem run_append (hash : Key → Nat) (N : Nat) (a b : List (Op Key)) :
    run hash N (a ++ b) =
      (match run hash N a with
       | none => none
       | some s' => runFrom hash N s' b) := by
  unfold run
  cases new hash N with
  | none => rfl
  | some s => exact runFrom_append hash N a b s

theorem step_reachable {hash : Key → Nat} {N : Nat} {s s' : ADS_set Key} {op : Op Key}
    (hr : Reachable hash N s) (hs : step hash N s op = some s') : Reachable hash N s' := by
  cases op with
  | ins k =>
    simp only [step, Option.map_eq_some'] at hs
    obtain ⟨⟨it, b, s1⟩, h1, h2⟩ := hs
    simp only [] at h2
    subst h2
    exact Reachable.insert hr h1
  | del k =>
    simp only [step, Option.map_eq_some'] at hs
    obtain ⟨⟨r, s1⟩, h1, h2⟩ := hs
    simp only [] at h2
    subst h2
    exact Reachable.erase hr h1

theorem runFrom_reachable {hash : Key → Nat} {N : Nat} :
    ∀ (ops : List (Op Key)) (s s' : ADS_set Key), Reachable hash N s →
      runFrom hash N s ops = some s' → Reachable hash N s'
  | [], s, s', hr, hs => by
    simp only [runFrom, Option.some.injEq] at hs
    exact hs ▸ hr
  | op :: ops, s, s', hr, hs => by
    simp only [runFrom] at hs
    cases h1 : step hash N s op with
    | none => simp [h1] at hs
    | some s1 =>
      simp only [h1] at hs
      exact runFrom_reachable ops s1 s' (step_reachable hr h1) hs

/-- The state after a sequence of calls on a fresh container is reachable. -/
theorem run_reachable {hash : Key → Nat} {N : Nat} {ops : List (Op Key)} {s : ADS_set Key}
    (hs : run hash N ops = some s) : Reachable hash N s := by
  unfold run at hs
  cases h0 : new hash N with
  | none => simp [h0] at hs
  | some s0 =>
    simp only [h0] at hs
    exact runFrom_reachable ops s0 s (Reachable.ctor h0) hs

/-- A new key on a state that satisfies the invariant: the sizes that `insert`
leaves, by the outcome of the load test. -/
theorem insert_sizes {hash : Key → Nat} {N : Nat} (hN : 1 ≤ N) {s : ADS_set Key}
    (h : RInv hash N s) {k : Key} (hnew : ¬ Mem s k) :
    ∃ it s', insert hash N s k = some (it, true, s') ∧ RInv hash N s' ∧
      s'.curr_size = s.curr_size + 1 ∧ (∀ j, Mem s' j ↔ j = k ∨ Mem s j) ∧
      (exceeds (s.curr_size + 1) s.table_size = false →
        s'.table_size = s.table_size ∧ s'.full_table = s.full_table) ∧
      (exceeds (s.curr_size + 1) s.table_size = true →
        s'.table_size = s.table_size * 2 + 1 ∧
        exceeds (s.curr_size + 1) (s.table_size * 2 + 1) = false ∧
        s'.full_table = s'.table_size + cellarOf s'.table_size) := by
  obtain ⟨it, s1, s', hres, hins, -, -, -, -, hp, hf⟩ := insert_new hN h.1 hnew
  obtain ⟨it', b, s'', hins', hinv', hm, -, -, hc, -⟩ := insert_step hN h k
  rw [hins] at hins'
  cases hins'
  obtain ⟨h1, h2, h3⟩ := reserve_sizes hN h.1 h.2.1 (exceeds_false_bound h.2.2) hres
  refine ⟨it, s', hins, hinv', hc hnew, hm, ?_, ?_⟩
  · intro hex
    rw [hp, hf, h1 hex]
    exact ⟨rfl, rfl⟩
  · intro hex
    obtain ⟨h4, h5⟩ := h2 hex
    refine ⟨by rw [hp, h4], ?_, by rw [hf, hp, h5]⟩
    rw [← h4]
    exact h3

/-- Filling a fresh container with the keys `0 .. m-1` under the identity hash,
while the load test passes: no growth happens. -/
theorem run_fill {N : Nat} (hN : 1 ≤ N) {B : Nat} (hB : exceeds B N = false) :
    ∀ m, m ≤ B → ∃ s : ADS_set Nat, run id N ((List.range m).map Op.ins) = some s ∧
      RInv id N s ∧ s.curr_size = m ∧ s.table_size = N ∧ ∀ k, Mem s k ↔ k < m
  | 0, _ => by
    obtain ⟨s0, hs0, -, -, -, -, -, -⟩ := @new_spec Nat _ _ id N hN
    obtain ⟨hr0, hc, hm, hp, -⟩ := new_rinv id hN hs0
    refine ⟨s0, by simp [run, hs0, runFrom], hr0, hc, hp, ?_⟩
    intro k
    simp [hm k]
  | m + 1, hm1 => by
    obtain ⟨s, hs, hinv, hc, hp, hm⟩ := run_fill hN hB m (by omega)
    have hnew : ¬ Mem s m := by
      rw [hm]
      omega
    obtain ⟨it, s', hins, hinv', hc', hm', hsame, -⟩ := insert_sizes hN hinv hnew
    have hex : exceeds (s.curr_size + 1) s.table_size = false := by
      rw [hc, hp]
      exact exceeds_mono hm1 (le_refl _) hB
    refine ⟨s', ?_, hinv', by rw [hc', hc], by rw [(hsame hex).1, hp], ?_⟩
    · rw [List.range_succ, List.map_append, run_append, hs]
      simp [runFrom, step, hins]
    · intro k
      rw [hm' k, hm k]
      omega

/-- C9 as stated fails. With `N = 12000007` and the identity hash, after the
calls `insert(0), ..., insert(8400004)` the container holds 8400005 keys in a
primary region of 12000007 slots, and 8400005 exceeds 12000007 * 7/10: the
single-precision product `12000007 * 0.7f` rounds up to 8400005, so the load
test of the last call passed. -/
theorem C9_counterexample :
    ∃ s : ADS_set Nat, run id 12000007 ((List.range 8400005).map Op.ins) = some s ∧
      size s = 8400005 ∧ s.table_size = 12000007 ∧
      ¬ ((size s : ℚ) ≤ (s.table_size : ℚ) * (7 / 10)) := by
  obtain ⟨s, hs, -, hc, hp, -⟩ := run_fill (N := 12000007) (by norm_num) (B := 8400005)
    (by decide) 8400005 (le_refl _)
  refine ⟨s, hs, hc, hp, ?_⟩
  rw [size, hc, hp]
  norm_num

/-- C9, amended. Immediately after every `insert` call (one key, list or range)
on a reachable state, `size()` passes the load test of `reserve`, that is
`size() > primary_size * max_lf` is false in the single-precision arithmetic of
the code; in exact arithmetic `size() ≤ 0.7000002 * primary_size`, and
`size() ≤ 7/10 * primary_size` whenever the primary size is below `2^20`. -/
theorem C9_load_bound (hash : Key → Nat) (N : Nat) (hN : 1 ≤ N) (s s' : ADS_set Key)
    (hr : Reachable hash N s)
    (hcall : (∃ k it b, insert hash N s k = some (it, b, s')) ∨
      (∃ l, insert_range hash N s l = some s')) :
    exceeds (size s') s'.table_size = false ∧
      10000000 * size s' ≤ 7000002 * s'.table_size ∧
      (s'.table_size < 2 ^ 20 → 10 * size s' ≤ 7 * s'.table_size) := by
  have hr' : Reachable hash N s' := by
    rcases hcall with ⟨k, it, b, h⟩ | ⟨l, h⟩
    · exact Reachable.insert hr h
    · exact Reachable.insert_range hr h
  have h := (hr'.rinv hN).2.2
  refine ⟨h, exceeds_false_bound h, fun hlt => ?_⟩
  by_contra hgt
  have hex : exceeds (size s') s'.table_size = true :=
    (exceeds_iff_exact hlt).2 (by omega)
  have h' : exceeds (size s') s'.table_size = false := h
  rw [h'] at hex
  cases hex

/-- C10 as stated fails. With `N = 12000007` and the identity hash, the state
after `insert(0), ..., insert(8400003)` has size 8400004 and primary size
12000007; the key 8400004 is new and 8400004 + 1 exceeds 0.7 * 12000007, yet
`insert(8400004)` leaves the primary size at 12000007. -/
theorem C10_counterexample :
    ∃ (s s' : ADS_set Nat) (it : Nat),
      run id 12000007 ((List.range 8400004).map Op.ins) = some s ∧
      count id s 8400004 = some 0 ∧
      insert id 12000007 s 8400004 = some (it, true, s') ∧
      ¬ (((size s : ℚ) + 1) ≤ (7 / 10) * (s.table_size : ℚ)) ∧
      s'.table_size = s.table_size := by
  obtain ⟨s, hs, hinv, hc, hp, hm⟩ := run_fill (N := 12000007) (by norm_num) (B := 8400005)
    (by decide) 8400004 (by norm_num)
  have hnew : ¬ Mem s 8400004 := by
    rw [hm]
    omega
  obtain ⟨it, s', hins, -, -, -, hsame, -⟩ := insert_sizes (by norm_num) hinv hnew
  have hex : exceeds (s.curr_size + 1) s.table_size = false := by
    rw [hc, hp]
    decide
  refine ⟨s, s', it, hs, (count_eq_zero_iff hinv.1 _).2 hnew, hins, ?_, (hsame hex).1⟩
  rw [size, hc, hp]
  norm_num

/-- C10, amended. When `insert` adds a new key to a reachable state with size `s`
and primary size `p`: if the single-precision load test `s + 1 > p * max_lf` is
false, the primary size and the full size stay; otherwise the primary size
becomes `2p + 1`, the first value of the sequence `x -> 2x + 1` from `p`, the
load test is false for it, and `full_size = p' + floor(p' * cellar)` in single
precision. For `p < 2^19` the load test is the exact comparison with `7/10`:
the primary size stays if `s + 1 ≤ 0.7 * p` and otherwise becomes `2p + 1`,
for which `s + 1 ≤ 0.7 * (2p + 1)`. -/
theorem C10_growth_policy (hash : Key → Nat) (N : Nat) (hN : 1 ≤ N) (s : ADS_set Key)
    (hr : Reachable hash N s) (k : Key) (hc : count hash s k = some 0) :
    ∃ it s', insert hash N s k = some (it, true, s') ∧
      (exceeds (size s + 1) s.table_size = false →
        s'.table_size = s.table_size ∧ s'.full_table = s.full_table) ∧
      (exceeds (size s + 1) s.table_size = true →
        s'.table_size = s.table_size * 2 + 1 ∧
        exceeds (size s + 1) (s.table_size * 2 + 1) = false ∧
        s'.full_table = s'.table_size + cellarOf s'.table_size) ∧
      (s.table_size < 2 ^ 19 →
        (10 * (size s + 1) ≤ 7 * s.table_size → s'.table_size = s.table_size) ∧
        (7 * s.table_size < 10 * (size s + 1) →
          s'.table_size = s.table_size * 2 + 1 ∧
          10 * (size s + 1) ≤ 7 * (s.table_size * 2 + 1))) := by
  have hinv := hr.rinv hN
  have hnew := (count_eq_zero_iff hinv.1 k).1 hc
  obtain ⟨it, s', hins, -, -, -, h1, h2⟩ := insert_sizes hN hinv hnew
  refine ⟨it, s', hins, h1, h2, fun hlt => ?_⟩
  have hp : s.table_size < 2 ^ 20 := by
    have : (2 : Nat) ^ 20 = 2 * 2 ^ 19 := by norm_num
    omega
  have hp2 : s.table_size * 2 + 1 < 2 ^ 20 := by
    have : (2 : Nat) ^ 20 = 2 * 2 ^ 19 := by norm_num
    omega
  constructor
  · intro hle
    have hex : exceeds (size s + 1) s.table_size = false := by
      by_contra hne
      have := (exceeds_iff_exact hp).1 (by simpa using hne)
      omega
    exact (h1 hex).1
  · intro hgt
    have hex := (exceeds_iff_exact hp).2 hgt
    obtain ⟨ha, hb, -⟩ := h2 hex
    refine ⟨ha, ?_⟩
    by_contra hne
    have hex2 : exceeds (size s + 1) (s.table_size * 2 + 1) = true :=
      (exceeds_iff_exact hp2).2 (by omega)
    have hb' : exceeds (size s + 1) (s.table_size * 2 + 1) = false := hb
    rw [hb'] at hex2
    cases hex2

theorem exEmpty_reachable : Reachable id 23 exEmpty :=
  run_reachable (by decide : run id 23 [] = some exEmpty)

theorem exChain_reachable : Reachable id 23 exChain :=
  run_reachable (by decide : run id 23 exOps = some exChain)

theorem exSixteen_reachable : Reachable id 23 exSixteen :=
  run_reachable (by decide : run id 23 ((List.range 16).map Op.ins) = some exSixteen)

/-- Witness of C2: erasing the chain head 5 of `5 -> 25 -> 24`; the keys 28 and
51 chained behind it stay findable. -/
theorem C2_witness :
    1 ≤ 23 ∧ Reachable id 23 exChain ∧ count id exChain 5 = some 1 ∧
      ∃ s', erase id exChain 5 = some (1, s') ∧ size s' + 1 = size exChain ∧
        find id s' 5 = some s'.full_table ∧ end_it s' = some s'.full_table ∧
        count id s' 5 = some 0 ∧ ∀ j, j ≠ 5 → count id s' j = count id exChain j :=
  ⟨by decide, exChain_reachable, by decide,
    C2_erase_present id 23 (by decide) exChain exChain_reachable 5 (by decide)⟩

/-- Witness of C3: `erase(99)` on the empty table. -/
theorem C3_witness :
    1 ≤ 23 ∧ Reachable id 23 exEmpty ∧ count id exEmpty 99 = some 0 ∧
      erase id exEmpty 99 = some (0, exEmpty) :=
  ⟨by decide, exEmpty_reachable, by decide,
    C3_erase_absent id 23 (by decide) exEmpty exEmpty_reachable 99 (by decide)⟩

/-- Witness of C4: inserting 28 a second time. -/
theorem C4_witness :
    1 ≤ 23 ∧ Reachable id 23 exChain ∧ count id exChain 28 = some 1 ∧
      ∃ it, insert id 23 exChain 28 = some (it, false, exChain) ∧ deref exChain it = some 28 :=
  ⟨by decide, exChain_reachable, by decide,
    C4_insert_present id 23 (by decide) exChain exChain_reachable 28 (by decide)⟩

/-- Witness of C6: the size of `exChain`. -/
theorem C6_witness :
    1 ≤ 23 ∧ Reachable id 23 exChain ∧ size exChain = usedSlots exChain :=
  ⟨by decide, exChain_reachable, C6_size_invariant id 23 (by decide) exChain exChain_reachable⟩

/-- Witness of C7: the slot 25 of `exChain`, which holds 28. -/
theorem C7_witness :
    1 ≤ 23 ∧ Reachable id 23 exChain ∧
      exChain.table[25]? = some ⟨28, Mode.used, some 24, some 5⟩ ∧
      (⟨28, Mode.used, some 24, some 5⟩ : element Nat).mode = Mode.used ∧
      (⟨28, Mode.used, some 24, some 5⟩ : element Nat).key
        = (⟨28, Mode.used, some 24, some 5⟩ : element Nat).key ∧ 25 = 25 :=
  ⟨by decide, exChain_reachable, by decide, rfl, rfl,
    C7_unique_keys id 23 (by decide) exChain exChain_reachable 25 25
      ⟨28, Mode.used, some 24, some 5⟩ ⟨28, Mode.used, some 24, some 5⟩
      (by decide) (by decide) rfl rfl rfl⟩

/-- Witness of C8: `rehash(100)` and `reserve(100)` on `exChain`. -/
theorem C8_witness :
    1 ≤ 23 ∧ Reachable id 23 exChain ∧
      (∃ s', rehash id 23 exChain 100 = some s' ∧ size s' = size exChain ∧
        ∀ k, count id s' k = count id exChain k) ∧
      (∃ s', reserve id 23 exChain 100 = some s' ∧ size s' = size exChain ∧
        ∀ k, count id s' k = count id exChain k) :=
  ⟨by decide, exChain_reachable,
    C8_rehash_preserves id 23 (by decide) exChain exChain_reachable 100⟩

/-- Witness of C9: the 17th insertion into a default table, which grows it. -/
theorem C9_witness :
    1 ≤ 23 ∧ Reachable id 23 exSixteen ∧
      ((∃ k it b, insert id 23 exSixteen k = some (it, b, exSeventeen)) ∨
        (∃ l, insert_range id 23 exSixteen l = some exSeventeen)) ∧
      exceeds (size exSeventeen) exSeventeen.table_size = false ∧
      10000000 * size exSeventeen ≤ 7000002 * exSeventeen.table_size ∧
      (exSeventeen.table_size < 2 ^ 20 →
        10 * size exSeventeen ≤ 7 * exSeventeen.table_size) :=
  ⟨by decide, exSixteen_reachable, Or.inl ⟨16, 16, true, by decide⟩,
    C9_load_bound id 23 (by decide) exSixteen exSeventeen exSixteen_reachable
      (Or.inl ⟨16, 16, true, by decide⟩)⟩

/-- Witness of C10: inserting `0 .. 30` into a default table (primary size 23)
keeps the primary size for the first 16 insertions, the 17th grows it to 47
with full size 54, and all 31 keys are findable afterwards. -/
theorem C10_witness :
    1 ≤ 23 ∧ Reachable id 23 exSixteen ∧ count id exSixteen 16 = some 0 ∧
      (∃ it s', insert id 23 exSixteen 16 = some (it, true, s') ∧
        (exceeds (size exSixteen + 1) exSixteen.table_size = false →
          s'.table_size = exSixteen.table_size ∧ s'.full_table = exSixteen.full_table) ∧
        (exceeds (size exSixteen + 1) exSixteen.table_size = true →
          s'.table_size = exSixteen.table_size * 2 + 1 ∧
          exceeds (size exSixteen + 1) (exSixteen.table_size * 2 + 1) = false ∧
          s'.full_table = s'.table_size + cellarOf s'.table_size) ∧
        (exSixteen.table_size < 2 ^ 19 →
          (10 * (size exSixteen + 1) ≤ 7 * exSixteen.table_size →
            s'.table_size = exSixteen.table_size) ∧
          (7 * exSixteen.table_size < 10 * (size exSixteen + 1) →
            s'.table_size = exSixteen.table_size * 2 + 1 ∧
            10 * (size exSixteen + 1) ≤ 7 * (exSixteen.table_size * 2 + 1)))) ∧
      (∀ m ∈ List.range 17, ∃ s, run id 23 ((List.range m).map Op.ins) = some s ∧
        s.table_size = 23 ∧ s.full_table = 26) ∧
      (∃ s, run id 23 ((List.range 17).map Op.ins) = some s ∧
        s.table_size = 47 ∧ s.full_table = 54) ∧
      (∃ s, run id 23 ((List.range 31).map Op.ins) = some s ∧ size s = 31 ∧
        ∀ k ∈ List.range 31, count id s k = some 1) :=
  ⟨by decide, exSixteen_reachable, by decide,
    C10_growth_policy id 23 (by decide) exSixteen exSixteen_reachable 16 (by decide),
    by decide, by decide, by decide⟩

/-- The scaling search of the quotient takes at least three doublings when the
quotient is below `2^21`. -/
theorem up24_ge_three {a b : Nat} (hb : 0 < b) (h : a < 2 ^ 21 * b) (f : Nat) :
    3 ≤ up24 (f + 3) a b := by
  have h1 : ¬ 2 ^ 23 ≤ a / b := by
    have := (Nat.div_lt_iff_lt_mul hb).2 h
    have h2 : (2 : Nat) ^ 21 < 2 ^ 23 := by norm_num
    omega
  have h2 : ¬ 2 ^ 23 ≤ 2 * a / b := by
    have : 2 * a < 2 ^ 22 * b := by
      have : (2 : Nat) ^ 22 * b = 2 * (2 ^ 21 * b) := by ring
      omega
    have := (Nat.div_lt_iff_lt_mul hb).2 this
    have h2 : (2 : Nat) ^ 22 < 2 ^ 23 := by norm_num
    omega
  have h3 : ¬ 2 ^ 23 ≤ 2 * (2 * a) / b := by
    have : 2 * (2 * a) < 2 ^ 23 * b := by
      have : (2 : Nat) ^ 23 * b = 4 * (2 ^ 21 * b) := by ring
      omega
    have := (Nat.div_lt_iff_lt_mul hb).2 this
    omega
  rw [up24, if_neg h1, up24, if_neg h2, up24, if_neg h3]
  omega

/-- For sizes below `2^20` the single-precision quotient `curr_size / max_lf`,
truncated, is the integer part of `size / 0.7`. -/
theorem divLf_eq_floor {s : Nat} (hs : s < 2 ^ 20) : divLf s = 10 * s / 7 := by
  have hs24 : s < 2 ^ 24 := by
    have : (2 : Nat) ^ 20 < 2 ^ 24 := by norm_num
    omega
  have hM : lfMant = 11744051 := rfl
  have hb : 0 < lfMant := by rw [hM]; norm_num
  have hlt : s * 2 ^ 24 < 2 ^ 21 * lfMant := by
    rw [hM]
    norm_num at hs ⊢
    omega
  have hbr : s * 2 ^ 24 / lfMant < 2 ^ 23 := by
    have := (Nat.div_lt_iff_lt_mul hb).2 hlt
    have h2 : (2 : Nat) ^ 21 < 2 ^ 23 := by norm_num
    omega
  have hk := up24_ge_three hb hlt 21
  unfold divLf
  rw [round24_of_lt hs24, if_pos hbr]
  generalize up24 24 (s * 2 ^ 24) lfMant = k at hk
  have hK : 8 ≤ 2 ^ k := by
    have : (2 : Nat) ^ 3 ≤ 2 ^ k := Nat.pow_le_pow_right (by norm_num) hk
    simpa using this
  have hrb := (rne_bounds (s * 2 ^ 24 * 2 ^ k) lfMant hb).2
  have hge := rne_ge_div (s * 2 ^ 24 * 2 ^ k) lfMant
  have hdiv := Nat.div_mul_le_self (10 * s) 7
  have hmod := Nat.lt_div_mul_add (a := 10 * s) (b := 7) (by norm_num)
  generalize 10 * s / 7 = m at hdiv hmod ⊢
  -- the quotient is at least `m * 2^k`
  have hlow : m * 2 ^ k ≤ s * 2 ^ 24 * 2 ^ k / lfMant := by
    rw [Nat.le_div_iff_mul_le hb]
    have : m * lfMant ≤ s * 2 ^ 24 := by
      rw [hM]
      norm_num
      omega
    calc m * 2 ^ k * lfMant = m * lfMant * 2 ^ k := by ring
      _ ≤ s * 2 ^ 24 * 2 ^ k := Nat.mul_le_mul_right _ this
  have hsk : s * 2 ^ k ≤ (2 ^ 20 - 1) * 2 ^ k := Nat.mul_le_mul_right _ (by omega)
  apply Nat.div_eq_of_lt_le
  · omega
  · by_contra hnot
    have h6 : s * 2 ^ 24 * 2 ^ k = 2 ^ 24 * (s * 2 ^ k) := by ring
    rw [h6] at hnot hrb
    have h1 : (m + 1) * 2 ^ k ≤ rne (2 ^ 24 * (s * 2 ^ k)) lfMant := by omega
    have h2 : lfMant * ((m + 1) * 2 ^ k) ≤ lfMant * rne (2 ^ 24 * (s * 2 ^ k)) lfMant :=
      Nat.mul_le_mul_left _ h1
    have h3 : 7 * (lfMant * ((m + 1) * 2 ^ k)) = lfMant * (7 * (m + 1)) * 2 ^ k := by ring
    have h4 : lfMant * (10 * s + 1) * 2 ^ k ≤ lfMant * (7 * (m + 1)) * 2 ^ k :=
      Nat.mul_le_mul_right _ (Nat.mul_le_mul_left _ (by omega))
    have h5 : lfMant * (10 * s + 1) * 2 ^ k = 10 * lfMant * (s * 2 ^ k) + lfMant * 2 ^ k := by ring
    generalize rne (2 ^ 24 * (s * 2 ^ k)) lfMant = q at hrb h2
    rw [hM] at h2 h3 h4 h5 hrb
    generalize s * 2 ^ k = P at hsk h4 h5 hrb
    generalize 2 ^ k = K at hK hsk h2 h3 h4 h5
    generalize 11744051 * ((m + 1) * K) = X at h2 h3
    generalize 11744051 * (7 * (m + 1)) * K = Y at h3 h4
    generalize 11744051 * (10 * s + 1) * K = Z at h4 h5
    norm_num at hsk hrb h5
    omega

theorem entries_spec (t : List (element Key)) : ∀ (d p : Nat), p + d ≤ t.length →
    ∀ (i : Nat) (k : Key), (i, k) ∈ entries t p d ↔
      p ≤ i ∧ i < p + d ∧ ∃ e, t[i]? = some e ∧ e.mode = Mode.used ∧ e.key = k
  | 0, p, _, i, k => by
    simp [entries]
    intro h1 h2
    omega
  | d + 1, p, hlen, i, k => by
    have hp : p < t.length := by omega
    have ih := entries_spec t d (p + 1) (by omega) i k
    rw [entries, List.getElem?_eq_getElem hp]
    simp only []
    by_cases hm : (t[p]).mode = Mode.used
    · rw [if_pos hm, List.mem_cons, ih]
      constructor
      · rintro (h | ⟨h1, h2, h3⟩)
        · cases h
          exact ⟨le_refl _, by omega, _, List.getElem?_eq_getElem hp, hm, rfl⟩
        · exact ⟨by omega, by omega, h3⟩
      · rintro ⟨h1, h2, e, he, hme, hk⟩
        rcases Nat.eq_or_lt_of_le h1 with h | h
        · subst h
          rw [List.getElem?_eq_getElem hp] at he
          cases he
          exact Or.inl (by rw [hk])
        · exact Or.inr ⟨h, by omega, e, he, hme, hk⟩
    · rw [if_neg hm, ih]
      constructor
      · rintro ⟨h1, h2, h3⟩
        exact ⟨by omega, by omega, h3⟩
      · rintro ⟨h1, h2, e, he, hme, hk⟩
        rcases Nat.eq_or_lt_of_le h1 with h | h
        · subst h
          rw [List.getElem?_eq_getElem hp] at he
          cases he
          exact absurd hme hm
        · exact ⟨h, by omega, e, he, hme, hk⟩

theorem entries_length (t : List (element Key)) : ∀ (d p : Nat), p + d ≤ t.length →
    (entries t p d).length
      = ((t.drop p).take d).countP (fun e => decide (e.mode = Mode.used))
  | 0, p, _ => by simp [entries]
  | d + 1, p, hlen => by
    have hp : p < t.length := by omega
    have ih := entries_length t d (p + 1) (by omega)
    have hd : t.drop p = t[p] :: t.drop (p + 1) := List.drop_eq_getElem_cons hp
    rw [entries, List.getElem?_eq_getElem hp, hd, List.take_succ_cons]
    simp only []
    by_cases hm : (t[p]).mode = Mode.used
    · rw [if_pos hm, List.countP_cons_of_pos _ _ (by simpa using hm), List.length_cons, ih]
    · rw [if_neg hm, List.countP_cons_of_neg _ _ (by simpa using hm), ih]

theorem entries_positions (t : List (element Key)) : ∀ (d p : Nat),
    ((entries t p d).map Prod.fst).Pairwise (fun a b => a < b) ∧
      ∀ i ∈ (entries t p d).map Prod.fst, p ≤ i
  | 0, p => by simp [entries]
  | d + 1, p => by
    obtain ⟨ih1, ih2⟩ := entries_positions t d (p + 1)
    rw [entries]
    cases ht : t[p]? with
    | none => simp
    | some e =>
      simp only []
      by_cases hm : e.mode = Mode.used
      · rw [if_pos hm, List.map_cons, List.pairwise_cons]
        refine ⟨⟨fun i hi => ?_, ih1⟩, fun i hi => ?_⟩
        · have := ih2 i hi
          omega
        · rcases List.mem_cons.1 hi with h | h
          · rw [h]
          · have := ih2 i h
            omega
      · rw [if_neg hm]
        exact ⟨ih1, fun i hi => by have := ih2 i hi; omega⟩

/-- The iterator's `skip` from a slot `pos` stops at the first used slot from
`pos` on, or at the sentinel. -/
theorem skip_spec {hash : Key → Nat} {s : ADS_set Key} (hinv : PInv hash s []) :
    ∀ (d pos fuel : Nat), pos + d = s.full_table → d < fuel →
      ∃ q, skip s.table fuel pos = some q ∧ pos ≤ q ∧ q ≤ s.full_table ∧
        (q < s.full_table → ∃ e, s.table[q]? = some e ∧ e.mode = Mode.used) ∧
        entries s.table pos d = entries s.table q (s.full_table - q)
  | 0, pos, fuel, hpd, hf => by
    obtain ⟨f, rfl⟩ : ∃ f, fuel = f + 1 := ⟨fuel - 1, by omega⟩
    have hpos : pos = s.full_table := by omega
    subst hpos
    have hlt : s.full_table < s.table.length := by rw [hinv.len]; omega
    have he := List.getElem?_eq_getElem hlt
    have hm := (hinv.sent _ _ he).2 rfl
    refine ⟨s.full_table, ?_, le_refl _, le_refl _, fun h => by omega, by simp [entries]⟩
    simp [skip, he, hm]
  | d + 1, pos, fuel, hpd, hf => by
    obtain ⟨f, rfl⟩ : ∃ f, fuel = f + 1 := ⟨fuel - 1, by omega⟩
    have hlt : pos < s.table.length := by rw [hinv.len]; omega
    have he := List.getElem?_eq_getElem hlt
    have hne : (s.table[pos]).mode ≠ Mode.end_ := by
      intro h
      have := (hinv.sent _ _ he).1 h
      omega
    by_cases hm : (s.table[pos]).mode = Mode.used
    · refine ⟨pos, ?_, le_refl _, by omega, fun _ => ⟨_, he, hm⟩, ?_⟩
      · simp [skip, he, hm]
      · have : s.full_table - pos = d + 1 := by omega
        rw [this]
    · obtain ⟨q, hq, h1, h2, h3, h4⟩ := skip_spec hinv d (pos + 1) f (by omega) (by omega)
      refine ⟨q, ?_, by omega, h2, h3, ?_⟩
      · rw [skip, he]
        simp only []
        rw [if_pos ⟨hm, hne⟩]
        exact hq
      · rw [entries, he]
        simp only []
        rw [if_neg hm]
        exact h4

/-- The traversal loop from a used slot or the sentinel collects the used
slots from there on. -/
theorem walk_spec {hash : Key → Nat} {s : ADS_set Key} (hinv : Inv hash s) :
    ∀ (d q fuel : Nat), q + d = s.full_table → d < fuel →
      (q < s.full_table → ∃ e, s.table[q]? = some e ∧ e.mode = Mode.used) →
      walk s fuel q = some (entries s.table q d) := by
  intro d
  induction d using Nat.strong_induction_on with
  | _ d ih =>
    intro q fuel hqd hf hq
    obtain ⟨f, rfl⟩ : ∃ f, fuel = f + 1 := ⟨fuel - 1, by omega⟩
    rw [walk, end_it_eq hinv]
    simp only []
    by_cases hqf : q = s.full_table
    · have hd : d = 0 := by omega
      subst hd
      rw [if_pos hqf]
      simp [entries]
    · rw [if_neg hqf]
      obtain ⟨e, he, hm⟩ := hq (by omega)
      obtain ⟨d', rfl⟩ : ∃ d', d = d' + 1 := ⟨d - 1, by omega⟩
      have hne : e.mode ≠ Mode.end_ := by rw [hm]; simp
      obtain ⟨q', hq', h1, h2, h3, h4⟩ := skip_spec hinv.1 d' (q + 1) (s.table.length + 1)
        (by omega) (by rw [hinv.1.len]; omega)
      have hincr : incr s q = some q' := by
        simp only [incr, he]
        rw [if_pos hne]
        exact hq'
      have hderef : deref s q = some e.key := by simp [deref, he]
      have hw := ih (s.full_table - q') (by omega) q' f (by omega) (by omega) h3
      rw [hderef, hincr]
      simp only []
      rw [hw, ← h4, entries, he]
      simp [hm]

/-- The traversal of a well-formed container returns the used slots in index
order. -/
theorem traverse_eq {hash : Key → Nat} {s : ADS_set Key} (hinv : Inv hash s) :
    traverse s = some (entries s.table 0 s.full_table) ∧
      (begin_it s = end_it s ↔ entries s.table 0 s.full_table = []) := by
  obtain ⟨q, hq, h1, h2, h3, h4⟩ := skip_spec hinv.1 s.full_table 0 (s.table.length + 1)
    (by omega) (by rw [hinv.1.len]; omega)
  have hb : begin_it s = some q := hq
  have hw := walk_spec hinv (s.full_table - q) q (s.table.length + 1) (by omega)
    (by rw [hinv.1.len]; omega) h3
  refine ⟨?_, ?_⟩
  · rw [traverse, hb]
    simp only []
    rw [hw, h4]
  · rw [hb, end_it_eq hinv, h4]
    constructor
    · intro h
      cases h
      simp [entries]
    · intro h
      by_contra hne
      have hlt : q < s.full_table := by
        rcases Nat.lt_or_ge q s.full_table with h' | h'
        · exact h'
        · exact absurd (by rw [Nat.le_antisymm h2 h']) hne
      obtain ⟨e, he, hm⟩ := h3 hlt
      obtain ⟨d', hd'⟩ : ∃ d', s.full_table - q = d' + 1 := ⟨s.full_table - q - 1, by omega⟩
      rw [hd', entries, he] at h
      simp [hm] at h

/-- The traversal of a well-formed container: it ends, visits `curr_size`
positions in increasing order, reads the key of a used slot at each, reads no
key twice, and reads exactly the stored keys. -/
theorem traverse_spec {hash : Key → Nat} {s : ADS_set Key} (hinv : Inv hash s) :
    ∃ l, traverse s = some l ∧ l.length = s.curr_size ∧
      (l.map Prod.fst).Pairwise (fun a b => a < b) ∧ (l.map Prod.snd).Nodup ∧
      (∀ (i : Nat) (k : Key), (i, k) ∈ l ↔
        ∃ e, s.table[i]? = some e ∧ e.mode = Mode.used ∧ e.key = k) ∧
      (∀ k, k ∈ l.map Prod.snd ↔ Mem s k) ∧
      (begin_it s = end_it s ↔ l = []) := by
  obtain ⟨ht, hb⟩ := traverse_eq hinv
  have hlen : 0 + s.full_table ≤ s.table.length := by rw [hinv.1.len]; omega
  have hspec := entries_spec s.table s.full_table 0 hlen
  have hmem : ∀ (i : Nat) (k : Key), (i, k) ∈ entries s.table 0 s.full_table ↔
      ∃ e, s.table[i]? = some e ∧ e.mode = Mode.used ∧ e.key = k := by
    intro i k
    rw [hspec]
    constructor
    · rintro ⟨-, -, h⟩
      exact h
    · rintro ⟨e, he, hm, hk⟩
      exact ⟨Nat.zero_le _, by have := hinv.1.used_lt he (by rw [hm]; simp); omega, e, he, hm, hk⟩
  have hpos := (entries_positions s.table s.full_table 0).1
  have hnd : (entries s.table 0 s.full_table).Nodup :=
    List.Nodup.of_map Prod.fst (hpos.imp (fun h => Nat.ne_of_lt h))
  refine ⟨_, ht, ?_, hpos, ?_, hmem, ?_, hb⟩
  · rw [entries_length s.table s.full_table 0 hlen, List.drop_zero]
    exact hinv.1.countP_take
  · apply List.Nodup.map_on _ hnd
    rintro ⟨i, k⟩ hx ⟨j, k'⟩ hy hk
    simp only [] at hk
    subst hk
    obtain ⟨e1, he1, hm1, hk1⟩ := (hmem i k).1 hx
    obtain ⟨e2, he2, hm2, hk2⟩ := (hmem j k).1 hy
    have := hinv.1.keys i j e1 e2 he1 he2 hm1 hm2 (by rw [hk1, hk2])
    rw [this]
  · intro k
    rw [List.mem_map]
    constructor
    · rintro ⟨⟨i, k'⟩, hx, rfl⟩
      obtain ⟨e, he, hm, hk⟩ := (hmem i k').1 hx
      exact ⟨i, e, he, hm, hk⟩
    · rintro ⟨i, e, he, hm, hk⟩
      exact ⟨(i, k), (hmem i k).2 ⟨e, he, hm, hk⟩, rfl⟩

/-- C12. Iteration: on a reachable state the walk from `begin()` with `++` up
to `end()` ends, visits exactly `size()` positions, each once, reads at each
the key of a used slot, yields no key twice, yields exactly the keys with
`count == 1`, and `begin() == end()` exactly when the container is empty. -/
theorem C12_iteration (hash : Key → Nat) (N : Nat) (hN : 1 ≤ N) (s : ADS_set Key)
    (hr : Reachable hash N s) :
    ∃ l, traverse s = some l ∧ l.length = size s ∧ (l.map Prod.fst).Nodup ∧
      (l.map Prod.snd).Nodup ∧ (∀ k, k ∈ l.map Prod.snd ↔ count hash s k = some 1) ∧
      (begin_it s = end_it s ↔ size s = 0) := by
  have hinv := (hr.rinv hN).1
  obtain ⟨l, hl, hlen, hpos, hnd, -, hmem, hbe⟩ := traverse_spec hinv
  refine ⟨l, hl, hlen, hpos.imp (fun h => Nat.ne_of_lt h), hnd, fun k => ?_, ?_⟩
  · rw [hmem k, count_eq_one_iff hinv k]
  · rw [hbe, size, ← hlen]
    exact List.length_eq_zero.symm

/-- Witness of C12: the container holding `5, 28, 51`. -/
theorem C12_witness :
    1 ≤ 23 ∧ Reachable id 23 exChain ∧
      ∃ l, traverse exChain = some l ∧ l.length = size exChain ∧ (l.map Prod.fst).Nodup ∧
        (l.map Prod.snd).Nodup ∧ (∀ k, k ∈ l.map Prod.snd ↔ count id exChain k = some 1) ∧
        (begin_it exChain = end_it exChain ↔ size exChain = 0) :=
  ⟨by decide, exChain_reachable, C12_iteration id 23 (by decide) exChain exChain_reachable⟩

/-- The comparison loop answers whether every key in the used slots from the
current position on is stored in the left-hand container. -/
theorem eq_loop_spec {hash : Key → Nat} {lhs rhs : ADS_set Key} (hl : Inv hash lhs)
    (hinv : Inv hash rhs) :
    ∀ (d q fuel : Nat), q + d = rhs.full_table → d < fuel →
      (q < rhs.full_table → ∃ e, rhs.table[q]? = some e ∧ e.mode = Mode.used) →
      ∃ r, eq_loop hash lhs rhs fuel q = some r ∧
        (r = true ↔ ∀ x ∈ entries rhs.table q d, Mem lhs x.2) := by
  intro d
  induction d using Nat.strong_induction_on with
  | _ d ih =>
    intro q fuel hqd hf hq
    obtain ⟨f, rfl⟩ : ∃ f, fuel = f + 1 := ⟨fuel - 1, by omega⟩
    rw [eq_loop, end_it_eq hinv]
    simp only []
    by_cases hqf : q = rhs.full_table
    · have hd : d = 0 := by omega
      subst hd
      rw [if_pos hqf]
      exact ⟨true, rfl, by simp [entries]⟩
    · rw [if_neg hqf]
      obtain ⟨e, he, hm⟩ := hq (by omega)
      obtain ⟨d', rfl⟩ : ∃ d', d = d' + 1 := ⟨d - 1, by omega⟩
      have hne : e.mode ≠ Mode.end_ := by rw [hm]; simp
      obtain ⟨q', hq', h1, h2, h3, h4⟩ := skip_spec hinv.1 d' (q + 1) (rhs.table.length + 1)
        (by omega) (by rw [hinv.1.len]; omega)
      have hincr : incr rhs q = some q' := by
        simp only [incr, he]
        rw [if_pos hne]
        exact hq'
      have hderef : deref rhs q = some e.key := by simp [deref, he]
      have hent : entries rhs.table q (d' + 1) = (q, e.key) :: entries rhs.table q' (rhs.full_table - q') := by
        rw [← h4, entries, he]
        simp [hm]
      rw [hderef, hent]
      simp only []
      by_cases hmem : Mem lhs e.key
      · rw [(count_eq_one_iff hl e.key).2 hmem]
        simp only []
        rw [if_neg (by decide), hincr]
        simp only []
        obtain ⟨r, hr, hiff⟩ := ih (rhs.full_table - q') (by omega) q' f (by omega) (by omega) h3
        refine ⟨r, hr, ?_⟩
        rw [hiff]
        constructor
        · intro h x hx
          rcases List.mem_cons.1 hx with rfl | hx
          · exact hmem
          · exact h x hx
        · intro h x hx
          exact h x (List.mem_cons_of_mem _ hx)
      · rw [(count_eq_zero_iff hl e.key).2 hmem]
        simp only []
        rw [if_pos trivial]
        refine ⟨false, rfl, ?_⟩
        constructor
        · intro h
          cases h
        · intro h
          exact absurd (h (q, e.key) (List.mem_cons_self _ _)) hmem

/-- The comparison `lhs == rhs` of well-formed containers returns; it is true
exactly when the sizes agree and every key of `rhs` is stored in `lhs`. -/
theorem op_eq_spec {hash : Key → Nat} {lhs rhs : ADS_set Key} (hl : Inv hash lhs)
    (hinv : Inv hash rhs) :
    ∃ r, op_eq hash lhs rhs = some r ∧
      (r = true ↔ lhs.curr_size = rhs.curr_size ∧ ∀ k, Mem rhs k → Mem lhs k) := by
  by_cases hsz : lhs.curr_size = rhs.curr_size
  · obtain ⟨q, hq, h1, h2, h3, h4⟩ := skip_spec hinv.1 rhs.full_table 0 (rhs.table.length + 1)
      (by omega) (by rw [hinv.1.len]; omega)
    have hb : begin_it rhs = some q := hq
    obtain ⟨r, hr, hiff⟩ := eq_loop_spec hl hinv (rhs.full_table - q) q (rhs.table.length + 1)
      (by omega) (by rw [hinv.1.len]; omega) h3
    refine ⟨r, ?_, ?_⟩
    · rw [op_eq, if_neg (by simpa using hsz), hb]
      exact hr
    · obtain ⟨l, hl', -, -, -, -, hmem, -⟩ := traverse_spec hinv
      have hl2 := (traverse_eq hinv).1
      rw [hl2] at hl'
      cases hl'
      rw [hiff, ← h4]
      constructor
      · intro h
        refine ⟨hsz, fun k hk => ?_⟩
        obtain ⟨x, hx, rfl⟩ := List.mem_map.1 ((hmem k).2 hk)
        exact h x hx
      · rintro ⟨-, h⟩ x hx
        exact h x.2 ((hmem x.2).1 (List.mem_map_of_mem _ hx))
  · refine ⟨false, by rw [op_eq, if_pos (by simpa using hsz)], ?_⟩
    constructor
    · intro h
      cases h
    · rintro ⟨h, -⟩
      exact absurd h hsz

/-- Two well-formed containers of equal size, one holding every key of the
other, hold the same keys. -/
theorem mem_iff_of_subset {hash : Key → Nat} {a b : ADS_set Key} (ha : Inv hash a)
    (hb : Inv hash b) (hsz : a.curr_size = b.curr_size) (hsub : ∀ k, Mem b k → Mem a k) :
    ∀ k, Mem a k ↔ Mem b k := by
  obtain ⟨la, -, hlena, -, hnda, -, hmema, -⟩ := traverse_spec ha
  obtain ⟨lb, -, hlenb, -, hndb, -, hmemb, -⟩ := traverse_spec hb
  have hsubset : (lb.map Prod.snd).toFinset ⊆ (la.map Prod.snd).toFinset := by
    intro k hk
    rw [List.mem_toFinset] at hk ⊢
    exact (hmema k).2 (hsub k ((hmemb k).1 hk))
  have hcard : (la.map Prod.snd).toFinset.card ≤ (lb.map Prod.snd).toFinset.card := by
    rw [List.toFinset_card_of_nodup hnda, List.toFinset_card_of_nodup hndb]
    simp only [List.length_map]
    omega
  have heq := Finset.eq_of_subset_of_card_le hsubset hcard
  intro k
  rw [← hmema k, ← hmemb k, ← List.mem_toFinset, ← List.mem_toFinset, heq]

/-- Well-formed containers that hold the same keys have the same size. -/
theorem size_eq_of_mem_iff {hash : Key → Nat} {a b : ADS_set Key} (ha : Inv hash a)
    (hb : Inv hash b) (h : ∀ k, Mem a k ↔ Mem b k) : a.curr_size = b.curr_size := by
  obtain ⟨la, -, hlena, -, hnda, -, hmema, -⟩ := traverse_spec ha
  obtain ⟨lb, -, hlenb, -, hndb, -, hmemb, -⟩ := traverse_spec hb
  have hperm : (la.map Prod.snd).Perm (lb.map Prod.snd) := by
    rw [List.perm_ext_iff_of_nodup hnda hndb]
    intro k
    rw [hmema k, hmemb k]
    exact h k
  have := hperm.length_eq
  simp only [List.length_map] at this
  omega

theorem exSwapped_reachable : Reachable id 23 exSwapped :=
  run_reachable (by decide : run id 23 [Op.ins 51, Op.ins 28, Op.ins 5] = some exSwapped)

/-- Equality of well-formed containers is equality of the stored key sets, and
it is symmetric. -/
theorem op_eq_iff {hash : Key → Nat} {a b : ADS_set Key} (ha : Inv hash a) (hb : Inv hash b) :
    ∃ r, op_eq hash a b = some r ∧ op_eq hash b a = some r ∧
      (r = true ↔ ∀ k, Mem a k ↔ Mem b k) := by
  obtain ⟨r, hr, hiff⟩ := op_eq_spec ha hb
  obtain ⟨r', hr', hiff'⟩ := op_eq_spec hb ha
  have h1 : r = true ↔ ∀ k, Mem a k ↔ Mem b k := by
    rw [hiff]
    constructor
    · rintro ⟨hsz, hsub⟩
      exact mem_iff_of_subset ha hb hsz hsub
    · intro h
      exact ⟨size_eq_of_mem_iff ha hb h, fun k hk => (h k).2 hk⟩
  have h2 : r' = true ↔ ∀ k, Mem a k ↔ Mem b k := by
    rw [hiff']
    constructor
    · rintro ⟨hsz, hsub⟩ k
      exact (mem_iff_of_subset hb ha hsz hsub k).symm
    · intro h
      exact ⟨(size_eq_of_mem_iff ha hb h).symm, fun k hk => (h k).1 hk⟩
  have hrr : r' = r := by
    cases r <;> cases r' <;> simp_all
  rw [hrr] at hr'
  exact ⟨r, hr, hr', h1⟩

/-- C13. Container equality is set equality: for reachable containers `a` and
`b` the comparison `a == b` returns; it is true exactly when the sizes agree
and every key of each is present in the other, which is the same as
`a.count(k) == b.count(k)` for every key `k`; and `b == a` gives the same
answer. -/
theorem C13_equality (hash : Key → Nat) (N : Nat) (hN : 1 ≤ N) (a b : ADS_set Key)
    (ha : Reachable hash N a) (hb : Reachable hash N b) :
    ∃ r, op_eq hash a b = some r ∧ op_eq hash b a = some r ∧
      (r = true ↔ size a = size b ∧
        (∀ k, count hash b k = some 1 → count hash a k = some 1) ∧
        (∀ k, count hash a k = some 1 → count hash b k = some 1)) ∧
      (r = true ↔ ∀ k, count hash a k = count hash b k) := by
  have hia := (ha.rinv hN).1
  have hib := (hb.rinv hN).1
  obtain ⟨r, hr, hr', hiff⟩ := op_eq_iff hia hib
  refine ⟨r, hr, hr', ?_, ?_⟩
  · rw [hiff]
    constructor
    · intro h
      refine ⟨size_eq_of_mem_iff hia hib h, fun k hk => ?_, fun k hk => ?_⟩
      · rw [count_eq_one_iff hia k, h k, ← count_eq_one_iff hib k]
        exact hk
      · rw [count_eq_one_iff hib k, ← h k, ← count_eq_one_iff hia k]
        exact hk
    · rintro ⟨-, h1, h2⟩ k
      rw [← count_eq_one_iff hia k, ← count_eq_one_iff hib k]
      exact ⟨h2 k, h1 k⟩
  · rw [hiff]
    constructor
    · intro h k
      exact count_congr hib hia (h k)
    · intro h k
      rw [← count_eq_one_iff hia k, ← count_eq_one_iff hib k, h k]

/-- Witness of C13: the keys `5, 28, 51` inserted in two different orders. -/
theorem C13_witness :
    1 ≤ 23 ∧ Reachable id 23 exChain ∧ Reachable id 23 exSwapped ∧
      exChain.table ≠ exSwapped.table ∧
      ∃ r, op_eq id exChain exSwapped = some r ∧ op_eq id exSwapped exChain = some r ∧
        (r = true ↔ size exChain = size exSwapped ∧
          (∀ k, count id exSwapped k = some 1 → count id exChain k = some 1) ∧
          (∀ k, count id exChain k = some 1 → count id exSwapped k = some 1)) ∧
        (r = true ↔ ∀ k, count id exChain k = count id exSwapped k) :=
  ⟨by decide, exChain_reachable, exSwapped_reachable, by decide,
    C13_equality id 23 (by decide) exChain exSwapped exChain_reachable exSwapped_reachable⟩

/-- The size after a bulk insert: one more for every distinct key of the list
that was not stored. -/
theorem insert_range_size {hash : Key → Nat} {s s' : ADS_set Key} (hs : Inv hash s)
    (hs' : Inv hash s') (L : List Key) (hm : ∀ j, Mem s' j ↔ j ∈ L ∨ Mem s j) :
    s'.curr_size = s.curr_size
        + (L.dedup.filter (fun k => decide (count hash s k = some 0))).length ∧
      ∀ l0, traverse s = some l0 →
        s'.curr_size = ((l0.map Prod.snd).toFinset ∪ L.toFinset).card := by
  obtain ⟨la, hta, hlena, -, hnda, -, hmema, -⟩ := traverse_spec hs
  obtain ⟨lb, -, hlenb, -, hndb, -, hmemb, -⟩ := traverse_spec hs'
  constructor
  · have hnd : (la.map Prod.snd
        ++ L.dedup.filter (fun k => decide (count hash s k = some 0))).Nodup := by
      apply List.Nodup.append hnda ((List.nodup_dedup L).filter _)
      intro k hk1 hk2
      have h1 := (hmema k).1 hk1
      have h2 := (List.mem_filter.1 hk2).2
      simp only [decide_eq_true_eq] at h2
      exact (count_eq_zero_iff hs k).1 h2 h1
    have hperm : (lb.map Prod.snd).Perm
        (la.map Prod.snd ++ L.dedup.filter (fun k => decide (count hash s k = some 0))) := by
      rw [List.perm_ext_iff_of_nodup hndb hnd]
      intro k
      rw [hmemb k, hm k, List.mem_append, hmema k, List.mem_filter, List.mem_dedup]
      simp only [decide_eq_true_eq]
      rw [count_eq_zero_iff hs k]
      constructor
      · rintro (h | h)
        · by_cases hk : Mem s k
          · exact Or.inl hk
          · exact Or.inr ⟨h, hk⟩
        · exact Or.inl h
      · rintro (h | ⟨h, -⟩)
        · exact Or.inr h
        · exact Or.inl h
    have := hperm.length_eq
    simp only [List.length_map, List.length_append] at this
    omega
  · intro l0 hl0
    rw [hta] at hl0
    cases hl0
    have heq : (lb.map Prod.snd).toFinset = (la.map Prod.snd).toFinset ∪ L.toFinset := by
      ext k
      rw [Finset.mem_union, List.mem_toFinset, List.mem_toFinset, List.mem_toFinset, hmemb k,
        hm k, hmema k]
      exact Or.comm
    rw [← heq, List.toFinset_card_of_nodup hndb, List.length_map, hlenb]

/-- Every used slot lies on a complete chain, which determines its links. -/
theorem PInv.slot_chain {hash : Key → Nat} {s : ADS_set Key} (hinv : PInv hash s [])
    {i : Nat} {e : element Key} (hi : s.table[i]? = some e) (hm : e.mode = Mode.used) :
    ∃ pre suf, GoodChain hash s.table_size s.table (pre ++ i :: suf) ∧
      e.prev = lastOr none pre ∧ e.next = suf.head? := by
  rcases hinv.chains i e hi hm with h | ⟨c, hic, hc, -⟩
  · simp at h
  obtain ⟨pre, suf, rfl⟩ := List.append_of_mem hic
  obtain ⟨e1, he1, -, hp, hn⟩ := Linked.split hc.linked
  rw [hi] at he1
  cases he1
  exact ⟨pre, suf, hc, hp, hn⟩

/-- The structural invariant gives well-formed links. -/
theorem PInv.links {hash : Key → Nat} {s : ADS_set Key} (hinv : PInv hash s []) :
    LinksOK s := by
  intro i e hi
  refine ⟨hinv.freeL i e hi, fun hm => ?_⟩
  obtain ⟨pre, suf, hc, hp, hn⟩ := hinv.slot_chain hi hm
  refine ⟨?_, ?_, ?_⟩
  · intro t ht
    rw [ht] at hn
    cases suf with
    | nil => simp at hn
    | cons t' suf' =>
      simp at hn
      subst hn
      have hl : Linked s.table none ((pre ++ [i]) ++ t :: suf') := by
        simpa using hc.linked
      obtain ⟨et, het, hmt, hpt, -⟩ := Linked.split hl
      simp only [lastOr_append, lastOr_cons, lastOr_nil] at hpt
      exact ⟨hinv.used_lt het (by rw [hmt]; simp), et, het, hmt, hpt⟩
  · intro q hq
    rw [hq] at hp
    have hqpre := lastOr_none_mem hp.symm
    cases pre with
    | nil => simp at hqpre
    | cons a pre' =>
      obtain ⟨m, hm'⟩ := eq_concat_of_lastOr (a := a) (l := pre') (by simpa using hp.symm)
      have hl : Linked s.table none (m ++ q :: (i :: suf)) := by
        have := hc.linked
        rw [hm'] at this
        simpa using this
      obtain ⟨eq, heq, hmq, -, hnq⟩ := Linked.split hl
      simp at hnq
      exact ⟨hinv.used_lt heq (by rw [hmq]; simp), eq, heq, hmq, hnq⟩
  · refine ⟨i :: suf, rfl, ?_, NextLinked.of_append (l := pre) hc.linked.next⟩
    exact (List.nodup_append.1 hc.nodup).2.1

/-- C15. Chain links are well formed in every reachable state and after every
`rehash` of one: a free slot carries no link; for a used slot `s`, `s.next = t`
gives a used slot `t` below `full_table` with `t.prev = s`, and `s.prev = q`
gives a used slot `q` below `full_table` with `q.next = s`; and following
`next` from a used slot meets used slots only, none twice, and ends at a slot
without `next`. -/
theorem C15_links (hash : Key → Nat) (N : Nat) (hN : 1 ≤ N) (s : ADS_set Key)
    (hr : Reachable hash N s) :
    LinksOK s ∧ ∀ n, ∃ s', rehash hash N s n = some s' ∧ LinksOK s' := by
  have hinv := (hr.rinv hN).1
  refine ⟨hinv.1.links, fun n => ?_⟩
  obtain ⟨s', hs', hinv', -⟩ := rehash_spec hN hinv n
  exact ⟨s', hs', hinv'.1.links⟩

/-- Witness of C15: the chain `5 -> 25 -> 24` of the container holding
`5, 28, 51`. -/
theorem C15_witness :
    1 ≤ 23 ∧ Reachable id 23 exChain ∧
      exChain.table[25]? = some ⟨28, Mode.used, some 24, some 5⟩ ∧
      (LinksOK exChain ∧ ∀ n, ∃ s', rehash id 23 exChain n = some s' ∧ LinksOK s') :=
  ⟨by decide, exChain_reachable, by decide,
    C15_links id 23 (by decide) exChain exChain_reachable⟩

/-- The recorded loop computes the state of `erase_loop`. -/
theorem erase_log_state (hash : Key → Nat) :
    ∀ (fuel : Nat) (s : ADS_set Key) (nx : Option Nat),
      (erase_log hash fuel s nx).map Prod.snd = erase_loop hash fuel s nx
  | 0, _, none => rfl
  | 0, _, some _ => rfl
  | _ + 1, _, none => rfl
  | fuel + 1, s, some nextone => by
    have ih := erase_log_state hash fuel
    simp only [erase_log, erase_loop]
    cases s.table[nextone]? with
    | none => rfl
    | some e =>
      simp only []
      cases h hash s e.key with
      | none => rfl
      | some index =>
        simp only []
        cases upd s.table nextone (fun x => { x with next := none }) with
        | none => rfl
        | some t1 =>
          simp only []
          cases t1[index]? with
          | none => rfl
          | some e2 =>
            simp only []
            by_cases hfree : e2.mode = Mode.free
            · simp only [hfree, if_true]
              cases insert_ hash { s with table := t1, curr_size := dec64 s.curr_size } e.key with
              | none => rfl
              | some r =>
                obtain ⟨x, s2⟩ := r
                simp only []
                cases upd s2.table nextone
                    (fun x => { x with mode := Mode.free, next := none, prev := none }) with
                | none => rfl
                | some t3 =>
                  simp only []
                  rw [← ih]
                  cases erase_log hash fuel { s2 with table := t3 } e.next <;> rfl
            · simp only [hfree, if_false]
              cases tail_loop t1 t1.length index with
              | none => rfl
              | some tl =>
                simp only []
                cases upd t1 tl (fun x => { x with next := some nextone }) with
                | none => rfl
                | some t2 =>
                  simp only []
                  cases upd t2 nextone (fun x => { x with prev := some tl }) with
                  | none => rfl
                  | some t3 =>
                    simp only []
                    rw [← ih]
                    cases erase_log hash fuel { s with table := t3 } e.next <;> rfl

/-- The recorded `erase` computes the result of `erase`. -/
theorem erase_rec_erase (hash : Key → Nat) (s : ADS_set Key) (key : Key) :
    (erase_rec hash s key).map (fun r => r.2) = erase hash s key := by
  simp only [erase_rec, erase]
  cases find_ hash s key with
  | none => rfl
  | some r =>
    cases r with
    | none => rfl
    | some p =>
      simp only []
      cases s.table[p]? with
      | none => rfl
      | some e =>
        simp only []
        cases upd s.table p
            (fun x => { x with mode := Mode.free, next := none, prev := none }) with
        | none => rfl
        | some t1 =>
          simp only []
          have key_step : ∀ r : Option (List (element Key)),
              Option.map (fun r : List Pass × Nat × ADS_set Key => r.2)
                (match r with
                | none => none
                | some t2 =>
                  match erase_log hash t2.length
                      { s with table := t2, curr_size := dec64 s.curr_size } e.next with
                  | none => none
                  | some (log, s3) => some (log, 1, { s3 with table_last := s3.full_table }))
              = (match r with
                | none => none
                | some t2 =>
                  match erase_loop hash t2.length
                      { s with table := t2, curr_size := dec64 s.curr_size } e.next with
                  | none => none
                  | some s3 => some (1, { s3 with table_last := s3.full_table })) := by
            intro r
            cases r with
            | none => rfl
            | some t2 =>
              simp only []
              rw [← erase_log_state]
              cases erase_log hash t2.length
                { s with table := t2, curr_size := dec64 s.curr_size } e.next <;> rfl
          cases e.prev with
          | none => exact key_step (some t1)
          | some previous =>
            exact key_step (upd t1 previous (fun x => { x with next := none }))

/-- The recorded tail walk along a forward-linked list is that list. -/
theorem tail_path_eq (t : List (element Key)) :
    ∀ (l : List Nat) (a fuel : Nat), NextLinked t (a :: l) → l.length < fuel →
      tail_path t fuel a = a :: l := by
  intro l
  induction l with
  | nil =>
    intro a fuel hl hf
    obtain ⟨e, h1, _, h3, _⟩ := hl
    obtain ⟨f, rfl⟩ : ∃ f, fuel = f + 1 := ⟨fuel - 1, by omega⟩
    simp at h3
    simp [tail_path, h1, h3]
  | cons b rest ih =>
    intro a fuel hl hf
    obtain ⟨e, h1, _, h3, h4⟩ := hl
    obtain ⟨f, rfl⟩ : ∃ f, fuel = f + 1 := ⟨fuel - 1, by omega⟩
    simp at hf h3
    have := ih b f h4 (by omega)
    simp [tail_path, h1, h3, this]

/-- The recorded tail walk ends at the slot that `tail_loop` returns. -/
theorem tail_path_getLast (t : List (element Key)) :
    ∀ (fuel idx tl : Nat), tail_loop t fuel idx = some tl →
      (tail_path t fuel idx).getLast? = some tl
  | 0, _, _, h => by simp [tail_loop] at h
  | fuel + 1, idx, tl, h => by
    rw [tail_loop] at h
    rw [tail_path]
    cases ht : t[idx]? with
    | none => simp [ht] at h
    | some e =>
      simp only [ht] at h ⊢
      cases hn : e.next with
      | none =>
        simp only [hn] at h ⊢
        simpa using h
      | some n =>
        simp only [hn] at h ⊢
        have ih := tail_path_getLast t fuel n tl h
        cases hp : tail_path t fuel n with
        | nil => simp [hp] at ih
        | cons a rest =>
          rw [hp] at ih
          rw [List.getLast?_cons_cons]
          exact ih

/-- One pass of the re-settle loop on a state with pending slots `a :: pend`:
the pass handles `a`, leaves `pend` pending, and its home slot and tail walk
lie outside the pending slots. -/
theorem erase_pass_spec {hash : Key → Nat} {s : ADS_set Key} {a : Nat} {pend : List Nat}
    (hinv : PInv hash s (a :: pend)) :
    ∃ (ps : Pass) (s1 : ADS_set Key),
      (∀ f, erase_log hash (f + 1) s (some a)
        = (erase_log hash f s1 pend.head?).map (fun r => (ps :: r.1, r.2))) ∧
      PInv hash s1 pend ∧ ps.node = a ∧
      (∃ e, s.table[a]? = some e ∧ ps.home = hash e.key % s.table_size) ∧
      ps.home ∉ a :: pend ∧
      (∀ path, ps.walk = some path → path.head? = some ps.home ∧ path.Nodup ∧
        NextLinked s.table path ∧ ∀ x ∈ path, x ∉ a :: pend) ∧
      (∀ b ∈ pend, s1.table[b]? = s.table[b]?) ∧ s1.table_size = s.table_size := by
  obtain ⟨e, he, hm, hn, hrest⟩ := hinv.pnext
  have hnotin := hinv.phome [] a pend e rfl he
  have hia : hash e.key % s.table_size ≠ a := fun h => hnotin (by simp [h])
  have hapend : a ∉ pend := (List.nodup_cons.1 hinv.pnd).1
  have h0 : s.table_size ≠ 0 := by have := hinv.psz; omega
  obtain ⟨e2, he2, hne2⟩ := hinv.home_get e.key
  have hw1 := upd_some (fun x : element Key => { x with next := none }) he
  have hg1 := get_set_if ({ e with next := none } : element Key) he
  have he2' : (s.table.set a { e with next := none })[hash e.key % s.table_size]? = some e2 := by
    rw [hg1, if_neg hia]
    exact he2
  have hea1 : (s.table.set a { e with next := none })[a]? = some { e with next := none } := by
    rw [hg1, if_pos rfl]
  by_cases hfree : e2.mode = Mode.free
  · -- case A: the home slot is free, the key moves there
    obtain ⟨hfh, hpos⟩ := hinv.free_head he
    have hgf := get_set_if (⟨e.key, Mode.free, none, none⟩ : element Key) he
    have he2f : (s.table.set a ⟨e.key, Mode.free, none, none⟩)[hash e.key % s.table_size]?
        = some e2 := by
      rw [hgf, if_neg hia]
      exact he2
    have hpf := hfh.place_free (k := e.key) he2f hfree (by
      intro i ei hi hmi hk
      simp only [] at hi
      rw [hgf] at hi
      split at hi
      · cases hi
        cases hmi
      · rename_i hne
        exact hne (hinv.keys i a ei e hi he hmi hm hk))
    have hgx := get_set_if (⟨e.key, Mode.used, none, none⟩ : element Key) he2f
    have hins := insert__free
      (s := ⟨s.table.set a { e with next := none }, dec64 s.curr_size, s.table_size,
        s.table_last, s.full_table⟩) (k := e.key) hinv.psz he2' hfree
    have heax : ((s.table.set a { e with next := none }).set (hash e.key % s.table_size)
        ⟨e.key, Mode.used, none, none⟩)[a]? = some { e with next := none } := by
      rw [get_set_if _ he2', if_neg (Ne.symm hia)]
      exact hea1
    have hw3 := upd_some
      (fun x : element Key => { x with mode := Mode.free, next := none, prev := none }) heax
    refine ⟨⟨a, hash e.key % s.table_size, none⟩, _, ?_, hpf, rfl, ⟨e, he, rfl⟩, hnotin,
      (fun path hp => by cases hp), ?_, rfl⟩
    · intro f
      simp only [erase_log, he, h, h0, if_false, hw1, he2', hfree, if_true, hins, hw3, hn]
      congr 2
      simp only [set_set_swap s.table (Ne.symm hia), dec64_pos hpos]
    · intro b hb
      have hba : b ≠ a := fun hh => hapend (hh ▸ hb)
      obtain ⟨eb, heb, hmb⟩ := NextLinked.all_used hrest b hb
      have hbh : b ≠ hash e.key % s.table_size := by
        intro hh
        rw [hh, he2] at heb
        cases heb
        rw [hfree] at hmb
        cases hmb
      simp only []
      rw [hgx, if_neg hbh, hgf, if_neg hba]
  · -- case B: the home slot is occupied, the slot is linked behind its chain
    have hu2 : e2.mode = Mode.used := by
      cases hm2 : e2.mode
      · exact absurd hm2 hfree
      · rfl
      · exact absurd hm2 hne2
    rcases hinv.chains _ e2 he2 hu2 with hh | ⟨c, hhc, hc, hdis⟩
    · exact absurd hh hnotin
    have hac : a ∉ c := fun hh => hdis a hh (by simp)
    obtain ⟨m1, m2, rfl⟩ := List.append_of_mem hhc
    have hnl : NextLinked s.table (hash e.key % s.table_size :: m2) :=
      NextLinked.of_append (l := m1) hc.linked.next
    have hnl1 : NextLinked (s.table.set a { e with next := none })
        (hash e.key % s.table_size :: m2) := by
      apply NextLinked.agree _ hnl
      intro i hi
      rw [hg1, if_neg]
      intro hh
      exact hac (by rw [← hh]; exact List.mem_append_right _ hi)
    have hclen := hinv.chain_length hc
    simp at hclen
    obtain ⟨tl, htlast⟩ : ∃ tl, lastOr (some (hash e.key % s.table_size)) m2 = some tl := by
      cases hl : lastOr (some (hash e.key % s.table_size)) m2 with
      | none => exact absurd hl (lastOr_some_ne_none _ _)
      | some y => exact ⟨y, rfl⟩
    have hlc : lastOr none (m1 ++ hash e.key % s.table_size :: m2) = some tl := by
      simpa using htlast
    have hfuel : m2.length < (s.table.set a { e with next := none }).length := by
      simp
      rw [hinv.len]
      omega
    have htail : tail_loop (s.table.set a { e with next := none })
        (s.table.set a { e with next := none }).length (hash e.key % s.table_size) = some tl := by
      rw [tail_loop_last _ m2 _ _ hnl1 hfuel]
      exact htlast
    have hpath := tail_path_eq _ m2 _ _ hnl1 hfuel
    have htlc := lastOr_none_mem hlc
    obtain ⟨etl, hetl, hmtl⟩ := hc.slots_used tl htlc
    have hatl : a ≠ tl := fun hh => hac (hh ▸ htlc)
    have hetl1 : (s.table.set a { e with next := none })[tl]? = some etl := by
      rw [hg1, if_neg (Ne.symm hatl)]
      exact hetl
    have hw2 := upd_some (fun x : element Key => { x with next := some a }) hetl1
    have hg2 := get_set_if ({ etl with next := some a } : element Key) hetl1
    have hea2 : ((s.table.set a { e with next := none }).set tl { etl with next := some a })[a]?
        = some { e with next := none } := by
      rw [hg2, if_neg hatl]
      exact hea1
    have hw3 := upd_some (fun x : element Key => { x with prev := some tl }) hea2
    have hg3 := get_set_if ({ e with next := none, prev := some tl } : element Key) hea2
    have hc1 := countP_set_add (fun e : element Key => decide (e.mode = Mode.used))
      ({ e with next := none } : element Key) he
    have hc2 := countP_set_add (fun e : element Key => decide (e.mode = Mode.used))
      ({ etl with next := some a } : element Key) hetl1
    have hc3 := countP_set_add (fun e : element Key => decide (e.mode = Mode.used))
      ({ e with next := none, prev := some tl } : element Key) hea2
    have hcnt : (((s.table.set a { e with next := none }).set tl
        { etl with next := some a }).set a { e with next := none, prev := some tl }).countP
          (fun e : element Key => decide (e.mode = Mode.used))
        = s.table.countP (fun e : element Key => decide (e.mode = Mode.used)) := by
      simp [hm, hmtl] at hc1 hc2 hc3 ⊢
      omega
    have hpinv := PInv.snoc_pend hinv he hc (by simp) hdis hlc hetl
      (u := ((s.table.set a { e with next := none }).set tl
        { etl with next := some a }).set a { e with next := none, prev := some tl })
      (by simp) hcnt (by rw [hg3, if_pos rfl])
      (by rw [hg3, if_neg (Ne.symm hatl), hg2, if_pos rfl])
      (by
        intro j hj1 hj2
        rw [hg3, if_neg hj2, hg2, if_neg hj1, hg1, if_neg hj2])
    refine ⟨⟨a, hash e.key % s.table_size, some (hash e.key % s.table_size :: m2)⟩, _, ?_, hpinv,
      rfl, ⟨e, he, rfl⟩, hnotin, ?_, ?_, rfl⟩
    · intro f
      simp only [erase_log, he, h, h0, if_false, hw1, he2', hfree, htail, hw2, hw3, hn, hpath]
    · intro path hp
      simp only [Option.some.injEq] at hp
      subst hp
      refine ⟨rfl, (List.nodup_append.1 hc.nodup).2.1, hnl, fun x hx => ?_⟩
      exact hdis x (List.mem_append_right _ hx)
    · intro b hb
      have hba : b ≠ a := fun hh => hapend (hh ▸ hb)
      have hbt : b ≠ tl := fun hh => hdis tl htlc (by rw [← hh]; exact List.mem_cons_of_mem _ hb)
      simp only []
      rw [hg3, if_neg hba, hg2, if_neg hbt, hg1, if_neg hba]

/-- The recorded re-settle loop on a state with pending slots `pend`: it ends,
its passes handle the slots of `pend` in order, and the home slot and the tail
walk of every pass avoid the slot of the pass and the slots still pending. -/
theorem erase_log_spec (hash : Key → Nat) :
    ∀ (pend : List Nat) (fuel : Nat) (s : ADS_set Key), PInv hash s pend → pend.length ≤ fuel →
      ∃ log s', erase_log hash fuel s pend.head? = some (log, s') ∧
        log.map Pass.node = pend ∧
        ∀ l1 ps l2, log = l1 ++ ps :: l2 →
          (∃ e, s.table[ps.node]? = some e ∧ ps.home = hash e.key % s.table_size) ∧
          ps.home ∉ ps.node :: l2.map Pass.node ∧
          ∀ path, ps.walk = some path → path.head? = some ps.home ∧ path.Nodup ∧
            ∀ x ∈ path, x ∉ ps.node :: l2.map Pass.node := by
  intro pend
  induction pend with
  | nil =>
    intro fuel s _ _
    refine ⟨[], s, by simp [erase_log], rfl, ?_⟩
    intro l1 ps l2 h
    simp at h
  | cons a pend ih =>
    intro fuel s hinv hf
    obtain ⟨f, rfl⟩ : ∃ f, fuel = f + 1 := ⟨fuel - 1, by simp at hf; omega⟩
    simp at hf
    obtain ⟨ps, s1, hstep, hinv1, hnode, hhome, hnot, hwalk, hsame, hsz⟩ := erase_pass_spec hinv
    obtain ⟨log, s', hlog, hmap, hall⟩ := ih f s1 hinv1 hf
    refine ⟨ps :: log, s', ?_, ?_, ?_⟩
    · simp only [List.head?_cons]
      rw [hstep f, hlog]
      rfl
    · rw [List.map_cons, hnode, hmap]
    · intro l1 ps' l2 hsplit
      cases l1 with
      | nil =>
        simp only [List.nil_append, List.cons.injEq] at hsplit
        obtain ⟨h1, h2⟩ := hsplit
        subst h1
        subst h2
        rw [hmap, hnode]
        refine ⟨hhome, hnot, fun path hp => ?_⟩
        obtain ⟨g1, g2, -, g4⟩ := hwalk path hp
        exact ⟨g1, g2, g4⟩
      | cons q l1' =>
        simp only [List.cons_append, List.cons.injEq] at hsplit
        obtain ⟨-, h2⟩ := hsplit
        obtain ⟨⟨e, he, hh⟩, g2, g3⟩ := hall l1' ps' l2 h2
        refine ⟨⟨e, ?_, by rw [hh, hsz]⟩, g2, g3⟩
        have hmem : ps'.node ∈ pend := by
          rw [← hmap, h2]
          simp
        rw [← hsame _ hmem]
        exact he

/-- The second phase of the recorded `erase`, from the table in which the
key's slot is released and its predecessor is cut off. -/
theorem erase_rec_tail {hash : Key → Nat} {s : ADS_set Key} (hinv : PInv hash s [])
    {p : Nat} {e : element Key} (hp : s.table[p]? = some e) (hm : e.mode = Mode.used)
    {pre suf : List Nat} (hc : GoodChain hash s.table_size s.table (pre ++ p :: suf))
    {u : List (element Key)} (hlen : u.length = s.table.length)
    (hcnt : u.countP (fun e => decide (e.mode = Mode.used)) + 1
      = s.table.countP (fun e => decide (e.mode = Mode.used)))
    (hp' : u[p]? = some ⟨e.key, Mode.free, none, none⟩)
    (hprev : ∀ (y : Nat) (ey : element Key), lastOr none pre = some y → s.table[y]? = some ey →
      u[y]? = some { ey with next := none })
    (hsame : ∀ j, j ≠ p → lastOr none pre ≠ some j → u[j]? = s.table[j]?) :
    ∃ log s3, erase_log hash u.length { s with table := u, curr_size := dec64 s.curr_size } e.next
        = some (log, s3) ∧ GoodLog hash s suf log := by
  have hpinv := hinv.erase_init hp hm hc hlen hcnt hp' hprev hsame
  have hpos : 0 < s.curr_size := by
    rw [hinv.size, ← hcnt]
    omega
  obtain ⟨e1, he1, -, -, hn1⟩ := Linked.split hc.linked
  rw [hp] at he1
  cases he1
  obtain ⟨-, -, -, hpsuf, hdisj⟩ := nodup_split hc.nodup
  have hclen := hinv.chain_length hc
  simp at hclen
  obtain ⟨log, s3, hs3, hmap, hall⟩ := erase_log_spec hash suf u.length _ hpinv (by
    rw [hlen, hinv.len]
    omega)
  refine ⟨log, s3, ?_, hmap, ?_⟩
  · rw [dec64_pos hpos, hn1]
    exact hs3
  · intro l1 ps l2 hsplit
    obtain ⟨⟨e', he', hh⟩, g2, g3⟩ := hall l1 ps l2 hsplit
    refine ⟨⟨e', ?_, hh⟩, g2, g3⟩
    have hmem : ps.node ∈ suf := by
      rw [← hmap, hsplit]
      simp
    simp only [] at he'
    rw [hsame ps.node (fun hh => hpsuf (hh ▸ hmem))
      (fun hh => hdisj _ (lastOr_none_mem hh) hmem)] at he'
    exact he'

/-- The recorded `erase` of a key that is not stored has no pass. -/
theorem erase_rec_absent {hash : Key → Nat} {s : ADS_set Key} (hinv : Inv hash s) {k : Key}
    (hmem : ¬ Mem s k) : erase_rec hash s k = some ([], 0, s) := by
  simp [erase_rec, hinv.1.find_absent hmem]

/-- The recorded `erase` of the key in the used slot `p`: it returns, and its
record is good for the slots behind `p` in the chain of `p`. -/
theorem erase_rec_present {hash : Key → Nat} {s : ADS_set Key} (hinv : Inv hash s)
    {p : Nat} {e : element Key} (hp : s.table[p]? = some e) (hm : e.mode = Mode.used) :
    ∃ log s' suf, erase_rec hash s e.key = some (log, 1, s') ∧
      tail_path s.table s.table.length p = p :: suf ∧ (p :: suf).Nodup ∧
      GoodLog hash s suf log := by
  obtain ⟨hpi, -⟩ := hinv
  have hfind := hpi.find_found hp hm
  rcases hpi.chains p e hp hm with h | ⟨c, hpc, hc, -⟩
  · simp at h
  obtain ⟨pre, suf, rfl⟩ := List.append_of_mem hpc
  obtain ⟨hnpre, hnsuf, hppre, hpsuf, hdisj⟩ := nodup_split hc.nodup
  obtain ⟨e1, he1, -, hpv, -⟩ := Linked.split hc.linked
  rw [hp] at he1
  cases he1
  have hclen := hpi.chain_length hc
  simp at hclen
  have hpath : tail_path s.table s.table.length p = p :: suf :=
    tail_path_eq _ suf _ _ (NextLinked.of_append (l := pre) hc.linked.next) (by
      rw [hpi.len]
      omega)
  have hnd : (p :: suf).Nodup := (List.nodup_append.1 hc.nodup).2.1
  have hw1 := upd_some
    (fun x : element Key => { x with mode := Mode.free, next := none, prev := none }) hp
  have hg1 := get_set_if (⟨e.key, Mode.free, none, none⟩ : element Key) hp
  have hc1 := countP_set_add (fun e : element Key => decide (e.mode = Mode.used))
    (⟨e.key, Mode.free, none, none⟩ : element Key) hp
  cases hprev : lastOr none pre with
  | none =>
    rw [hprev] at hpv
    obtain ⟨log, s3, hs3, hgood⟩ := erase_rec_tail hpi hp hm hc
      (u := s.table.set p ⟨e.key, Mode.free, none, none⟩) (by simp)
      (by simp [hm] at hc1 ⊢; omega) (by rw [hg1, if_pos rfl])
      (by intro y ey hy; rw [hprev] at hy; cases hy)
      (by intro j hj _; rw [hg1, if_neg hj])
    refine ⟨log, { s3 with table_last := s3.full_table }, suf, ?_, hpath, hnd, hgood⟩
    simp only [erase_rec, hfind, hp, hw1, hpv, hs3]
  | some y =>
    rw [hprev] at hpv
    have hypre : y ∈ pre := lastOr_none_mem hprev
    have hyp : y ≠ p := fun h => hppre (h ▸ hypre)
    obtain ⟨ey, hey, hmy⟩ := hc.slots_used y (by simp [hypre])
    have hey1 : (s.table.set p ⟨e.key, Mode.free, none, none⟩)[y]? = some ey := by
      rw [hg1, if_neg hyp]
      exact hey
    have hw2 := upd_some (fun x : element Key => { x with next := none }) hey1
    have hg2 := get_set_if ({ ey with next := none } : element Key) hey1
    have hc2 := countP_set_add (fun e : element Key => decide (e.mode = Mode.used))
      ({ ey with next := none } : element Key) hey1
    obtain ⟨log, s3, hs3, hgood⟩ := erase_rec_tail hpi hp hm hc
      (u := (s.table.set p ⟨e.key, Mode.free, none, none⟩).set y { ey with next := none })
      (by simp)
      (by simp [hm, hmy] at hc1 hc2 ⊢; omega)
      (by rw [hg2, if_neg (Ne.symm hyp), hg1, if_pos rfl])
      (by
        intro y' ey' hy' hey'
        rw [hprev] at hy'
        cases hy'
        rw [hey] at hey'
        cases hey'
        rw [hg2, if_pos rfl])
      (by
        intro j hj1 hj2
        rw [hprev] at hj2
        have : j ≠ y := fun h => hj2 (by rw [h])
        rw [hg2, if_neg this, hg1, if_neg hj1])
    refine ⟨log, { s3 with table_last := s3.full_table }, suf, ?_, hpath, hnd, hgood⟩
    simp only [erase_rec, hfind, hp, hw1, hpv, hw2, hs3]

/-- A used slot has no predecessor exactly when it is the home slot of its key. -/
theorem PInv.head_iff_home {hash : Key → Nat} {s : ADS_set Key} (hinv : PInv hash s [])
    {i : Nat} {e : element Key} (hi : s.table[i]? = some e) (hm : e.mode = Mode.used) :
    e.prev = none ↔ i = hash e.key % s.table_size := by
  obtain ⟨pre, suf, hc, hp, -⟩ := hinv.slot_chain hi hm
  obtain ⟨h1, h2⟩ := hc.home pre i suf e rfl hi
  obtain ⟨-, -, hipre, -, -⟩ := nodup_split hc.nodup
  rw [hp]
  constructor
  · intro hnone
    cases pre with
    | nil => exact (h1 rfl).symm
    | cons a pre' => exact absurd hnone (by simpa using lastOr_some_ne_none a pre')
  · intro hhome
    cases pre with
    | nil => rfl
    | cons a pre' =>
      have := h2 (by simp)
      rw [← hhome] at this
      exact absurd this hipre

/-- The recorded `erase` on a well-formed container: it returns for every key,
with a good record for the slots behind the removed one. -/
theorem erase_rec_spec {hash : Key → Nat} {s : ADS_set Key} (hinv : Inv hash s) (k : Key) :
    ∃ log r s' suf, erase_rec hash s k = some (log, r, s') ∧
      erase hash s k = some (r, s') ∧ GoodLog hash s suf log ∧ suf.Nodup ∧
      (∀ p, find_ hash s k = some (some p) →
        tail_path s.table s.table.length p = p :: suf ∧ p ∉ suf) ∧
      (find_ hash s k = some none → suf = []) := by
  by_cases hmem : Mem s k
  · obtain ⟨p, e, hp, hm, rfl⟩ := hmem
    obtain ⟨log, s', suf, hrec, hpath, hnd, hgood⟩ := erase_rec_present hinv hp hm
    have hfind := hinv.1.find_found hp hm
    refine ⟨log, 1, s', suf, hrec, ?_, hgood, (List.nodup_cons.1 hnd).2, ?_, ?_⟩
    · rw [← erase_rec_erase, hrec]
      rfl
    · intro p' hp'
      rw [hfind] at hp'
      cases hp'
      exact ⟨hpath, (List.nodup_cons.1 hnd).1⟩
    · intro hnone
      rw [hfind] at hnone
      cases hnone
  · have hrec := erase_rec_absent hinv hmem
    have hfind := hinv.1.find_absent hmem
    refine ⟨[], 0, s, [], hrec, ?_, ⟨rfl, ?_⟩, List.nodup_nil, ?_, fun _ => rfl⟩
    · rw [← erase_rec_erase, hrec]
      rfl
    · intro l1 ps l2 h
      simp at h
    · intro p hp
      rw [hfind] at hp
      cases hp

/-- C16. Chain heads sit at home, overflow nodes do not: in every reachable
state a used slot `i` holding key `k` has no `prev` exactly when
`i = hash(k) mod primary_size`; every used slot in the cellar has a `prev`;
and in every `erase` call no pass of the re-settle loop, in particular no pass
that re-splices its node (case B), handles a node that lies at the home index
of its key. -/
theorem C16_heads_at_home (hash : Key → Nat) (N : Nat) (hN : 1 ≤ N) (s : ADS_set Key)
    (hr : Reachable hash N s) :
    (∀ (i : Nat) (e : element Key), s.table[i]? = some e → e.mode = Mode.used →
      (e.prev = none ↔ i = hash e.key % s.table_size)) ∧
    (∀ (i : Nat) (e : element Key), s.table[i]? = some e → e.mode = Mode.used →
      s.table_size ≤ i → e.prev ≠ none) ∧
    (∀ k, ∃ log r s', erase_rec hash s k = some (log, r, s') ∧
      erase hash s k = some (r, s') ∧
      ∀ ps ∈ log, (∃ e, s.table[ps.node]? = some e ∧ ps.home = hash e.key % s.table_size) ∧
        ps.node ≠ ps.home) := by
  have hinv := (hr.rinv hN).1
  refine ⟨fun i e hi hm => hinv.1.head_iff_home hi hm, fun i e hi hm hge hnone => ?_,
    fun k => ?_⟩
  · have h1 := (hinv.1.head_iff_home hi hm).1 hnone
    have h2 : hash e.key % s.table_size < s.table_size := Nat.mod_lt _ hinv.1.psz
    omega
  · obtain ⟨log, r, s', suf, hrec, her, hgood, -, -, -⟩ := erase_rec_spec hinv k
    refine ⟨log, r, s', hrec, her, fun ps hps => ?_⟩
    obtain ⟨l1, l2, hsplit⟩ := List.append_of_mem hps
    obtain ⟨g1, g2, -⟩ := hgood.2 l1 ps l2 hsplit
    exact ⟨g1, fun hh => g2 (by rw [← hh]; simp)⟩

theorem exFive_reachable : Reachable id 23 exFive :=
  run_reachable (by decide : run id 23 [Op.ins 5] = some exFive)

theorem getLast?_cons_eq_lastOr : ∀ (l : List Nat) (a : Nat),
    (a :: l).getLast? = lastOr (some a) l
  | [], a => by simp
  | b :: l, a => by
    rw [List.getLast?_cons_cons, getLast?_cons_eq_lastOr l b]
    simp

/-- The collision branch of `insert_` on a well-formed store with a free slot:
the key goes to the free slot of greatest index and is linked behind the last
slot of the chain through its home slot. -/
theorem insert__collision {hash : Key → Nat} {s : ADS_set Key} (hinv : Inv hash s)
    (hsz : s.curr_size < s.full_table) (k : Key) {e0 : element Key}
    (he0 : s.table[hash k % s.table_size]? = some e0) (hu0 : e0.mode = Mode.used) :
    ∃ (x tl : Nat) (ex etl : element Key) (m2 : List Nat),
      insert_ hash s k = some (x, { s with
        table := ((s.table.set x { ex with key := k, mode := Mode.used }).set tl
          { etl with next := some x }).set x
          { ex with key := k, mode := Mode.used, next := none, prev := some tl },
        table_last := x, curr_size := s.curr_size + 1 }) ∧
      x < s.table_last ∧ x < s.full_table ∧ s.table[x]? = some ex ∧ ex.mode = Mode.free ∧
      (∀ j, x < j → j < s.full_table → ∃ e, s.table[j]? = some e ∧ e.mode = Mode.used) ∧
      tail_path s.table s.table.length (hash k % s.table_size) = hash k % s.table_size :: m2 ∧
      lastOr (some (hash k % s.table_size)) m2 = some tl ∧
      s.table[tl]? = some etl ∧ etl.mode = Mode.used ∧ etl.next = none ∧ x ≠ tl := by
  obtain ⟨hpi, htl⟩ := hinv
  have hm0 : e0.mode ≠ Mode.free := by rw [hu0]; simp
  rcases hpi.chains _ e0 he0 hu0 with h | ⟨c, hhc, hc, -⟩
  · simp at h
  obtain ⟨m1, m2, rfl⟩ := List.append_of_mem hhc
  obtain ⟨e1, he1, -, -, hn1⟩ := Linked.split hc.linked
  rw [he0] at he1
  cases he1
  have hnl : NextLinked s.table (hash k % s.table_size :: m2) :=
    NextLinked.of_append (l := m1) hc.linked.next
  have hclen := hpi.chain_length hc
  simp at hclen
  obtain ⟨tl, htlast⟩ : ∃ tl, lastOr (some (hash k % s.table_size)) m2 = some tl := by
    cases hl : lastOr (some (hash k % s.table_size)) m2 with
    | none => exact absurd hl (lastOr_some_ne_none _ _)
    | some y => exact ⟨y, rfl⟩
  have hlc : lastOr none (m1 ++ hash k % s.table_size :: m2) = some tl := by simpa using htlast
  have htail : (e0.next = none ∧ hash k % s.table_size = tl) ∨
      (∃ n, e0.next = some n ∧ tail_loop s.table s.table.length n = some tl) := by
    cases m2 with
    | nil =>
      simp at hn1 htlast
      exact Or.inl ⟨hn1, htlast⟩
    | cons n l' =>
      simp at hn1
      obtain ⟨_, _, _, _, hnl'⟩ := hnl
      refine Or.inr ⟨n, hn1, ?_⟩
      rw [tail_loop_last s.table l' n s.table.length hnl' (by
        rw [hpi.len]
        simp at hclen
        omega)]
      simpa using htlast
  have hpath := tail_path_eq s.table m2 _ s.table.length hnl (by rw [hpi.len]; omega)
  obtain ⟨etl, hetl, hmtl⟩ := hc.slots_used tl (lastOr_none_mem hlc)
  have hnexttl : etl.next = none := by
    obtain ⟨m, hm⟩ := eq_concat_of_lastOr htlast
    have hl : Linked s.table none ((m1 ++ m) ++ tl :: []) := by
      have := hc.linked
      rw [hm] at this
      simpa using this
    obtain ⟨e', he', -, -, hn'⟩ := Linked.split hl
    rw [hetl] at he'
    cases he'
    simpa using hn'
  obtain ⟨x, hxl, ⟨ex, hex, hmx⟩, hbetween, hprobe⟩ :=
    probe_loop_spec htl hpi.len he0 hm0 (hpi.exists_free hsz)
  have hxtl : x ≠ tl := by
    intro h
    rw [h, hetl] at hex
    cases hex
    rw [hmtl] at hmx
    cases hmx
  have hxF : x < s.full_table := hpi.used_lt hex (by rw [hmx]; simp)
  have hw1 : upd s.table x (fun y => { y with key := k, mode := Mode.used })
      = some (s.table.set x { ex with key := k, mode := Mode.used }) := upd_some _ hex
  have hg1 := get_set_if ({ ex with key := k, mode := Mode.used } : element Key) hex
  have hetl1 : (s.table.set x { ex with key := k, mode := Mode.used })[tl]? = some etl := by
    rw [hg1, if_neg (Ne.symm hxtl)]
    exact hetl
  have hw2 := upd_some (fun y : element Key => { y with next := some x }) hetl1
  have hg2 := get_set_if ({ etl with next := some x } : element Key) hetl1
  have hex2 : ((s.table.set x { ex with key := k, mode := Mode.used }).set tl
      { etl with next := some x })[x]? = some { ex with key := k, mode := Mode.used } := by
    rw [hg2, if_neg hxtl, hg1, if_pos rfl]
  have hw3 := upd_some (fun y : element Key => { y with next := none, prev := some tl }) hex2
  refine ⟨x, tl, ex, etl, m2, ?_, hxl, hxF, hex, hmx, ?_, hpath, htlast, hetl, hmtl, hnexttl,
    hxtl⟩
  · have h0 : s.table_size ≠ 0 := by have := hpi.psz; omega
    rcases htail with ⟨hn, htq⟩ | ⟨n, hn, ht⟩
    · simp only [insert_, h, h0, if_false, he0, hu0, hn, hprobe]
      simp only [htq, hw1, hw2, hw3]
      simp
    · simp only [insert_, h, h0, if_false, he0, hu0, hn, ht, hprobe, hw1, hw2, hw3]
      simp
  · intro j h1 h2
    obtain ⟨e, he, hm⟩ := hbetween j h1 h2
    refine ⟨e, he, ?_⟩
    cases hm' : e.mode
    · exact absurd hm' hm
    · rfl
    · have := (hpi.sent j e he).1 hm'
      omega

/-- Overflow placement on a well-formed store with a free slot. -/
theorem overflow_placed {hash : Key → Nat} {s : ADS_set Key} (hinv : Inv hash s)
    (hsz : s.curr_size < s.full_table) (k : Key) {e0 : element Key}
    (hhome : s.table[hash k % s.table_size]? = some e0) (hcol : e0.mode = Mode.used) :
    OverflowPlaced hash s k := by
  obtain ⟨x, tl, ex, etl, m2, hins, -, hxF, hex, hmx, hbetween, hpath, hlast, hetl, hmtl, hntl,
    hxtl⟩ := insert__collision hinv hsz k hhome hcol
  have hg1 := get_set_if ({ ex with key := k, mode := Mode.used } : element Key) hex
  have hetl1 : (s.table.set x { ex with key := k, mode := Mode.used })[tl]? = some etl := by
    rw [hg1, if_neg (Ne.symm hxtl)]
    exact hetl
  have hg2 := get_set_if ({ etl with next := some x } : element Key) hetl1
  have hex2 : ((s.table.set x { ex with key := k, mode := Mode.used }).set tl
      { etl with next := some x })[x]? = some { ex with key := k, mode := Mode.used } := by
    rw [hg2, if_neg hxtl, hg1, if_pos rfl]
  have hg3 := get_set_if
    ({ ex with key := k, mode := Mode.used, next := none, prev := some tl } : element Key) hex2
  refine ⟨x, tl, etl, _, hins, hxF, ⟨ex, hex, hmx⟩, hbetween, ?_, hetl, hmtl, hntl, ?_, ?_, ?_,
    ?_, ?_⟩
  · rw [hpath, getLast?_cons_eq_lastOr]
    exact hlast
  · simp only []
    rw [hg3, if_neg (Ne.symm hxtl), hg2, if_pos rfl]
  · simp only []
    rw [hg3, if_pos rfl]
  · intro j hj1 hj2
    simp only []
    rw [hg3, if_neg hj1, hg2, if_neg hj2, hg1, if_neg hj1]
  · rintro ⟨j, e, hj1, hj2, he, hm⟩
    by_contra hlt
    obtain ⟨e', he', hm'⟩ := hbetween j (by omega) hj2
    rw [he] at he'
    cases he'
    rw [hm] at hm'
    cases hm'
  · intro hlt j hj1 hj2
    exact hbetween j (by omega) hj2

/-- C17. Overflow placement: in a reachable state with
`size + 1 ≤ 0.7 * primary_size`, `insert_` of a key whose home slot is used
writes the key to the free slot of greatest index below `full_table`, behind
the last slot `tl` of the walk from its home slot: `tl.next` becomes the new
index, the new slot gets `prev = tl` and no `next`, and no other slot changes.
Hence the slot lies in the cellar whenever the cellar has a free slot, and in
the primary region only when every cellar slot is used. The same holds in the
state that `reserve(size + 1)` hands to `insert_` when it has grown the table. -/
theorem C17_overflow_placement (hash : Key → Nat) (N : Nat) (hN : 1 ≤ N) (s : ADS_set Key)
    (hr : Reachable hash N s) (k : Key) :
    (10 * (size s + 1) ≤ 7 * s.table_size →
      ∀ e0, s.table[hash k % s.table_size]? = some e0 → e0.mode = Mode.used →
        OverflowPlaced hash s k) ∧
    ∃ s1, reserve hash N s (size s + 1) = some s1 ∧
      ∀ e0, s1.table[hash k % s1.table_size]? = some e0 → e0.mode = Mode.used →
        OverflowPlaced hash s1 k := by
  have hinv := (hr.rinv hN).1
  constructor
  · intro hload e0 hhome hcol
    have hsz : s.curr_size < s.full_table := by
      have h1 := hinv.1.ple
      have h2 : size s = s.curr_size := rfl
      omega
    exact overflow_placed hinv hsz k hhome hcol
  · obtain ⟨s1, hs1, hinv1, hc1, -, hn1⟩ := reserve_spec hN hinv (size s + 1)
    refine ⟨s1, hs1, fun e0 hhome hcol => ?_⟩
    have hsz : s1.curr_size < s1.full_table := by
      have h1 := hinv1.1.ple
      have h2 : size s = s.curr_size := rfl
      omega
    exact overflow_placed hinv1 hsz k hhome hcol

/-- Witness of C17: in the default table of 23 slots (full size 26) holding
the key 5, the first colliding key 28 is placed at index 25. -/
theorem C17_witness :
    1 ≤ 23 ∧ Reachable id 23 exFive ∧ exFive.table_size = 23 ∧ exFive.full_table = 26 ∧
      10 * (size exFive + 1) ≤ 7 * exFive.table_size ∧
      exFive.table[id 28 % exFive.table_size]? = some ⟨5, Mode.used, none, none⟩ ∧
      (insert_ id exFive 28).map Prod.fst = some 25 ∧
      ((10 * (size exFive + 1) ≤ 7 * exFive.table_size →
        ∀ e0, exFive.table[id 28 % exFive.table_size]? = some e0 → e0.mode = Mode.used →
          OverflowPlaced id exFive 28) ∧
      ∃ s1, reserve id 23 exFive (size exFive + 1) = some s1 ∧
        ∀ e0, s1.table[id 28 % s1.table_size]? = some e0 → e0.mode = Mode.used →
          OverflowPlaced id s1 28) :=
  ⟨by decide, exFive_reachable, by decide, by decide, by decide, by decide, by decide,
    C17_overflow_placement id 23 (by decide) exFive exFive_reachable 28⟩

/-- Witness of C16: the chain `5 -> 25 -> 24` of the container holding
`5, 28, 51`; erasing 5 moves 28 from slot 25 to its home slot 5 (case A) and
re-splices 51 in slot 24 behind slot 5 (case B). -/
theorem C16_witness :
    1 ≤ 23 ∧ Reachable id 23 exChain ∧
      (erase_rec id exChain 5).map Prod.fst = some [⟨25, 5, none⟩, ⟨24, 5, some [5]⟩] ∧
      ((∀ (i : Nat) (e : element Nat), exChain.table[i]? = some e → e.mode = Mode.used →
        (e.prev = none ↔ i = id e.key % exChain.table_size)) ∧
      (∀ (i : Nat) (e : element Nat), exChain.table[i]? = some e → e.mode = Mode.used →
        exChain.table_size ≤ i → e.prev ≠ none) ∧
      (∀ k, ∃ log r s', erase_rec id exChain k = some (log, r, s') ∧
        erase id exChain k = some (r, s') ∧
        ∀ ps ∈ log,
          (∃ e, exChain.table[ps.node]? = some e ∧ ps.home = id e.key % exChain.table_size) ∧
          ps.node ≠ ps.home)) :=
  ⟨by decide, exChain_reachable, by decide,
    C16_heads_at_home id 23 (by decide) exChain exChain_reachable⟩

/-- The walk along `next` from the home slot of a stored key passes through
used slots only and meets the slot of the key. -/
theorem PInv.home_walk {hash : Key → Nat} {s : ADS_set Key} (hinv : PInv hash s [])
    {i : Nat} {e : element Key} (hi : s.table[i]? = some e) (hm : e.mode = Mode.used) :
    ∃ path, tail_path s.table s.table.length (hash e.key % s.table_size) = path ∧
      path.head? = some (hash e.key % s.table_size) ∧ NextLinked s.table path ∧ i ∈ path := by
  obtain ⟨pre, suf, hc, -, -⟩ := hinv.slot_chain hi hm
  obtain ⟨h1, h2⟩ := hc.home pre i suf e rfl hi
  have hclen := hinv.chain_length hc
  simp at hclen
  by_cases hpre : pre = []
  · subst hpre
    have hhome := h1 rfl
    have hnl : NextLinked s.table (i :: suf) := hc.linked.next
    rw [hhome]
    refine ⟨i :: suf, tail_path_eq _ suf _ _ hnl (by rw [hinv.len]; simp at hclen; omega), rfl,
      hnl, by simp⟩
  · obtain ⟨p1, p2, hsplit⟩ := List.append_of_mem (h2 hpre)
    have hceq : pre ++ i :: suf = p1 ++ hash e.key % s.table_size :: (p2 ++ i :: suf) := by
      rw [hsplit]
      simp
    have hnl : NextLinked s.table (hash e.key % s.table_size :: (p2 ++ i :: suf)) := by
      have := hc.linked.next
      rw [hceq] at this
      exact NextLinked.of_append (l := p1) this
    have hlen : (p2 ++ i :: suf).length < s.table.length := by
      rw [hinv.len]
      rw [hsplit] at hclen
      simp at hclen ⊢
      omega
    exact ⟨_, tail_path_eq _ _ _ _ hnl hlen, rfl, hnl, by simp⟩

/-- C18. Home-reachability: in every reachable state, for every used slot `i`
holding a key `k`, the home slot `hash(k) mod primary_size` is used, the walk
along `next` from it passes through used slots only and meets `i`, and
`find_(k)` returns `i`. -/
theorem C18_home_reachable (hash : Key → Nat) (N : Nat) (hN : 1 ≤ N) (s : ADS_set Key)
    (hr : Reachable hash N s) (i : Nat) (e : element Key) (hi : s.table[i]? = some e)
    (hm : e.mode = Mode.used) :
    (∃ eh, s.table[hash e.key % s.table_size]? = some eh ∧ eh.mode = Mode.used) ∧
    (∃ path, tail_path s.table s.table.length (hash e.key % s.table_size) = path ∧
      path.head? = some (hash e.key % s.table_size) ∧ NextLinked s.table path ∧ i ∈ path) ∧
    find_ hash s e.key = some (some i) := by
  have hinv := (hr.rinv hN).1
  obtain ⟨path, hpath, hhead, hnl, hmem⟩ := hinv.1.home_walk hi hm
  refine ⟨?_, ⟨path, hpath, hhead, hnl, hmem⟩, hinv.1.find_found hi hm⟩
  cases path with
  | nil => simp at hmem
  | cons a rest =>
    simp at hhead
    subst hhead
    obtain ⟨eh, heh, hmh, -, -⟩ := hnl
    exact ⟨eh, heh, hmh⟩

/-- Witness of C18: the key 51 in slot 24, at the end of the chain
`5 -> 25 -> 24` from its home slot 5. -/
theorem C18_witness :
    1 ≤ 23 ∧ Reachable id 23 exChain ∧
      exChain.table[24]? = some ⟨51, Mode.used, none, some 25⟩ ∧
      tail_path exChain.table exChain.table.length 5 = [5, 25, 24] ∧
      ((∃ eh, exChain.table[id (⟨51, Mode.used, none, some 25⟩ : element Nat).key
          % exChain.table_size]? = some eh ∧ eh.mode = Mode.used) ∧
      (∃ path, tail_path exChain.table exChain.table.length
          (id (⟨51, Mode.used, none, some 25⟩ : element Nat).key % exChain.table_size) = path ∧
        path.head? = some (id (⟨51, Mode.used, none, some 25⟩ : element Nat).key
          % exChain.table_size) ∧ NextLinked exChain.table path ∧ 24 ∈ path) ∧
      find_ id exChain (⟨51, Mode.used, none, some 25⟩ : element Nat).key = some (some 24)) :=
  ⟨by decide, exChain_reachable, by decide, by decide,
    C18_home_reachable id 23 (by decide) exChain exChain_reachable 24
      ⟨51, Mode.used, none, some 25⟩ (by decide) rfl⟩

/-- The cursor values met while the probe loop walks down from position `n`. -/
theorem probe_cursors_down : ∀ (n fuel : Nat) (s : ADS_set Key), n < s.full_table →
    s.table_last = n → s.table.length = s.full_table + 1 →
    (∃ j, j ≤ n ∧ ∃ e, s.table[j]? = some e ∧ e.mode = Mode.free) →
    (∀ c ∈ probe_cursors fuel s n, 0 < c) ∧ (probe_cursors fuel s n).length ≤ n := by
  intro n
  induction n with
  | zero =>
    intro fuel s hF hl hlen ⟨j, hj, e, he, hm⟩
    have hj0 : j = 0 := by omega
    subst hj0
    cases fuel with
    | zero => simp [probe_cursors]
    | succ f => simp [probe_cursors, he, hm]
  | succ n ih =>
    intro fuel s hF hl hlen ⟨j, hj, e, he, hm⟩
    cases fuel with
    | zero => simp [probe_cursors]
    | succ f =>
      have hin : n + 1 < s.table.length := by omega
      by_cases hfree : (s.table[n + 1]).mode = Mode.free
      · simp [probe_cursors, List.getElem?_eq_getElem hin, hfree]
      · have hjn : j ≤ n := by
          rcases Nat.lt_or_ge n j with h | h
          · have : j = n + 1 := by omega
            subst this
            rw [List.getElem?_eq_getElem hin] at he
            cases he
            exact absurd hm hfree
          · exact h
        have hg : g s = some (n, { s with table_last := n }) := by
          have h0 : s.full_table ≠ 0 := by omega
          have h1 : dec64 s.table_last = n := by simp [dec64, hl]
          simp [g, h0, h1]
          exact Nat.mod_eq_of_lt (by omega)
        obtain ⟨h1, h2⟩ := ih f { s with table_last := n } (by simpa using by omega) rfl hlen
          ⟨j, hjn, e, he, hm⟩
        have hcur : probe_cursors (f + 1) s (n + 1)
            = s.table_last :: probe_cursors f { s with table_last := n } n := by
          simp [probe_cursors, List.getElem?_eq_getElem hin, hfree, hg]
        rw [hcur]
        refine ⟨fun c hc => ?_, by simp; omega⟩
        rcases List.mem_cons.1 hc with rfl | hc
        · omega
        · exact h1 c hc

/-- On a well-formed store with a free slot the cursor is positive and the
probe loop is safe. -/
theorem probe_safe {hash : Key → Nat} {s : ADS_set Key} (hinv : Inv hash s)
    (hsz : s.curr_size < s.full_table) : 0 < s.table_last ∧ ProbeSafe s := by
  obtain ⟨hpi, htl⟩ := hinv
  obtain ⟨j, hj, e, he, hm⟩ := hpi.exists_free hsz
  have hjl : j < s.table_last := by
    rcases Nat.lt_or_ge j s.table_last with h | h
    · exact h
    · obtain ⟨e', he', hm'⟩ := htl.2 j h hj
      rw [he] at he'
      cases he'
      rw [hm] at hm'
      cases hm'
  have hle := htl.1
  refine ⟨by omega, fun idx e0 h0 hm0 => ?_⟩
  obtain ⟨x, hx, hxf, -, hr⟩ := probe_loop_spec htl hpi.len h0 hm0 ⟨j, hj, e, he, hm⟩
  have hg : g s = some (s.table_last - 1, { s with table_last := s.table_last - 1 }) := by
    have h0 : s.full_table ≠ 0 := by omega
    have h1 : dec64 s.table_last = s.table_last - 1 := dec64_pos (by omega)
    simp [g, h0, h1]
    exact Nat.mod_eq_of_lt (by omega)
  obtain ⟨x', hx', -, -, hr'⟩ := probe_loop_down (s.table_last - 1) s.full_table
    { s with table_last := s.table_last - 1 } (by simpa using by omega) rfl hpi.len
    ⟨j, by omega, e, he, hm⟩ (by omega)
  obtain ⟨y, hy, -, -, hry⟩ := probe_loop_down (s.table_last - 1) (s.table_last + s.full_table)
    { s with table_last := s.table_last - 1 } (by simpa using by omega) rfl hpi.len
    ⟨j, by omega, e, he, hm⟩ (by omega)
  have hsmall : probe_loop (s.full_table + 1) s idx = some (x', { s with table_last := x' }) := by
    simp [probe_loop, h0, hm0, hg]
    simpa using hr'
  have hbig : probe_loop (s.table_last + s.full_table + 1) s idx
      = some (y, { s with table_last := y }) := by
    simp [probe_loop, h0, hm0, hg]
    simpa using hry
  have hxy : x = y := by
    rw [hr] at hbig
    simp only [Option.some.injEq, Prod.mk.injEq] at hbig
    exact hbig.1
  -- the walk does not depend on the step budget
  have hdet : ∀ (n f1 f2 : Nat) (t : ADS_set Key) (a b : Nat), n < t.full_table →
      t.table_last = n → t.table.length = t.full_table + 1 →
      (∃ j, j ≤ n ∧ ∃ e, t.table[j]? = some e ∧ e.mode = Mode.free) → n < f1 → n < f2 →
      probe_loop f1 t n = some (a, { t with table_last := a }) →
      probe_loop f2 t n = some (b, { t with table_last := b }) → a = b := by
    intro n
    induction n with
    | zero =>
      intro f1 f2 t a b hF hl hlen ⟨j, hj, e, he, hm⟩ hf1 hf2 h1 h2
      have hj0 : j = 0 := by omega
      subst hj0
      obtain ⟨g1, rfl⟩ : ∃ g1, f1 = g1 + 1 := ⟨f1 - 1, by omega⟩
      obtain ⟨g2, rfl⟩ : ∃ g2, f2 = g2 + 1 := ⟨f2 - 1, by omega⟩
      simp [probe_loop, he, hm] at h1 h2
      omega
    | succ n ih =>
      intro f1 f2 t a b hF hl hlen ⟨j, hj, e, he, hm⟩ hf1 hf2 h1 h2
      obtain ⟨g1, rfl⟩ : ∃ g1, f1 = g1 + 1 := ⟨f1 - 1, by omega⟩
      obtain ⟨g2, rfl⟩ : ∃ g2, f2 = g2 + 1 := ⟨f2 - 1, by omega⟩
      have hin : n + 1 < t.table.length := by omega
      by_cases hfree : (t.table[n + 1]).mode = Mode.free
      · simp [probe_loop, List.getElem?_eq_getElem hin, hfree] at h1 h2
        omega
      · have hjn : j ≤ n := by
          rcases Nat.lt_or_ge n j with h | h
          · have : j = n + 1 := by omega
            subst this
            rw [List.getElem?_eq_getElem hin] at he
            cases he
            exact absurd hm hfree
          · exact h
        have hgt : g t = some (n, { t with table_last := n }) := by
          have h0 : t.full_table ≠ 0 := by omega
          have h1 : dec64 t.table_last = n := by simp [dec64, hl]
          simp [g, h0, h1]
          exact Nat.mod_eq_of_lt (by omega)
        simp only [probe_loop, List.getElem?_eq_getElem hin, hfree, if_false, hgt] at h1 h2
        exact ih g1 g2 { t with table_last := n } a b (by simpa using by omega) rfl hlen
          ⟨j, hjn, e, he, hm⟩ (by omega) (by omega) (by simpa using h1) (by simpa using h2)
  have hxx : x' = y := hdet (s.table_last - 1) s.full_table (s.table_last + s.full_table)
    { s with table_last := s.table_last - 1 } x' y (by simpa using by omega) rfl hpi.len
    ⟨j, by omega, e, he, hm⟩ (by omega) (by omega) (by simpa using hr') (by simpa using hry)
  obtain ⟨hc1, hc2⟩ := probe_cursors_down (s.table_last - 1) (s.table_last + s.full_table)
    { s with table_last := s.table_last - 1 } (by simpa using by omega) rfl hpi.len
    ⟨j, by omega, e, he, hm⟩
  have hcur : probe_cursors (s.table_last + s.full_table + 1) s idx
      = s.table_last :: probe_cursors (s.table_last + s.full_table)
          { s with table_last := s.table_last - 1 } (s.table_last - 1) := by
    simp [probe_cursors, h0, hm0, hg]
  refine ⟨x, ?_, hr, hxf, ?_, ?_⟩
  · rw [hxy, ← hxx]
    exact hsmall
  · rw [hcur]
    intro c hc
    rcases List.mem_cons.1 hc with rfl | hc
    · omega
    · exact hc1 c hc
  · rw [hcur]
    simp
    omega

/-- A state within the load bound has a free slot. -/
theorem RInv.size_lt {hash : Key → Nat} {N : Nat} {s : ADS_set Key} (h : RInv hash N s) :
    s.curr_size < s.full_table := by
  have h1 := exceeds_false_bound h.2.2
  have h2 := h.1.1.psz
  have h3 := h.1.1.ple
  omega

/-- C20. Erase terminates: on a reachable state `erase(key)` returns for every
key. Its re-settle loop handles the slots `suf` that followed the removed slot
`p` in its chain (the walk along `next` from `p` is `p :: suf`), each exactly
once and in chain order, and no slot when the key is absent. In every pass the
home slot of the node is neither the node itself nor a node still to be
handled, and in case B the tail walk from the home slot ends, visits no slot
twice, and meets neither the node itself nor a node still to be handled: the
node is appended behind slots none of which is the node or is unprocessed, so
no self-link and no cycle arises. -/
theorem C20_erase_terminates (hash : Key → Nat) (N : Nat) (hN : 1 ≤ N) (s : ADS_set Key)
    (hr : Reachable hash N s) (k : Key) :
    ∃ log r s' suf, erase_rec hash s k = some (log, r, s') ∧ erase hash s k = some (r, s') ∧
      log.map Pass.node = suf ∧ suf.Nodup ∧
      (∀ p, find_ hash s k = some (some p) →
        tail_path s.table s.table.length p = p :: suf ∧ p ∉ suf) ∧
      (find_ hash s k = some none → suf = []) ∧
      ∀ l1 ps l2, log = l1 ++ ps :: l2 →
        (∃ e, s.table[ps.node]? = some e ∧ ps.home = hash e.key % s.table_size) ∧
        ps.home ∉ ps.node :: l2.map Pass.node ∧
        ∀ path, ps.walk = some path → path.head? = some ps.home ∧ path.Nodup ∧
          ∀ x ∈ path, x ∉ ps.node :: l2.map Pass.node := by
  have hinv := (hr.rinv hN).1
  obtain ⟨log, r, s', suf, hrec, her, hgood, hnd, hpath, hnone⟩ := erase_rec_spec hinv k
  exact ⟨log, r, s', suf, hrec, her, hgood.1, hnd, hpath, hnone, hgood.2⟩

/-- Witness of C20: erasing the head 5 of the chain `5 -> 25 -> 24`: the loop
handles slot 25 (case A) and then slot 24 (case B, tail walk `[5]`). -/
theorem C20_witness :
    1 ≤ 23 ∧ Reachable id 23 exChain ∧
      tail_path exChain.table exChain.table.length 5 = [5, 25, 24] ∧
      (erase_rec id exChain 5).map Prod.fst = some [⟨25, 5, none⟩, ⟨24, 5, some [5]⟩] ∧
      ∃ log r s' suf, erase_rec id exChain 5 = some (log, r, s') ∧
        erase id exChain 5 = some (r, s') ∧
        log.map Pass.node = suf ∧ suf.Nodup ∧
        (∀ p, find_ id exChain 5 = some (some p) →
          tail_path exChain.table exChain.table.length p = p :: suf ∧ p ∉ suf) ∧
        (find_ id exChain 5 = some none → suf = []) ∧
        ∀ l1 ps l2, log = l1 ++ ps :: l2 →
          (∃ e, exChain.table[ps.node]? = some e ∧ ps.home = id e.key % exChain.table_size) ∧
          ps.home ∉ ps.node :: l2.map Pass.node ∧
          ∀ path, ps.walk = some path → path.head? = some ps.home ∧ path.Nodup ∧
            ∀ x ∈ path, x ∉ ps.node :: l2.map Pass.node :=
  ⟨by decide, exChain_reachable, by decide, by decide,
    C20_erase_terminates id 23 (by decide) exChain exChain_reachable 5⟩

/-! ### The operations under the arithmetic of `size_type` -/

/-- The probe loop changes the cursor only. -/
theorem probe_loop_sizes : ∀ (fuel : Nat) (s : ADS_set Key) (idx x : Nat) (s' : ADS_set Key),
    probe_loop fuel s idx = some (x, s') →
      s'.table_size = s.table_size ∧ s'.full_table = s.full_table
  | 0, _, _, _, _, h => by simp [probe_loop] at h
  | fuel + 1, s, idx, x, s', h => by
    rw [probe_loop] at h
    cases ht : s.table[idx]? with
    | none => simp [ht] at h
    | some e =>
      simp only [ht] at h
      by_cases hm : e.mode = Mode.free
      · simp only [hm, if_true, Option.some.injEq, Prod.mk.injEq] at h
        rw [← h.2]
        exact ⟨rfl, rfl⟩
      · simp only [hm, if_false] at h
        cases hg : g s with
        | none => simp [hg] at h
        | some r =>
          obtain ⟨idx', s1⟩ := r
          simp only [hg] at h
          obtain ⟨h1, h2⟩ := probe_loop_sizes fuel s1 idx' x s' h
          have hs1 : s1.table_size = s.table_size ∧ s1.full_table = s.full_table := by
            unfold g at hg
            split at hg
            · cases hg
            · simp only [Option.some.injEq, Prod.mk.injEq] at hg
              rw [← hg.2]
              exact ⟨rfl, rfl⟩
          exact ⟨by rw [h1, hs1.1], by rw [h2, hs1.2]⟩

/-- The placement `insert_` keeps the primary size and the full size. -/
theorem insert__sizes {hash : Key → Nat} {s s' : ADS_set Key} {k : Key} {x : Nat}
    (h : insert_ hash s k = some (x, s')) :
    s'.table_size = s.table_size ∧ s'.full_table = s.full_table := by
  unfold insert_ at h
  cases hh : ADS.h hash s k with
  | none => simp [hh] at h
  | some idx =>
    simp only [hh] at h
    cases ht : s.table[idx]? with
    | none => simp [ht] at h
    | some e =>
      simp only [ht] at h
      by_cases hm : e.mode = Mode.free
      · simp only [hm, if_true] at h
        cases hu : upd s.table idx
            (fun x => { x with key := k, mode := Mode.used, next := none, prev := none }) with
        | none => simp [hu] at h
        | some t =>
          simp only [hu, Option.some.injEq, Prod.mk.injEq] at h
          rw [← h.2]
          exact ⟨rfl, rfl⟩
      · simp only [hm, if_false] at h
        by_cases hu : e.mode = Mode.used
        · simp only [hu, if_true] at h
          cases hn : e.next with
          | none =>
            simp only [hn] at h
            cases hp : probe_loop (s.table_last + s.full_table + 1) s idx with
            | none => simp [hp] at h
            | some r =>
              obtain ⟨idx', s1⟩ := r
              obtain ⟨g1, g2⟩ := probe_loop_sizes _ _ _ _ _ hp
              simp only [hp] at h
              cases h1 : upd s1.table idx' (fun x => { x with key := k, mode := Mode.used }) with
              | none => simp [h1] at h
              | some t1 =>
                simp only [h1] at h
                cases h2 : upd t1 idx (fun x => { x with next := some idx' }) with
                | none => simp [h2] at h
                | some t2 =>
                  simp only [h2] at h
                  cases h3 : upd t2 idx'
                      (fun x => { x with next := none, prev := some idx }) with
                  | none => simp [h3] at h
                  | some t3 =>
                    simp only [h3, Option.some.injEq, Prod.mk.injEq] at h
                    rw [← h.2]
                    exact ⟨g1, g2⟩
          | some n =>
            simp only [hn] at h
            cases hl : tail_loop s.table s.table.length n with
            | none => simp [hl] at h
            | some last_in_chain =>
              simp only [hl] at h
              cases hp : probe_loop (s.table_last + s.full_table + 1) s idx with
              | none => simp [hp] at h
              | some r =>
                obtain ⟨idx', s1⟩ := r
                obtain ⟨g1, g2⟩ := probe_loop_sizes _ _ _ _ _ hp
                simp only [hp] at h
                cases h1 : upd s1.table idx' (fun x => { x with key := k, mode := Mode.used }) with
                | none => simp [h1] at h
                | some t1 =>
                  simp only [h1] at h
                  cases h2 : upd t1 last_in_chain (fun x => { x with next := some idx' }) with
                  | none => simp [h2] at h
                  | some t2 =>
                    simp only [h2] at h
                    cases h3 : upd t2 idx'
                        (fun x => { x with next := none, prev := some last_in_chain }) with
                    | none => simp [h3] at h
                    | some t3 =>
                      simp only [h3, Option.some.injEq, Prod.mk.injEq] at h
                      rw [← h.2]
                      exact ⟨g1, g2⟩
        · simp only [hu, if_false, Option.some.injEq, Prod.mk.injEq] at h
          rw [← h.2]
          exact ⟨rfl, rfl⟩

/-- The re-insertion loop of `rehash` keeps the sizes of the new table. -/
theorem rehash_loop_sizes (hash : Key → Nat) (old : List (element Key)) :
    ∀ (k idx : Nat) (s s' : ADS_set Key), rehash_loop hash old k idx s = some s' →
      s'.table_size = s.table_size ∧ s'.full_table = s.full_table
  | 0, _, s, s', h => by
    simp only [rehash_loop, Option.some.injEq] at h
    rw [h]
    exact ⟨rfl, rfl⟩
  | k + 1, idx, s, s', h => by
    rw [rehash_loop] at h
    cases ht : old[idx]? with
    | none => simp [ht] at h
    | some e =>
      simp only [ht] at h
      by_cases hm : e.mode = Mode.used
      · simp only [hm, if_true] at h
        cases hi : insert_ hash s e.key with
        | none => simp [hi] at h
        | some r =>
          obtain ⟨x, s1⟩ := r
          simp only [hi] at h
          obtain ⟨g1, g2⟩ := insert__sizes hi
          obtain ⟨h1, h2⟩ := rehash_loop_sizes hash old k (idx + 1) s1 s' h
          exact ⟨by rw [h1, g1], by rw [h2, g2]⟩
      · simp only [hm, if_false] at h
        exact rehash_loop_sizes hash old k (idx + 1) s s' h

/-- The primary size that `rehash(n)` leaves, on any state. -/
theorem rehash_table_size {hash : Key → Nat} {N : Nat} {s s' : ADS_set Key} {n : Nat}
    (h : rehash hash N s n = some s') :
    s'.table_size = max N (max n (divLf s.curr_size)) := by
  unfold rehash at h
  exact (rehash_loop_sizes hash _ _ _ _ _ h).1

/-- The primary size that `rehash(n)` leaves under the arithmetic of
`size_type`, on any state. -/
theorem rehash64_table_size {hash : Key → Nat} {N : Nat} {s s' : ADS_set Key} {n : Nat}
    (h : rehash64 hash N s n = some s') :
    s'.table_size = max N (max n (divLf s.curr_size)) := by
  unfold rehash64 at h
  simp only [] at h
  split at h
  · cases h
  · exact (rehash_loop_sizes hash _ _ _ _ _ h).1

/-- The cellar of a primary region is no larger than the region. -/
theorem cellarOf_le (t : Nat) : cellarOf t ≤ t := by
  unfold cellarOf
  apply Nat.div_le_of_le_mul
  have h1 := round24_bounds t
  have h2 := round24_bounds (round24 t * cellarMant)
  unfold cellarMant at h2 ⊢
  generalize round24 (round24 t * 10925323) = c at h2 ⊢
  generalize round24 t = r at h1 h2
  norm_num at h1 h2 ⊢
  omega

/-- Below `2^63` slots the sum of `rehash` does not wrap: both readings agree. -/
theorem rehash64_eq {hash : Key → Nat} {N : Nat} {s : ADS_set Key} {n : Nat}
    (h : max N (max n (divLf s.curr_size)) < 2 ^ 63) :
    rehash64 hash N s n = rehash hash N s n := by
  have hc := cellarOf_le (max N (max n (divLf s.curr_size)))
  have h64 : (2 : Nat) ^ 64 = 2 * 2 ^ 63 := by norm_num
  have hlt : max N (max n (divLf s.curr_size)) + cellarOf (max N (max n (divLf s.curr_size)))
      < 2 ^ 64 - 1 := by omega
  unfold rehash64 rehash
  simp only []
  rw [Nat.mod_eq_of_lt (by omega), if_neg (by omega)]

/-- The re-settle loop of `erase` keeps the primary size, on any state. -/
theorem erase_loop_sizes (hash : Key → Nat) :
    ∀ (fuel : Nat) (s : ADS_set Key) (nx : Option Nat) (s' : ADS_set Key),
      erase_loop hash fuel s nx = some s' →
        s'.table_size = s.table_size ∧ s'.full_table = s.full_table
  | 0, s, none, s', h => by
    simp only [erase_loop, Option.some.injEq] at h
    rw [h]
    exact ⟨rfl, rfl⟩
  | 0, _, some _, _, h => by simp [erase_loop] at h
  | _ + 1, s, none, s', h => by
    simp only [erase_loop, Option.some.injEq] at h
    rw [h]
    exact ⟨rfl, rfl⟩
  | fuel + 1, s, some nextone, s', h => by
    have ih := erase_loop_sizes hash fuel
    simp only [erase_loop] at h
    cases h1 : s.table[nextone]? with
    | none => simp [h1] at h
    | some e =>
      simp only [h1] at h
      cases h2 : ADS.h hash s e.key with
      | none => simp [h2] at h
      | some index =>
        simp only [h2] at h
        cases h3 : upd s.table nextone (fun x => { x with next := none }) with
        | none => simp [h3] at h
        | some t1 =>
          simp only [h3] at h
          cases h4 : t1[index]? with
          | none => simp [h4] at h
          | some e2 =>
            simp only [h4] at h
            by_cases hfree : e2.mode = Mode.free
            · simp only [hfree, if_true] at h
              cases h5 : insert_ hash { s with table := t1, curr_size := dec64 s.curr_size }
                  e.key with
              | none => simp [h5] at h
              | some r =>
                obtain ⟨x, s2⟩ := r
                obtain ⟨g1, g2⟩ := insert__sizes h5
                simp only [h5] at h
                cases h6 : upd s2.table nextone
                    (fun x => { x with mode := Mode.free, next := none, prev := none }) with
                | none => simp [h6] at h
                | some t3 =>
                  simp only [h6] at h
                  obtain ⟨i1, i2⟩ := ih _ _ _ h
                  exact ⟨by rw [i1]; exact g1, by rw [i2]; exact g2⟩
            · simp only [hfree, if_false] at h
              cases h5 : tail_loop t1 t1.length index with
              | none => simp [h5] at h
              | some tl =>
                simp only [h5] at h
                cases h6 : upd t1 tl (fun x => { x with next := some nextone }) with
                | none => simp [h6] at h
                | some t2 =>
                  simp only [h6] at h
                  cases h7 : upd t2 nextone (fun x => { x with prev := some tl }) with
                  | none => simp [h7] at h
                  | some t3 =>
                    simp only [h7] at h
                    have := ih _ _ _ h
                    exact this

/-- The member `erase` keeps the primary size, on any state. -/
theorem erase_sizes {hash : Key → Nat} {s s' : ADS_set Key} {k : Key} {r : Nat}
    (h : erase hash s k = some (r, s')) : s'.table_size = s.table_size := by
  rw [← erase_rec_erase] at h
  unfold erase_rec at h
  cases hf : find_ hash s k with
  | none => simp [hf] at h
  | some o =>
    cases o with
    | none =>
      simp only [hf, Option.map_some', Option.some.injEq, Prod.mk.injEq] at h
      rw [← h.2]
    | some p =>
      simp only [hf] at h
      cases h1 : s.table[p]? with
      | none => simp [h1] at h
      | some e =>
        simp only [h1] at h
        cases h2 : upd s.table p
            (fun x => { x with mode := Mode.free, next := none, prev := none }) with
        | none => simp [h2] at h
        | some t1 =>
          simp only [h2] at h
          have key_step : ∀ o : Option (List (element Key)),
              Option.map (fun r : List Pass × Nat × ADS_set Key => r.2)
                (match o with
                | none => none
                | some t2 =>
                  match erase_log hash t2.length
                      { s with table := t2, curr_size := dec64 s.curr_size } e.next with
                  | none => none
                  | some (log, s3) => some (log, 1, { s3 with table_last := s3.full_table }))
                = some (r, s') → s'.table_size = s.table_size := by
            intro o ho
            cases o with
            | none => simp at ho
            | some t2 =>
              simp only [] at ho
              cases hl : erase_log hash t2.length
                  { s with table := t2, curr_size := dec64 s.curr_size } e.next with
              | none => simp [hl] at ho
              | some q =>
                obtain ⟨log, s3⟩ := q
                simp only [hl, Option.map_some', Option.some.injEq, Prod.mk.injEq] at ho
                have hst := erase_log_state hash t2.length
                  { s with table := t2, curr_size := dec64 s.curr_size } e.next
                rw [hl] at hst
                have := (erase_loop_sizes hash _ _ _ _ hst.symm).1
                rw [← ho.2]
                exact this
          cases hp : e.prev with
          | none =>
            rw [hp] at h
            exact key_step (some t1) h
          | some previous =>
            rw [hp] at h
            exact key_step (upd t1 previous (fun x => { x with next := none })) h

theorem Grows.refl (s : ADS_set Key) : Grows s s := Or.inl (le_refl _)

theorem Grows.trans {a b c : ADS_set Key} (h1 : Grows a b) (h2 : Grows b c) : Grows a c := by
  unfold Grows at *
  omega

theorem Grows.lt {a b : ADS_set Key} (h : Grows a b) (hb : b.table_size < 2 ^ 62) :
    a.table_size < 2 ^ 62 := by
  unfold Grows at h
  omega

/-- A size that fails the load test is less than twice the number of keys. -/
theorem lt_of_exceeds {n t : Nat} (h : exceeds n t = true) : t < 2 * n := by
  by_contra hle
  have := not_exceeds_of_le (n := n) (t := t) (by omega)
  rw [this] at h
  cases h

/-- The capacity check under the arithmetic of `size_type`, on any state. -/
theorem reserve64_grows {hash : Key → Nat} {N : Nat} {s s' : ADS_set Key} {n : Nat}
    (hn : n ≤ s.curr_size + 1) (h : reserve64 hash N s n = some s') : Grows s s' := by
  unfold reserve64 at h
  by_cases hex : exceeds n s.table_size = true
  · rw [if_pos hex] at h
    have hlt := lt_of_exceeds hex
    cases hl : reserve_loop64 n (n + 1) s.table_size with
    | none =>
      rw [hl] at h
      cases h
    | some r0 =>
      rw [hl] at h
      have hts := rehash64_table_size h
      have hdiv := le_divLf s.curr_size
      by_cases hbig : 2 ^ 63 ≤ s.table_size
      · right
        have h63 : (2 : Nat) ^ 63 = 2 * 2 ^ 62 := by norm_num
        rw [hts]
        omega
      · left
        have h64 : (2 : Nat) ^ 64 = 2 * 2 ^ 63 := by norm_num
        have hm : (s.table_size * 2 + 1) % 2 ^ 64 = s.table_size * 2 + 1 :=
          Nat.mod_eq_of_lt (by omega)
        rw [reserve_loop64, hm] at hl
        by_cases hex1 : exceeds n (s.table_size * 2 + 1) = true
        · have := lt_of_exceeds hex1
          rw [hts]
          omega
        · rw [if_neg hex1] at hl
          cases hl
          rw [hts]
          omega
  · rw [if_neg hex] at h
    cases h
    exact Grows.refl _

/-- The member `insert` under the arithmetic of `size_type`, on any state. -/
theorem insert64_grows {hash : Key → Nat} {N : Nat} {s s' : ADS_set Key} {k : Key} {it : Nat}
    {b : Bool} (h : insert64 hash N s k = some (it, b, s')) : Grows s s' := by
  unfold insert64 at h
  generalize hn : (s.curr_size + 1) % 2 ^ 64 = n at h
  have hle : n ≤ s.curr_size + 1 := by
    rw [← hn]
    exact Nat.mod_le _ _
  cases hf : find_ hash s k with
  | none => simp [hf] at h
  | some o =>
    cases o with
    | some p =>
      simp only [hf] at h
      cases hi : iterator s p with
      | none => simp [hi] at h
      | some it' =>
        simp only [hi, Option.some.injEq, Prod.mk.injEq] at h
        rw [← h.2.2]
        exact Grows.refl _
    | none =>
      simp only [hf] at h
      cases hr : reserve64 hash N s n with
      | none => simp [hr] at h
      | some s1 =>
        simp only [hr] at h
        cases hi : insert_ hash s1 k with
        | none => simp [hi] at h
        | some r =>
          obtain ⟨p, s2⟩ := r
          simp only [hi] at h
          cases hit : iterator s2 p with
          | none => simp [hit] at h
          | some it' =>
            simp only [hit, Option.some.injEq, Prod.mk.injEq] at h
            have h1 := reserve64_grows hle hr
            have h2 := (insert__sizes hi).1
            rw [← h.2.2]
            unfold Grows at h1 ⊢
            rw [h2]
            exact h1

/-- The range `insert` under the arithmetic of `size_type`, on any state. -/
theorem insert_range64_grows {hash : Key → Nat} {N : Nat} :
    ∀ (l : List Key) (s s' : ADS_set Key), insert_range64 hash N s l = some s' → Grows s s'
  | [], s, s', h => by
    simp only [insert_range64, Option.some.injEq] at h
    rw [h]
    exact Grows.refl _
  | key :: rest, s, s', h => by
    rw [insert_range64] at h
    generalize hn : (s.curr_size + 1) % 2 ^ 64 = n at h
    have hle : n ≤ s.curr_size + 1 := by
      rw [← hn]
      exact Nat.mod_le _ _
    cases hc : count hash s key with
    | none => simp [hc] at h
    | some c =>
      cases c with
      | zero =>
        simp only [hc] at h
        cases hr : reserve64 hash N s n with
        | none => simp [hr] at h
        | some s1 =>
          simp only [hr] at h
          cases hi : insert_ hash s1 key with
          | none => simp [hi] at h
          | some r =>
            obtain ⟨p, s2⟩ := r
            simp only [hi] at h
            have h1 := reserve64_grows hle hr
            have h2 := (insert__sizes hi).1
            have h3 := insert_range64_grows rest s2 s' h
            apply Grows.trans _ h3
            unfold Grows at h1 ⊢
            rw [h2]
            exact h1
      | succ c' =>
        simp only [hc] at h
        exact insert_range64_grows rest s s' h

/-- The default constructor: below `2^63` no sum wraps. -/
theorem new64_eq (hash : Key → Nat) {N : Nat} (hN : N < 2 ^ 63) :
    (new64 hash N : Option (ADS_set Key)) = new hash N := by
  unfold new64 new
  apply rehash64_eq
  have hd : divLf 0 = 0 := by decide
  show max N (max N (divLf 0)) < 2 ^ 63
  rw [hd]
  omega

/-- The capacity check of `insert`: while the doubled size stays below `2^63`
no sum wraps. -/
theorem reserve64_eq {hash : Key → Nat} {N : Nat} (hN : 1 ≤ N) {s : ADS_set Key}
    (h : RInv hash N s) (hts : s.table_size < 2 ^ 63)
    (hb : exceeds (s.curr_size + 1) s.table_size = true → s.table_size < 2 ^ 62) :
    reserve64 hash N s ((s.curr_size + 1) % 2 ^ 64) = reserve hash N s (s.curr_size + 1) := by
  have hle := exceeds_false_le h.2.2
  have h64 : (2 : Nat) ^ 64 = 2 * 2 ^ 63 := by norm_num
  have h63 : (2 : Nat) ^ 63 = 2 * 2 ^ 62 := by norm_num
  rw [Nat.mod_eq_of_lt (by omega)]
  unfold reserve64 reserve
  by_cases hex : exceeds (s.curr_size + 1) s.table_size = true
  · rw [if_pos hex, if_pos hex]
    have hlt := hb hex
    have hnext : exceeds (s.curr_size + 1) (s.table_size * 2 + 1) = false :=
      not_exceeds_next (by have := h.2.1; omega) (exceeds_false_bound h.2.2)
    have hm : (s.table_size * 2 + 1) % 2 ^ 64 = s.table_size * 2 + 1 :=
      Nat.mod_eq_of_lt (by omega)
    have h1 : reserve_loop (s.curr_size + 1) (s.curr_size + 1 + 1) s.table_size
        = some (s.table_size * 2 + 1) := by
      rw [reserve_loop, hnext]
      rfl
    have h2 : reserve_loop64 (s.curr_size + 1) (s.curr_size + 1 + 1) s.table_size
        = some (s.table_size * 2 + 1) := by
      rw [reserve_loop64, hm, hnext]
      rfl
    rw [h1, h2]
    apply rehash64_eq
    have hd := divLf_le_double h.2.2
    have := h.2.1
    omega
  · rw [if_neg hex, if_neg hex]

/-- The member `insert`: while the doubled size stays below `2^63` no sum
wraps. -/
theorem insert64_eq {hash : Key → Nat} {N : Nat} (hN : 1 ≤ N) {s : ADS_set Key}
    (h : RInv hash N s) (hts : s.table_size < 2 ^ 63)
    (hb : exceeds (s.curr_size + 1) s.table_size = true → s.table_size < 2 ^ 62) (k : Key) :
    insert64 hash N s k = insert hash N s k := by
  rw [insert64, insert, reserve64_eq hN h hts hb]

/-- One `insert` of a new key spelled out: the state that `insert_` returns
satisfies the invariant. -/
theorem insert_new_state {hash : Key → Nat} {N : Nat} (hN : 1 ≤ N) {s : ADS_set Key}
    (h : RInv hash N s) {k : Key} (hc : count hash s k = some 0) {s1 s2 : ADS_set Key}
    {p : Nat} (hr : reserve hash N s (s.curr_size + 1) = some s1)
    (hi : insert_ hash s1 k = some (p, s2)) :
    RInv hash N s2 ∧ s2.curr_size = s.curr_size + 1 ∧ (∀ j, Mem s2 j ↔ j = k ∨ Mem s j) ∧
      (s2.table_size = s.table_size ∨
        (exceeds (s.curr_size + 1) s.table_size = true ∧
          s2.table_size = s.table_size * 2 + 1)) := by
  have hnew := (count_eq_zero_iff h.1 k).1 hc
  obtain ⟨it, s', hins, hinv', hsz, hm, hf, ht⟩ := insert_sizes hN h hnew
  have hfind := h.1.1.find_absent hnew
  have hs : s' = s2 := by
    rw [insert] at hins
    simp only [hfind, hr, hi] at hins
    cases hit : iterator s2 p with
    | none => simp [hit] at hins
    | some it' =>
      simp only [hit, Option.some.injEq, Prod.mk.injEq] at hins
      exact hins.2.2.symm
  subst hs
  refine ⟨hinv', hsz, hm, ?_⟩
  by_cases hex : exceeds (s.curr_size + 1) s.table_size = true
  · exact Or.inr ⟨hex, (ht hex).1⟩
  · exact Or.inl (hf (by simpa using hex)).1

/-- The range `insert`: while the number of keys stays within `2^61` no sum
wraps. -/
theorem insert_range64_eq {hash : Key → Nat} {N : Nat} (hN : 1 ≤ N) :
    ∀ (l : List Key) (s : ADS_set Key), RInv hash N s → s.table_size < 2 ^ 63 →
      s.curr_size + l.length ≤ 2 ^ 61 →
      insert_range64 hash N s l = insert_range hash N s l
  | [], s, _, _, _ => by rw [insert_range64, insert_range]
  | key :: rest, s, h, hts, hlen => by
    have h62 : (2 : Nat) ^ 62 = 2 * 2 ^ 61 := by norm_num
    have h63 : (2 : Nat) ^ 63 = 2 * 2 ^ 62 := by norm_num
    rw [List.length_cons] at hlen
    have hb : exceeds (s.curr_size + 1) s.table_size = true → s.table_size < 2 ^ 62 := by
      intro hex
      have := lt_of_exceeds hex
      omega
    rw [insert_range64, insert_range, reserve64_eq hN h hts hb]
    cases hc : count hash s key with
    | none => rfl
    | some c =>
      cases c with
      | zero =>
        simp only []
        cases hr : reserve hash N s (s.curr_size + 1) with
        | none => rfl
        | some s1 =>
          simp only []
          cases hi : insert_ hash s1 key with
          | none => rfl
          | some r =>
            obtain ⟨p, s2⟩ := r
            simp only []
            obtain ⟨hinv2, hc2, -, hsz⟩ := insert_new_state hN h hc hr hi
            apply insert_range64_eq hN rest s2 hinv2
            · rcases hsz with hsz | ⟨hex, hsz⟩
              · rw [hsz]
                exact hts
              · have := hb hex
                omega
            · omega
      | succ c' =>
        simp only []
        exact insert_range64_eq hN rest s h hts (by omega)

/-- The range `insert`: a run that ends with a primary size below `2^62` has
wrapped no sum. -/
theorem insert_range64_ideal {hash : Key → Nat} {N : Nat} (hN : 1 ≤ N) :
    ∀ (l : List Key) (s s' : ADS_set Key), RInv hash N s →
      insert_range64 hash N s l = some s' → s'.table_size < 2 ^ 62 →
      insert_range hash N s l = some s'
  | [], s, s', _, hrun, _ => by
    rw [insert_range64] at hrun
    rw [insert_range]
    exact hrun
  | key :: rest, s, s', h, hrun, hlt => by
    have h63 : (2 : Nat) ^ 63 = 2 * 2 ^ 62 := by norm_num
    have hs := (insert_range64_grows (key :: rest) s s' hrun).lt hlt
    have hb : exceeds (s.curr_size + 1) s.table_size = true → s.table_size < 2 ^ 62 :=
      fun _ => hs
    rw [insert_range64, reserve64_eq hN h (by omega) hb] at hrun
    rw [insert_range]
    cases hc : count hash s key with
    | none =>
      rw [hc] at hrun
      cases hrun
    | some c =>
      rw [hc] at hrun
      cases c with
      | zero =>
        simp only [] at hrun ⊢
        cases hr : reserve hash N s (s.curr_size + 1) with
        | none =>
          rw [hr] at hrun
          cases hrun
        | some s1 =>
          rw [hr] at hrun
          simp only [] at hrun ⊢
          cases hi : insert_ hash s1 key with
          | none =>
            rw [hi] at hrun
            cases hrun
          | some r =>
            obtain ⟨p, s2⟩ := r
            rw [hi] at hrun
            simp only [] at hrun ⊢
            obtain ⟨hinv2, -, -, -⟩ := insert_new_state hN h hc hr hi
            exact insert_range64_ideal hN rest s2 s' hinv2 hrun hlt
      | succ c' =>
        simp only [] at hrun ⊢
        exact insert_range64_ideal hN rest s s' h hrun hlt

/-- One call of a trace: while the number of keys stays within `2^61` no sum
wraps, and the bounds hold again afterwards. -/
theorem step64_eq {hash : Key → Nat} {N : Nat} (hN : 1 ≤ N) {s : ADS_set Key}
    (h : RInv hash N s) (hts : s.table_size < 2 ^ 63) {r : Nat}
    (hlen : s.curr_size + (r + 1) ≤ 2 ^ 61) (op : Op Key) :
    step64 hash N s op = step hash N s op ∧
      ∀ s', step hash N s op = some s' →
        RInv hash N s' ∧ s'.table_size < 2 ^ 63 ∧ s'.curr_size + r ≤ 2 ^ 61 := by
  have h62 : (2 : Nat) ^ 62 = 2 * 2 ^ 61 := by norm_num
  have h63 : (2 : Nat) ^ 63 = 2 * 2 ^ 62 := by norm_num
  have hb : exceeds (s.curr_size + 1) s.table_size = true → s.table_size < 2 ^ 62 := by
    intro hex
    have := lt_of_exceeds hex
    omega
  cases op with
  | ins k =>
    refine ⟨by rw [step64, step, insert64_eq hN h hts hb], fun s' hs' => ?_⟩
    by_cases hmem : Mem s k
    · obtain ⟨it, hins, -⟩ := insert_present N h.1 hmem
      simp only [step, hins, Option.map_some', Option.some.injEq] at hs'
      subst hs'
      exact ⟨h, hts, by omega⟩
    · obtain ⟨it, s2, hins, hinv2, hc2, -, hf, ht⟩ := insert_sizes hN h hmem
      simp only [step, hins, Option.map_some', Option.some.injEq] at hs'
      subst hs'
      refine ⟨hinv2, ?_, by omega⟩
      by_cases hex : exceeds (s.curr_size + 1) s.table_size = true
      · have := hb hex
        rw [(ht hex).1]
        omega
      · rw [(hf (by simpa using hex)).1]
        exact hts
  | del k =>
    refine ⟨rfl, fun s' hs' => ?_⟩
    by_cases hmem : Mem s k
    · obtain ⟨s2, hs2, -, hp, -, hc, -⟩ := erase_present h.1 hmem
      obtain ⟨r', s3, hs3, hinv3, -⟩ := erase_step h k
      rw [hs2] at hs3
      cases hs3
      simp only [step, hs2, Option.map_some', Option.some.injEq] at hs'
      subst hs'
      exact ⟨hinv3, by rw [hp]; exact hts, by omega⟩
    · have := erase_absent h.1 hmem
      simp only [step, this, Option.map_some', Option.some.injEq] at hs'
      subst hs'
      exact ⟨h, hts, by omega⟩

/-- A trace: while the number of keys stays within `2^61` no sum wraps. -/
theorem runFrom64_eq {hash : Key → Nat} {N : Nat} (hN : 1 ≤ N) :
    ∀ (ops : List (Op Key)) (s : ADS_set Key), RInv hash N s → s.table_size < 2 ^ 63 →
      s.curr_size + ops.length ≤ 2 ^ 61 →
      runFrom64 hash N s ops = runFrom hash N s ops
  | [], s, _, _, _ => by rw [runFrom64, runFrom]
  | op :: ops, s, h, hts, hlen => by
    rw [List.length_cons] at hlen
    obtain ⟨h1, h2⟩ := step64_eq hN h hts hlen op
    rw [runFrom64, runFrom, h1]
    cases hs : step hash N s op with
    | none => rfl
    | some s' =>
      obtain ⟨hinv', hts', hlen'⟩ := h2 s' hs
      exact runFrom64_eq hN ops s' hinv' hts' hlen'

/-- A trace on a default-constructed container: for `N` below `2^63` and at
most `2^61` calls no sum wraps. -/
theorem run64_eq (hash : Key → Nat) {N : Nat} (hN : 1 ≤ N) (hN63 : N < 2 ^ 63)
    (ops : List (Op Key)) (hlen : ops.length ≤ 2 ^ 61) :
    run64 hash N ops = run hash N ops := by
  rw [run64, run, new64_eq hash hN63]
  cases hs : new hash N with
  | none => rfl
  | some s =>
    obtain ⟨hr, hc, -, hp, -⟩ := new_rinv hash hN hs
    exact runFrom64_eq hN ops s hr (by rw [hp]; exact hN63) (by rw [hc]; omega)

/-- The list constructor: for `N` below `2^63` and at most `2^61` keys no sum
wraps. -/
theorem new_ilist64_eq (hash : Key → Nat) {N : Nat} (hN : 1 ≤ N) (hN63 : N < 2 ^ 63)
    (L : List Key) (hlen : L.length ≤ 2 ^ 61) :
    new_ilist64 hash N L = new_ilist hash N L := by
  rw [new_ilist64, new_ilist, new64_eq hash hN63]
  cases hs : new hash N with
  | none => rfl
  | some s =>
    obtain ⟨hr, hc, -, hp, -⟩ := new_rinv hash hN hs
    exact insert_range64_eq hN L s hr (by rw [hp]; exact hN63) (by rw [hc]; omega)

/-- A state that the container reaches under the arithmetic of `size_type`
with a primary size below `2^62` is reached without any sum wrapping: the
operations on unbounded sizes produce it. -/
theorem Reachable64.ideal {hash : Key → Nat} {N : Nat} (hN : 1 ≤ N) {s : ADS_set Key}
    (hr : Reachable64 hash N s) : s.table_size < 2 ^ 62 → Reachable hash N s := by
  have h63 : (2 : Nat) ^ 63 = 2 * 2 ^ 62 := by norm_num
  have hctor : ∀ s : ADS_set Key, new64 hash N = some s → s.table_size < 2 ^ 62 →
      Reachable hash N s := by
    intro s hs hlt
    have hts := rehash64_table_size hs
    have hN63 : N < 2 ^ 63 := by
      rw [hts] at hlt
      have := le_max_left N (max N (divLf (blank : ADS_set Key).curr_size))
      omega
    rw [new64_eq hash hN63] at hs
    exact Reachable.ctor hs
  induction hr with
  | ctor hs => exact hctor _ hs
  | @insert s0 s1 k it b _ hins ih =>
    intro hlt
    have h0 := (insert64_grows hins).lt hlt
    have hr0 := ih h0
    rw [insert64_eq hN (hr0.rinv hN) (by omega) (fun _ => h0)] at hins
    exact Reachable.insert hr0 hins
  | @insert_range s0 s1 l _ hins ih =>
    intro hlt
    have h0 := (insert_range64_grows l s0 s1 hins).lt hlt
    have hr0 := ih h0
    exact Reachable.insert_range hr0 (insert_range64_ideal hN l s0 s1 (hr0.rinv hN) hins hlt)
  | @erase s0 s1 k r _ hers ih =>
    intro hlt
    have h0 : s0.table_size < 2 ^ 62 := by
      rw [← erase_sizes hers]
      exact hlt
    exact Reachable.erase (ih h0) hers
  | @clear s0 s1 _ hcl _ => exact hctor _ hcl

theorem step64_reachable {hash : Key → Nat} {N : Nat} {s s' : ADS_set Key} {op : Op Key}
    (hr : Reachable64 hash N s) (h : step64 hash N s op = some s') : Reachable64 hash N s' := by
  cases op with
  | ins k =>
    simp only [step64] at h
    cases h1 : insert64 hash N s k with
    | none => simp [h1] at h
    | some q =>
      obtain ⟨it, b, s1⟩ := q
      simp only [h1, Option.map_some', Option.some.injEq] at h
      subst h
      exact Reachable64.insert hr h1
  | del k =>
    simp only [step64] at h
    cases h1 : erase hash s k with
    | none => simp [h1] at h
    | some q =>
      obtain ⟨r, s1⟩ := q
      simp only [h1, Option.map_some', Option.some.injEq] at h
      subst h
      exact Reachable64.erase hr h1

theorem runFrom64_reachable {hash : Key → Nat} {N : Nat} :
    ∀ (ops : List (Op Key)) (s s' : ADS_set Key), Reachable64 hash N s →
      runFrom64 hash N s ops = some s' → Reachable64 hash N s'
  | [], s, s', hr, hs => by
    simp only [runFrom64, Option.some.injEq] at hs
    exact hs ▸ hr
  | op :: ops, s, s', hr, hs => by
    simp only [runFrom64] at hs
    cases h1 : step64 hash N s op with
    | none => simp [h1] at hs
    | some s1 =>
      simp only [h1] at hs
      exact runFrom64_reachable ops s1 s' (step64_reachable hr h1) hs

/-- The state after a sequence of calls on a fresh container is reachable,
under the arithmetic of `size_type`. -/
theorem run64_reachable {hash : Key → Nat} {N : Nat} {ops : List (Op Key)} {s : ADS_set Key}
    (hs : run64 hash N ops = some s) : Reachable64 hash N s := by
  unfold run64 at hs
  cases h0 : new64 hash N with
  | none => simp [h0] at hs
  | some s0 =>
    simp only [h0] at hs
    exact runFrom64_reachable ops s0 s (Reachable64.ctor h0) hs

theorem exChain_reachable64 : Reachable64 id 23 exChain :=
  run64_reachable (by decide : run64 id 23 exOps = some exChain)

theorem exWrapped_reachable64 : Reachable64 id bigN exWrapped :=
  Reachable64.ctor (by decide : new64 id bigN = some exWrapped)

/-- C1 as stated fails. For `N = 15864073173679996928` the sum
`N + floor(N * cellar)` is `2^64` and wraps to 0 in `size_type`: the
default-constructed table is the sentinel alone, `insert(0)` returns without
storing the key, and `count(0)` is 0 although the last call that mentions 0 is
an insert. -/
theorem C1_counterexample :
    1 ≤ bigN ∧ bigN < 2 ^ 64 ∧ bigN + cellarOf bigN = 2 ^ 64 ∧
      ∃ s, run64 id bigN [Op.ins 0] = some s ∧ lastIsInsert 0 [Op.ins 0] = true ∧
        count id s 0 = some 0 ∧
        count id s 0 ≠ some (if lastIsInsert 0 [Op.ins 0] then 1 else 0) :=
  ⟨by decide, by decide, by decide, exWrapped, by decide, by decide, by decide, by decide⟩

/-- C1, amended. Set semantics over traces while the sizes stay in the range
of `size_type`: after a sequence of at most `2^61` `insert`/`erase` calls on a
default-constructed container (any hash, `1 ≤ N < 2^63`) the calls all return,
and for every key `k`, `count(k)` is 1 if the last call of the sequence that
mentions `k` is an insert, and 0 otherwise. -/
theorem C1_trace_semantics (hash : Key → Nat) (N : Nat) (hN : 1 ≤ N) (hN63 : N < 2 ^ 63)
    (ops : List (Op Key)) (hlen : ops.length ≤ 2 ^ 61) :
    ∃ s, run64 hash N ops = some s ∧
      ∀ k, count hash s k = some (if lastIsInsert k ops then 1 else 0) := by
  obtain ⟨s, hs, hinv, hm⟩ := @run_spec Key _ _ hash N hN ops
  rw [← run64_eq hash hN hN63 ops hlen] at hs
  refine ⟨s, hs, fun k => ?_⟩
  by_cases hl : lastIsInsert k ops = true
  · rw [hl]
    exact (count_eq_one_iff hinv.1 k).2 ((hm k).2 hl)
  · have hl' : lastIsInsert k ops = false := by simpa using hl
    rw [hl']
    exact (count_eq_zero_iff hinv.1 k).2 (fun h => hl ((hm k).1 h))

/-- Witness of C1: the trace `exTrace` on a default table of 23 slots. -/
theorem C1_witness :
    1 ≤ 23 ∧ 23 < 2 ^ 63 ∧ exTrace.length ≤ 2 ^ 61 ∧
      ∃ s, run64 id 23 exTrace = some s ∧
        ∀ k, count id s k = some (if lastIsInsert k exTrace then 1 else 0) :=
  ⟨by decide, by decide, by decide,
    C1_trace_semantics id 23 (by decide) (by decide) exTrace (by decide)⟩

/-- C5 as stated fails. The default-constructed container for
`N = 15864073173679996928` is the sentinel alone (`full_table` wrapped to 0);
on it `count(0)` is 0 and `insert(0)` returns `inserted == true`, yet the state
is unchanged: `size()` stays 0 and `count(0)` stays 0. -/
theorem C5_counterexample :
    Reachable64 id bigN exWrapped ∧ count id exWrapped 0 = some 0 ∧
      ∃ it s', insert64 id bigN exWrapped 0 = some (it, true, s') ∧
        size s' = size exWrapped ∧ size s' ≠ size exWrapped + 1 ∧ count id s' 0 = some 0 :=
  ⟨exWrapped_reachable64, by decide, 0, exWrapped, by decide, by decide, by decide, by decide⟩

/-- C5, amended. Insert of a new key while the sizes stay in the range of
`size_type`: on a reachable state with primary size below `2^62` and
`count(k) == 0`, `insert(k)` returns `inserted == true` and an iterator that
dereferences to `k`, `size()` grows by exactly one, `count(k)` is 1
afterwards, and `count(j)` is unchanged for every other key `j` (no key is
lost, none appears). -/
theorem C5_insert_new (hash : Key → Nat) (N : Nat) (hN : 1 ≤ N) (s : ADS_set Key)
    (hr : Reachable64 hash N s) (hts : s.table_size < 2 ^ 62) (k : Key)
    (hc : count hash s k = some 0) :
    ∃ it s', insert64 hash N s k = some (it, true, s') ∧ deref s' it = some k ∧
      size s' = size s + 1 ∧ count hash s' k = some 1 ∧
      ∀ j, j ≠ k → count hash s' j = count hash s j := by
  have h63 : (2 : Nat) ^ 63 = 2 * 2 ^ 62 := by norm_num
  have hinv := (hr.ideal hN hts).rinv hN
  have hnew := (count_eq_zero_iff hinv.1 k).1 hc
  obtain ⟨it, s1, s', -, hins, hinv', hsz, hm, hd, -, -⟩ := insert_new hN hinv.1 hnew
  rw [← insert64_eq hN hinv (by omega) (fun _ => hts) k] at hins
  refine ⟨it, s', hins, hd, hsz, (count_eq_one_iff hinv' k).2 ((hm k).2 (Or.inl rfl)), ?_⟩
  intro j hj
  apply count_congr hinv.1 hinv'
  rw [hm j]
  exact ⟨fun h => h.resolve_left hj, fun h => Or.inr h⟩

/-- Witness of C5: inserting the new colliding key 74 behind `5 -> 25 -> 24`. -/
theorem C5_witness :
    1 ≤ 23 ∧ Reachable64 id 23 exChain ∧ exChain.table_size < 2 ^ 62 ∧
      count id exChain 74 = some 0 ∧
      ∃ it s', insert64 id 23 exChain 74 = some (it, true, s') ∧ deref s' it = some 74 ∧
        size s' = size exChain + 1 ∧ count id s' 74 = some 1 ∧
        ∀ j, j ≠ 74 → count id s' j = count id exChain j :=
  ⟨by decide, exChain_reachable64, by decide, by decide,
    C5_insert_new id 23 (by decide) exChain exChain_reachable64 (by decide) 74 (by decide)⟩

/-- C14 as stated fails. On the default-constructed container for
`N = 15864073173679996928` (the sentinel alone) `insert({0})` returns without
storing the key, and the container constructed from the list `{0}` has size 0
and `count(0) == 0`, where the list has one distinct key. -/
theorem C14_counterexample :
    Reachable64 id bigN exWrapped ∧
      (∃ s', insert_range64 id bigN exWrapped [0] = some s' ∧ count id s' 0 = some 0 ∧
        size s' = 0) ∧
      (∃ s', new_ilist64 id bigN [0] = some s' ∧ count id s' 0 = some 0 ∧ size s' = 0 ∧
        size s' ≠ ([0] : List Nat).dedup.length) :=
  ⟨exWrapped_reachable64, ⟨exWrapped, by decide, by decide, by decide⟩,
    ⟨exWrapped, by decide, by decide, by decide, by decide⟩⟩

/-- C14, amended. Bulk insert while the sizes stay in the range of
`size_type`: on a reachable state with primary size below `2^62`, for a list
`L` with `size() + |L| ≤ 2^61`, `insert(L)` returns; afterwards the stored keys
are the old keys together with the keys of `L`, and `size()` is the number of
distinct keys of that union, that is the old size plus the number of distinct
keys of `L` that were not stored. The list constructor stores exactly the keys
of its list, each once. -/
theorem C14_bulk_insert (hash : Key → Nat) (N : Nat) (hN : 1 ≤ N) (s : ADS_set Key)
    (hr : Reachable64 hash N s) (hts : s.table_size < 2 ^ 62) (L : List Key)
    (hlen : size s + L.length ≤ 2 ^ 61) :
    (∃ s', insert_range64 hash N s L = some s' ∧
      (∀ k, count hash s' k = some 1 ↔ count hash s k = some 1 ∨ k ∈ L) ∧
      (∀ k, count hash s' k = some 0 ↔ count hash s k = some 0 ∧ k ∉ L) ∧
      size s' = size s + (L.dedup.filter (fun k => decide (count hash s k = some 0))).length ∧
      ∃ l0, traverse s = some l0 ∧
        size s' = ((l0.map Prod.snd).toFinset ∪ L.toFinset).card) ∧
    (∃ s', new_ilist64 hash N L = some s' ∧ size s' = L.dedup.length ∧
      ∀ k, count hash s' k = some (if k ∈ L then 1 else 0)) := by
  have h63 : (2 : Nat) ^ 63 = 2 * 2 ^ 62 := by norm_num
  have hinv := (hr.ideal hN hts).rinv hN
  have hNP := hinv.2.1
  have hlen' : s.curr_size + L.length ≤ 2 ^ 61 := hlen
  constructor
  · obtain ⟨s', hs', hinv', hm⟩ := insert_range_spec hN L s hinv
    rw [← insert_range64_eq hN L s hinv (by omega) hlen'] at hs'
    obtain ⟨hsz1, hsz2⟩ := insert_range_size hinv.1 hinv'.1 L hm
    obtain ⟨l0, hl0, -⟩ := traverse_spec hinv.1
    refine ⟨s', hs', fun k => ?_, fun k => ?_, hsz1, l0, hl0, hsz2 l0 hl0⟩
    · rw [count_eq_one_iff hinv'.1 k, hm k, count_eq_one_iff hinv.1 k]
      exact Or.comm
    · rw [count_eq_zero_iff hinv'.1 k, hm k, count_eq_zero_iff hinv.1 k]
      constructor
      · intro h
        exact ⟨fun h1 => h (Or.inr h1), fun h1 => h (Or.inl h1)⟩
      · rintro ⟨h1, h2⟩ (h | h)
        · exact h2 h
        · exact h1 h
  · obtain ⟨s0, hs0, hinv0, hc0, hm0, -⟩ := @new_spec Key _ _ hash N hN
    have hr0 := (new_rinv hash hN hs0).1
    obtain ⟨s', hs', hinv', hm⟩ := insert_range_spec hN L s0 hr0
    obtain ⟨hsz1, -⟩ := insert_range_size hr0.1 hinv'.1 L hm
    have hrun : new_ilist hash N L = some s' := by simp [new_ilist, hs0, hs']
    rw [← new_ilist64_eq hash hN (by omega) L (by omega)] at hrun
    refine ⟨s', hrun, ?_, fun k => ?_⟩
    · rw [size, hsz1, hc0, Nat.zero_add]
      congr 1
      apply List.filter_eq_self.2
      intro k _
      simp only [decide_eq_true_eq]
      exact (count_eq_zero_iff hr0.1 k).2 (hm0 k)
    · by_cases hk : k ∈ L
      · rw [if_pos hk, count_eq_one_iff hinv'.1 k, hm k]
        exact Or.inl hk
      · rw [if_neg hk, count_eq_zero_iff hinv'.1 k, hm k]
        rintro (h | h)
        · exact hk h
        · exact hm0 k h

/-- Witness of C14: the list `1, 2, 2, 3` inserted into the container holding
`5, 28, 51`, and the container constructed from `1, 2, 2, 3`, which has size 3
and holds the key 2 once. -/
theorem C14_witness :
    1 ≤ 23 ∧ Reachable64 id 23 exChain ∧ exChain.table_size < 2 ^ 62 ∧
      size exChain + ([1, 2, 2, 3] : List Nat).length ≤ 2 ^ 61 ∧
      ((∃ s', insert_range64 id 23 exChain [1, 2, 2, 3] = some s' ∧
        (∀ k, count id s' k = some 1 ↔ count id exChain k = some 1 ∨ k ∈ [1, 2, 2, 3]) ∧
        (∀ k, count id s' k = some 0 ↔ count id exChain k = some 0 ∧ k ∉ [1, 2, 2, 3]) ∧
        size s' = size exChain
          + (([1, 2, 2, 3] : List Nat).dedup.filter
              (fun k => decide (count id exChain k = some 0))).length ∧
        ∃ l0, traverse exChain = some l0 ∧
          size s' = ((l0.map Prod.snd).toFinset ∪ ([1, 2, 2, 3] : List Nat).toFinset).card) ∧
      (∃ s', new_ilist64 id 23 [1, 2, 2, 3] = some s' ∧
        size s' = ([1, 2, 2, 3] : List Nat).dedup.length ∧
        ∀ k, count id s' k = some (if k ∈ [1, 2, 2, 3] then 1 else 0))) ∧
      (∃ s', new_ilist64 id 23 [1, 2, 2, 3] = some s' ∧ size s' = 3 ∧
        count id s' 2 = some 1) :=
  ⟨by decide, exChain_reachable64, by decide, by decide,
    C14_bulk_insert id 23 (by decide) exChain exChain_reachable64 (by decide) [1, 2, 2, 3]
      (by decide),
    by decide⟩

/-- C19 as stated fails. The default-constructed container for `N = 0` has
`table_last = 0`, and so has the one for `N = 15864073173679996928`, whose
`full_table` wrapped to 0: in both reachable states `0 < table_last` is
false. -/
theorem C19_counterexample :
    (∃ s : ADS_set Nat, new64 id 0 = some s ∧ Reachable64 id 0 s ∧ s.table_last = 0 ∧
      ¬ 0 < s.table_last) ∧
    (new64 id bigN = some exWrapped ∧ Reachable64 id bigN exWrapped ∧
      exWrapped.table_last = 0 ∧ ¬ 0 < exWrapped.table_last) :=
  ⟨⟨(new64 id 0).getD blank, by decide, Reachable64.ctor (by decide), by decide, by decide⟩,
    ⟨by decide, exWrapped_reachable64, by decide, by decide⟩⟩

/-- C19, amended. Probe-cursor invariant for `N ≥ 1` while the sizes stay in
the range of `size_type`: in every reachable state with primary size below
`2^62`, `0 < table_last ≤ full_table` and every slot with index in
`[table_last, full_table)` is used; the probe loop of `insert_`, entered at an
occupied slot, applies the pre-decrement of `g` to positive cursor values only
and finds a free slot within `full_table` probes. The same holds in the state
that `reserve(size + 1)` hands to `insert_`. -/
theorem C19_probe_cursor (hash : Key → Nat) (N : Nat) (hN : 1 ≤ N) (s : ADS_set Key)
    (hr : Reachable64 hash N s) (hts : s.table_size < 2 ^ 62) :
    0 < s.table_last ∧ s.table_last ≤ s.full_table ∧
    (∀ j, s.table_last ≤ j → j < s.full_table →
      ∃ e, s.table[j]? = some e ∧ e.mode = Mode.used) ∧
    ProbeSafe s ∧
    ∃ s1, reserve64 hash N s ((size s + 1) % 2 ^ 64) = some s1 ∧ 0 < s1.table_last ∧
      s1.table_last ≤ s1.full_table ∧ ProbeSafe s1 := by
  have h63 : (2 : Nat) ^ 63 = 2 * 2 ^ 62 := by norm_num
  have hrinv := (hr.ideal hN hts).rinv hN
  have hinv := hrinv.1
  obtain ⟨hpos, hsafe⟩ := probe_safe hinv hrinv.size_lt
  refine ⟨hpos, hinv.2.1, hinv.2.2, hsafe, ?_⟩
  obtain ⟨s1, hs1, hinv1, hc1, -, hn1⟩ := reserve_spec hN hinv (size s + 1)
  have heq : reserve64 hash N s ((size s + 1) % 2 ^ 64) = reserve hash N s (size s + 1) :=
    reserve64_eq hN hrinv (by omega) (fun _ => hts)
  rw [← heq] at hs1
  have hsz : s1.curr_size < s1.full_table := by
    have h1 := hinv1.1.ple
    have h2 : size s = s.curr_size := rfl
    omega
  obtain ⟨hpos1, hsafe1⟩ := probe_safe hinv1 hsz
  exact ⟨s1, hs1, hpos1, hinv1.2.1, hsafe1⟩

/-- Witness of C19: the container holding `5, 28, 51`, whose cursor stands at
24; a probe entered at the occupied slot 5 decrements the cursor once. -/
theorem C19_witness :
    1 ≤ 23 ∧ Reachable64 id 23 exChain ∧ exChain.table_size < 2 ^ 62 ∧
      exChain.table_last = 24 ∧
      probe_cursors (exChain.table_last + exChain.full_table + 1) exChain 5 = [24] ∧
      (0 < exChain.table_last ∧ exChain.table_last ≤ exChain.full_table ∧
      (∀ j, exChain.table_last ≤ j → j < exChain.full_table →
        ∃ e, exChain.table[j]? = some e ∧ e.mode = Mode.used) ∧
      ProbeSafe exChain ∧
      ∃ s1, reserve64 id 23 exChain ((size exChain + 1) % 2 ^ 64) = some s1 ∧
        0 < s1.table_last ∧ s1.table_last ≤ s1.full_table ∧ ProbeSafe s1) :=
  ⟨by decide, exChain_reachable64, by decide, by decide, by decide,
    C19_probe_cursor id 23 (by decide) exChain exChain_reachable64 (by decide)⟩

end Proofs

end ADS
